import Mathlib

/-!
# Project1.cpp: the 8-puzzle solver

A shallow embedding of `src/Project1.cpp` (board type, successor generator,
heuristics, solvability check and the three search engines) and theorems about it.

Conventions of the embedding.

* `vector<int>` is `List Int`; an `int` is an `Int`.  The counters `depth`,
  `expanded` and `maxSize` stay far below `2^31` on 3x3 boards and are not
  wrapped; the inversion counter of `Possible` is claimed for vectors of any
  length and is wrapped to 32 bits (`wrapInt32`).
* `double` is a parameter: `DoubleOps D` lists the operations on `double` the
  program uses.  `exactIntOps` is the instance that is exact on integer values.
* An index outside a vector is undefined behaviour in the source; the embedding
  reads `0` there (`List.getD`) and leaves the vector unchanged on a write
  (`List.set`).  The theorems only use indices inside the vector.
* `cout` output is not modelled; a search returns what it prints at the end.
* A search function is its loop body (`UniformCostSearchBody`, `AStarBody`) run
  from its initial locals by `runLoop` with a bound on the number of passes;
  termination theorems give a bound from which the result no longer changes.
-/

namespace Project1

/-! ## Data model -/

/-- Perfect puzzle (`goal`, line 7). -/
def goal : List Int := [1, 2, 3, 4, 5, 6, 7, 8, 0]

/-- Operations on `double` used by the program: conversion from `int`, `+`,
`pow`, `sqrt`, `<`, and the conversion to `int` of a braced initialiser. -/
structure DoubleOps (D : Type) where
  ofInt : Int → D
  add : D → D → D
  pow : D → D → D
  sqrt : D → D
  lt : D → D → Bool
  toInt : D → Int

/-- Largest `k` with `k * k ≤ n`. -/
def natSqrt (n : Nat) : Nat :=
  ((List.range (n + 1)).filter (fun k => decide (k * k ≤ n))).length - 1

/-- Integer-valued instance of `DoubleOps`: exact wherever every value involved
is an integer below `2^53` (all of `UniformCostSearch` and `AStarMisplaced`);
`sqrt` rounds down, so it is exact on perfect squares only. -/
def exactIntOps : DoubleOps Int where
  ofInt := fun x => x
  add := fun a b => a + b
  pow := fun a b => a ^ b.toNat
  sqrt := fun a => (natSqrt a.toNat : Int)
  lt := fun a b => decide (a < b)
  toInt := fun x => x

/-- Struct `PuzzleState` (lines 10-16), fields in declaration order. -/
structure PuzzleState (D : Type) where
  state : List Int
  heuristic : D
  depth : Int
  zero : Int
  deriving DecidableEq, Repr

variable {D : Type}

/-! ## Successor generator -/

/-- Effect of `swap(v[i], v[j])` on a vector. -/
def swapCells (v : List Int) (i j : Nat) : List Int :=
  (v.set i (v.getD j 0)).set j (v.getD i 0)

/-- Local `moves` of `ValidMoveset`: left, right, up, down. -/
def moves : List Int := [-1, 1, -3, 3]

/-- One pass of the `for (int mov : moves)` body of `ValidMoveset` (lines 50-66). -/
def ValidMovesetBody (F : DoubleOps D) (curr : PuzzleState D)
    (nextMoves : List (PuzzleState D)) (mov : Int) : List (PuzzleState D) :=
  let blankTile := curr.zero
  let newPos := blankTile + mov
  if newPos < 0 ∨ newPos ≥ 9 ∨ (Int.tmod blankTile 3 = 0 ∧ mov = -1)
      ∨ (Int.tmod blankTile 3 = 2 ∧ mov = 1) then
    nextMoves
  else
    nextMoves ++
      [{ state := swapCells curr.state blankTile.toNat newPos.toNat
         heuristic := F.ofInt 0
         depth := curr.depth + 1
         zero := newPos }]

/-- Function `ValidMoveset` (lines 43-69). -/
def ValidMoveset (F : DoubleOps D) (curr : PuzzleState D) : List (PuzzleState D) :=
  moves.foldl (ValidMovesetBody F curr) []

/-! ## Heuristics -/

/-- Function `Euclidean` (lines 74-98); `/` and `%` of C++ truncate. -/
def Euclidean (F : DoubleOps D) (state : List Int) : D :=
  (List.range state.length).foldl
    (fun dis i =>
      if state.getD i 0 = 0 then dis
      else
        let targetRow := Int.tdiv (state.getD i 0 - 1) 3
        let targetCol := Int.tmod (state.getD i 0 - 1) 3
        let currRow := Int.tdiv (i : Int) 3
        let currCol := Int.tmod (i : Int) 3
        F.add dis
          (F.sqrt (F.add (F.pow (F.ofInt (targetRow - currRow)) (F.ofInt 2))
            (F.pow (F.ofInt (targetCol - currCol)) (F.ofInt 2)))))
    (F.ofInt 0)

/-- Function `OutOfPlace` (lines 103-118). -/
def OutOfPlace (state : List Int) : Int :=
  (List.range state.length).foldl
    (fun outofplace i =>
      if state.getD i 0 ≠ 0 ∧ state.getD i 0 ≠ goal.getD i 0 then outofplace + 1
      else outofplace)
    0

/-! ## Solvability check -/

/-- Value of a 32-bit `int` after an arithmetic result `x` (two's complement). -/
def wrapInt32 (x : Int) : Int := (x + 2 ^ 31) % 2 ^ 32 - 2 ^ 31

/-- Inner loop of `Possible` (lines 466-477) for a fixed `i`. -/
def PossibleInner (puzzle : List Int) (i : Nat) (inversions : Int) : Int :=
  (List.range' (i + 1) (puzzle.length - (i + 1))).foldl
    (fun inv j =>
      if puzzle.getD j 0 = 0 then inv
      else if puzzle.getD i 0 > puzzle.getD j 0 then wrapInt32 (inv + 1)
      else inv)
    inversions

/-- Counter `inversions` at the end of the outer loop of `Possible` (lines 457-478). -/
def PossibleInversions (puzzle : List Int) : Int :=
  (List.range puzzle.length).foldl
    (fun inv i => if puzzle.getD i 0 = 0 then inv else PossibleInner puzzle i inv)
    0

/-- Function `Possible` (lines 455-481). -/
def Possible (puzzle : List Int) : Bool :=
  Int.tmod (PossibleInversions puzzle) 2 == 0

/-! ## Search engines -/

/-- What a search prints when it stops: the `Goal!!!` branch reports the nodes
expanded, the maximum queue size and the depth of the goal node; the
"could not find a solution" branch reports the first two. -/
inductive SearchResult where
  | success (expanded maxSize depth : Int)
  | failure (expanded maxSize : Int)
  deriving DecidableEq, Repr

/-- Local variables of a search function that live across loop iterations. -/
structure SearchState (D : Type) where
  openList : List (PuzzleState D)
  explored : List (List Int)
  expanded : Int
  maxSize : Int

/-- Search for the index of the state with the lowest cost (lines 144-151):
`mindex` starts at 0 and moves to `i` whenever `less open[i] open[mindex]`. -/
def mindexLoop {α : Type} (less : α → α → Bool) (openList : List α) : Nat :=
  (List.range' 1 (openList.length - 1)).foldl
    (fun mindex i =>
      match openList[i]?, openList[mindex]? with
      | some a, some b => if less a b then i else mindex
      | _, _ => mindex)
    0

/-- Scan of `explored` for a state equal to `s` (lines 180-188). -/
def previouslyExplored (explored : List (List Int)) (s : List Int) : Bool :=
  explored.any (fun exploredState => exploredState == s)

/-- Scan of `open` for a node whose state equals `s` (lines 276-284). -/
def inside (openList : List (PuzzleState D)) (s : List Int) : Bool :=
  openList.any (fun openState => openState.state == s)

/-- Index of the first `0` of the puzzle, or its size when there is none:
`find(puzzle.begin(), puzzle.end(), 0) - puzzle.begin()`. -/
def findZero (puzzle : List Int) : Int := (puzzle.indexOf 0 : Nat)

/-- Cost comparison of `UniformCostSearch` (line 147). -/
def ucsLess (a b : PuzzleState D) : Bool := decide (a.depth < b.depth)

/-- Cost comparison of the A* functions (lines 230 and 326). -/
def astarLess (F : DoubleOps D) (a b : PuzzleState D) : Bool :=
  F.lt (F.add (F.ofInt a.depth) a.heuristic) (F.add (F.ofInt b.depth) b.heuristic)

/-- One pass of the `for (PuzzleState& heir : heirs)` loop of `UniformCostSearch`
(lines 178-194) on the queue `o`. -/
def ucsPush (explored : List (List Int)) (o : List (PuzzleState D)) (heir : PuzzleState D) :
    List (PuzzleState D) :=
  if !previouslyExplored explored heir.state then o ++ [heir] else o

/-- One pass of the `for (PuzzleState& heir : heirs)` loop of the A* functions
(lines 262-290 and 358-386) on the queue `o`, with heuristic `h`. -/
def astarPush (h : List Int → D) (explored : List (List Int)) (o : List (PuzzleState D))
    (heir0 : PuzzleState D) : List (PuzzleState D) :=
  let heir : PuzzleState D := { heir0 with heuristic := h heir0.state }
  if !previouslyExplored explored heir.state && !inside o heir.state then o ++ [heir] else o

/-- One pass of the `while (!open.empty())` loop of `UniformCostSearch`
(lines 139-195): either the function returns, or the loop goes on. -/
def UniformCostSearchBody (F : DoubleOps D) (st : SearchState D) :
    Except SearchResult (SearchState D) :=
  match st.openList with
  | [] => .error (.failure st.expanded st.maxSize)
  | first :: rest =>
    let maxSize := max st.maxSize ((first :: rest).length : Int)
    let mindex := mindexLoop ucsLess (first :: rest)
    let curr := (first :: rest).getD mindex first
    let opened := (first :: rest).eraseIdx mindex
    if curr.state = goal then
      .error (.success st.expanded maxSize curr.depth)
    else
      let explored := st.explored ++ [curr.state]
      let expanded := st.expanded + 1
      let heirs := ValidMoveset F curr
      .ok { openList := heirs.foldl (ucsPush explored) opened
            explored := explored
            expanded := expanded
            maxSize := maxSize }

/-- One pass of the `while (!open.empty())` loop shared, up to the heuristic
`h`, by `AStarMisplaced` (lines 222-291) and `AStarEuclidean` (lines 318-387). -/
def AStarBody (F : DoubleOps D) (h : List Int → D) (st : SearchState D) :
    Except SearchResult (SearchState D) :=
  match st.openList with
  | [] => .error (.failure st.expanded st.maxSize)
  | first :: rest =>
    let maxSize := max st.maxSize ((first :: rest).length : Int)
    let mindex := mindexLoop (astarLess F) (first :: rest)
    let curr0 := (first :: rest).getD mindex first
    let opened := (first :: rest).eraseIdx mindex
    let curr : PuzzleState D := { curr0 with heuristic := h curr0.state }
    if curr.state = goal then
      .error (.success st.expanded maxSize curr.depth)
    else
      let explored := st.explored ++ [curr.state]
      let expanded := st.expanded + 1
      let heirs := ValidMoveset F curr
      .ok { openList := heirs.foldl (astarPush h explored) opened
            explored := explored
            expanded := expanded
            maxSize := maxSize }

/-- Locals of `UniformCostSearch` when the loop is first reached (lines 125-132). -/
def UniformCostSearchInit (F : DoubleOps D) (puzzle : List Int) : SearchState D :=
  { openList := [{ state := puzzle, heuristic := F.ofInt 0, depth := 0,
                   zero := findZero puzzle }]
    explored := []
    expanded := 0
    maxSize := 0 }

/-- Locals of `AStarMisplaced` when the loop is first reached (lines 207-215).
The braced initialiser of line 213 fills the fields in declaration order
`state, heuristic, depth, zero`. -/
def AStarMisplacedInit (F : DoubleOps D) (puzzle : List Int) : SearchState D :=
  { openList := [{ state := puzzle, heuristic := F.ofInt 0, depth := OutOfPlace puzzle,
                   zero := findZero puzzle }]
    explored := []
    expanded := 0
    maxSize := 0 }

/-- Locals of `AStarEuclidean` when the loop is first reached (lines 303-311).
The braced initialiser of line 309 fills the fields in declaration order
`state, heuristic, depth, zero`; the `double` in the `depth` slot is narrowed to
`int` (`DoubleOps.toInt`; compilers that accept the narrowing truncate). -/
def AStarEuclideanInit (F : DoubleOps D) (puzzle : List Int) : SearchState D :=
  { openList := [{ state := puzzle, heuristic := F.ofInt 0,
                   depth := F.toInt (Euclidean F puzzle), zero := findZero puzzle }]
    explored := []
    expanded := 0
    maxSize := 0 }

/-- State after `n` complete passes of a loop body, if the loop ran that long. -/
def iterateBody {S R : Type} (body : S → Except R S) : Nat → S → Option S
  | 0, s => some s
  | n + 1, s =>
    match body s with
    | .ok s' => iterateBody body n s'
    | .error _ => none

/-- Result of a loop that returns within `fuel` passes. -/
def runLoop {S R : Type} (body : S → Except R S) : Nat → S → Option R
  | 0, _ => none
  | fuel + 1, s =>
    match body s with
    | .ok s' => runLoop body fuel s'
    | .error r => some r

/-- Function `UniformCostSearch` (lines 123-200), run for at most `fuel` passes. -/
def UniformCostSearch (F : DoubleOps D) (fuel : Nat) (puzzle : List Int) :
    Option SearchResult :=
  runLoop (UniformCostSearchBody F) fuel (UniformCostSearchInit F puzzle)

/-- Function `AStarMisplaced` (lines 205-296), run for at most `fuel` passes. -/
def AStarMisplaced (F : DoubleOps D) (fuel : Nat) (puzzle : List Int) :
    Option SearchResult :=
  runLoop (AStarBody F (fun s => F.ofInt (OutOfPlace s))) fuel (AStarMisplacedInit F puzzle)

/-- Function `AStarEuclidean` (lines 301-392), run for at most `fuel` passes. -/
def AStarEuclidean (F : DoubleOps D) (fuel : Nat) (puzzle : List Int) :
    Option SearchResult :=
  runLoop (AStarBody F (Euclidean F)) fuel (AStarEuclideanInit F puzzle)

/-! ## Predicates and auxiliary functions used by the theorems -/

/-- A board: a permutation of `0..8`. -/
def ValidBoard (s : List Int) : Prop := s.Perm [0, 1, 2, 3, 4, 5, 6, 7, 8]

instance (s : List Int) : Decidable (ValidBoard s) := by unfold ValidBoard; infer_instance

/-- Board invariant of a node: the state is a permutation of `0..8` and the
`zero` field is the index of the blank. -/
def ValidState (p : PuzzleState D) : Prop :=
  ValidBoard p.state ∧ 0 ≤ p.zero ∧ p.state[p.zero.toNat]? = some 0

instance (p : PuzzleState D) : Decidable (ValidState p) := by unfold ValidState; infer_instance

/-- Indices `z` and `p` are neighbours on the 3x3 grid (row `i / 3`, column
`i % 3`): same row and columns one apart, or same column and rows one apart. -/
def gridAdjacent (z p : Int) : Prop :=
  (z / 3 = p / 3 ∧ (z % 3 - p % 3 = 1 ∨ p % 3 - z % 3 = 1)) ∨
  (z % 3 = p % 3 ∧ (z / 3 - p / 3 = 1 ∨ p / 3 - z / 3 = 1))

instance (z p : Int) : Decidable (gridAdjacent z p) := by unfold gridAdjacent; infer_instance

/-- Guard of line 56: the move `mov` is rejected from blank position `blankTile`. -/
def moveRejected (blankTile mov : Int) : Prop :=
  blankTile + mov < 0 ∨ blankTile + mov ≥ 9 ∨ (Int.tmod blankTile 3 = 0 ∧ mov = -1)
    ∨ (Int.tmod blankTile 3 = 2 ∧ mov = 1)

instance (z p : Int) : Decidable (moveRejected z p) := by unfold moveRejected; infer_instance

/-- Node pushed by `ValidMoveset` (line 65) for an accepted move. -/
def moveNode (F : DoubleOps D) (curr : PuzzleState D) (mov : Int) : PuzzleState D :=
  { state := swapCells curr.state curr.zero.toNat (curr.zero + mov).toNat
    heuristic := F.ofInt 0
    depth := curr.depth + 1
    zero := curr.zero + mov }

/-- Node `b` is obtained from node `a` by a sequence of exactly `n` moves, each
taking a node to one of its `ValidMoveset` successors. -/
def reachIn (F : DoubleOps D) : Nat → PuzzleState D → PuzzleState D → Prop
  | 0, a, b => a = b
  | n + 1, a, b => ∃ m ∈ ValidMoveset F a, reachIn F n m b

/-- Number of index pairs `(i, j)` with `i < j`, both cells non-blank and
`puzzle[i] > puzzle[j]`: the inversions of the solvability check as the
specification words them. -/
def inversionPairs (puzzle : List Int) : Finset (Nat × Nat) :=
  ((Finset.range puzzle.length) ×ˢ (Finset.range puzzle.length)).filter
    (fun p => p.1 < p.2 ∧ puzzle.getD p.1 0 ≠ 0 ∧ puzzle.getD p.2 0 ≠ 0
      ∧ puzzle.getD p.1 0 > puzzle.getD p.2 0)

/-- Inversions of a list by recursion on the list: each non-blank head is
compared with the non-blank cells after it. -/
def invCount : List Int → Nat
  | [] => 0
  | a :: l => (if a = 0 then 0 else l.countP (fun b => decide (b ≠ 0 ∧ a > b))) + invCount l

/-- Body of the inner loop of `Possible` as a function of the two cells compared. -/
def invStep (a : Int) (inv : Int) (b : Int) : Int :=
  if b = 0 then inv else if a > b then wrapInt32 (inv + 1) else inv

/-- The outer loop of `Possible` by recursion on the cells still to visit. -/
def invWrapped : List Int → Int → Int
  | [], inv => inv
  | a :: rest, inv => invWrapped rest (if a = 0 then inv else rest.foldl (invStep a) inv)

/-- Indicator of `a > b`. -/
def gt01 (a b : Int) : Nat := if a > b then 1 else 0

/-- Pairs of a list that are out of order, counted over all cells. -/
def invAll : List Int → Nat
  | [] => 0
  | a :: l => (l.map (gt01 a)).sum + invAll l

/-- Facts about `double` zero used when the start board is the goal:
`pow(0.0, 2) = 0.0`, `0.0 + 0.0 = 0.0`, `sqrt(0.0) = 0.0` and `(int)0.0 = 0`. -/
def ZeroExact (F : DoubleOps D) : Prop :=
  F.pow (F.ofInt 0) (F.ofInt 2) = F.ofInt 0 ∧ F.add (F.ofInt 0) (F.ofInt 0) = F.ofInt 0 ∧
    F.sqrt (F.ofInt 0) = F.ofInt 0 ∧ F.toInt (F.ofInt 0) = 0

instance : Decidable (ZeroExact exactIntOps) := by unfold ZeroExact; infer_instance

/-- The default puzzle of `CreatePuzzle` (line 403). -/
def defaultPuzzle : List Int := [1, 2, 3, 4, 8, 0, 7, 6, 5]

/-! ## Solving a board by stages (used for the termination of the searches) -/

/-- Move coded by `0..3`: left, right, up, down (the entries of `moves`). -/
def dirOf : Nat → Int
  | 0 => -1
  | 1 => 1
  | 2 => -3
  | _ => 3

/-- Apply a sequence of moves to a board with blank index `z`, provided each one
is in `moves` and passes the guard of `ValidMoveset`. -/
def runMoves : List Int × Int → List Int → Option (List Int × Int)
  | bz, [] => some bz
  | (b, z), mov :: ms =>
    if mov ∈ moves ∧ ¬ moveRejected z mov then
      runMoves (swapCells b z.toNat (z + mov).toNat, z + mov) ms
    else none

/-- Cells `0..k-1` of the board hold the tiles `1..k`. -/
def placed (k : Nat) (b : List Int) : Prop := ∀ i < k, b[i]? = some ((i : Int) + 1)

instance (k : Nat) (b : List Int) : Decidable (placed k b) := by unfold placed; infer_instance

/-- Board seen at stage `k`: the blank and the tiles `1..k` are kept, every other
tile reads `-1`. -/
def stageView (k : Nat) (v : Int) : Int :=
  if v = 0 then 0 else if 1 ≤ v ∧ v ≤ k then v else -1

/-- Stage-`k` view of a board whose first `k - 1` cells are placed, with the
blank at `z` and tile `k` at `p`. -/
def stageBoard (k z p : Nat) : List Int :=
  (List.range 9).map
    (fun i => if i = z then 0 else if i = p then (k : Int) else if i + 1 < k then (i : Int) + 1
      else -1)

/-- For stage `k`, blank index `z` and index `p` of tile `k`: a move sequence
(coded by `dirOf`) that places tile `k`. -/
def stageTable : List ((Nat × Nat × Nat) × List Nat) :=
  [((1, 0, 1), [1]), ((1, 0, 2), [1, 1, 3, 0, 0, 2, 1]), ((1, 0, 3), [3]),
   ((1, 0, 4), [1, 3, 0, 2, 1]), ((1, 0, 5), [1, 3, 1, 2, 0, 3, 0, 2, 1]),
   ((1, 0, 6), [3, 3, 1, 2, 2, 0, 3]), ((1, 0, 7), [1, 3, 3, 0, 2, 1, 2, 0, 3]),
   ((1, 0, 8), [1, 1, 3, 3, 0, 2, 1, 2, 0, 3, 0, 2, 1]), ((1, 1, 0), []),
   ((1, 1, 2), [1, 3, 0, 0, 2, 1]), ((1, 1, 3), [0, 3]), ((1, 1, 4), [3, 0, 2, 1]),
   ((1, 1, 5), [3, 1, 2, 0, 3, 0, 2, 1]), ((1, 1, 6), [0, 3, 3, 1, 2, 2, 0, 3]),
   ((1, 1, 7), [3, 3, 0, 2, 1, 2, 0, 3]), ((1, 1, 8), [1, 3, 3, 0, 2, 1, 2, 0, 3, 0, 2, 1]),
   ((1, 2, 0), []), ((1, 2, 1), [3, 0, 0, 2, 1]), ((1, 2, 3), [0, 0, 3]),
   ((1, 2, 4), [0, 3, 0, 2, 1]), ((1, 2, 5), [0, 3, 1, 2, 0, 3, 0, 2, 1]),
   ((1, 2, 6), [0, 0, 3, 3, 1, 2, 2, 0, 3]), ((1, 2, 7), [0, 3, 3, 0, 2, 1, 2, 0, 3]),
   ((1, 2, 8), [3, 3, 0, 2, 1, 2, 0, 3, 0, 2, 1]), ((1, 3, 0), []), ((1, 3, 1), [2, 1]),
   ((1, 3, 2), [1, 2, 1, 3, 0, 0, 2, 1]), ((1, 3, 4), [1, 2, 0, 3]),
   ((1, 3, 5), [1, 1, 2, 0, 3, 0, 2, 1]), ((1, 3, 6), [3, 1, 2, 2, 0, 3]),
   ((1, 3, 7), [1, 3, 0, 2, 1, 2, 0, 3]), ((1, 3, 8), [1, 1, 3, 0, 2, 1, 2, 0, 3, 0, 2, 1]),
   ((1, 4, 0), []), ((1, 4, 1), [0, 2, 1]), ((1, 4, 2), [2, 1, 3, 0, 0, 2, 1]),
   ((1, 4, 3), [2, 0, 3]), ((1, 4, 5), [1, 2, 0, 3, 0, 2, 1]),
   ((1, 4, 6), [0, 3, 1, 2, 2, 0, 3]), ((1, 4, 7), [3, 0, 2, 1, 2, 0, 3]),
   ((1, 4, 8), [1, 3, 0, 2, 1, 2, 0, 3, 0, 2, 1]), ((1, 5, 0), []), ((1, 5, 1), [0, 0, 2, 1]),
   ((1, 5, 2), [0, 2, 1, 3, 0, 0, 2, 1]), ((1, 5, 3), [0, 2, 0, 3]),
   ((1, 5, 4), [2, 0, 3, 0, 2, 1]), ((1, 5, 6), [0, 0, 3, 1, 2, 2, 0, 3]),
   ((1, 5, 7), [0, 3, 0, 2, 1, 2, 0, 3]), ((1, 5, 8), [3, 0, 2, 1, 2, 0, 3, 0, 2, 1]),
   ((1, 6, 0), []), ((1, 6, 1), [2, 2, 1]), ((1, 6, 2), [1, 2, 2, 1, 3, 0, 0, 2, 1]),
   ((1, 6, 3), [1, 2, 2, 0, 3]), ((1, 6, 4), [2, 1, 2, 0, 3]),
   ((1, 6, 5), [1, 2, 1, 2, 0, 3, 0, 2, 1]), ((1, 6, 7), [1, 2, 0, 3, 1, 2, 2, 0, 3]),
   ((1, 6, 8), [1, 1, 2, 0, 3, 0, 2, 1, 2, 0, 3]), ((1, 7, 0), []), ((1, 7, 1), [0, 2, 2, 1]),
   ((1, 7, 2), [2, 2, 1, 3, 0, 0, 2, 1]), ((1, 7, 3), [2, 2, 0, 3]),
   ((1, 7, 4), [0, 2, 1, 2, 0, 3]), ((1, 7, 5), [2, 1, 2, 0, 3, 0, 2, 1]),
   ((1, 7, 6), [2, 0, 3, 1, 2, 2, 0, 3]), ((1, 7, 8), [1, 2, 0, 3, 0, 2, 1, 2, 0, 3]),
   ((1, 8, 0), []), ((1, 8, 1), [0, 0, 2, 2, 1]), ((1, 8, 2), [0, 2, 2, 1, 3, 0, 0, 2, 1]),
   ((1, 8, 3), [0, 2, 2, 0, 3]), ((1, 8, 4), [0, 0, 2, 1, 2, 0, 3]),
   ((1, 8, 5), [0, 2, 1, 2, 0, 3, 0, 2, 1]), ((1, 8, 6), [0, 2, 0, 3, 1, 2, 2, 0, 3]),
   ((1, 8, 7), [2, 0, 3, 0, 2, 1, 2, 0, 3]), ((2, 1, 2), [1]),
   ((2, 1, 3), [3, 0, 3, 1, 1, 2, 2, 0, 3]), ((2, 1, 4), [3]), ((2, 1, 5), [1, 3, 0, 2, 1]),
   ((2, 1, 6), [0, 3, 3, 1, 2, 0, 2, 1, 3]), ((2, 1, 7), [3, 3, 1, 2, 2, 0, 3]),
   ((2, 1, 8), [1, 3, 3, 0, 2, 1, 2, 0, 3]), ((2, 2, 1), []),
   ((2, 2, 3), [0, 3, 0, 3, 1, 1, 2, 2, 0, 3]), ((2, 2, 4), [0, 3]), ((2, 2, 5), [3, 0, 2, 1]),
   ((2, 2, 6), [0, 0, 3, 3, 1, 2, 0, 2, 1, 3]), ((2, 2, 7), [0, 3, 3, 1, 2, 2, 0, 3]),
   ((2, 2, 8), [3, 3, 0, 2, 1, 2, 0, 3]), ((2, 3, 1), []), ((2, 3, 2), [1, 2, 1]),
   ((2, 3, 4), [3, 1, 1, 2, 2, 0, 3]), ((2, 3, 5), [1, 1, 2, 0, 3]),
   ((2, 3, 6), [1, 2, 0, 3, 3, 1, 2, 0, 2, 1, 3]), ((2, 3, 7), [1, 3, 1, 2, 2, 0, 3]),
   ((2, 3, 8), [1, 1, 3, 0, 2, 1, 2, 0, 3]), ((2, 4, 1), []), ((2, 4, 2), [2, 1]),
   ((2, 4, 3), [0, 3, 1, 1, 2, 2, 0, 3]), ((2, 4, 5), [1, 2, 0, 3]),
   ((2, 4, 6), [2, 0, 3, 3, 1, 2, 0, 2, 1, 3]), ((2, 4, 7), [3, 1, 2, 2, 0, 3]),
   ((2, 4, 8), [1, 3, 0, 2, 1, 2, 0, 3]), ((2, 5, 1), []), ((2, 5, 2), [0, 2, 1]),
   ((2, 5, 3), [0, 0, 3, 1, 1, 2, 2, 0, 3]), ((2, 5, 4), [2, 0, 3]),
   ((2, 5, 6), [0, 2, 0, 3, 3, 1, 2, 0, 2, 1, 3]), ((2, 5, 7), [0, 3, 1, 2, 2, 0, 3]),
   ((2, 5, 8), [3, 0, 2, 1, 2, 0, 3]), ((2, 6, 1), []), ((2, 6, 2), [1, 2, 2, 1]),
   ((2, 6, 3), [1, 2, 0, 3, 1, 1, 2, 2, 0, 3]), ((2, 6, 4), [1, 1, 2, 2, 0, 3]),
   ((2, 6, 5), [1, 2, 1, 2, 0, 3]), ((2, 6, 7), [2, 1, 3, 1, 2, 2, 0, 3]),
   ((2, 6, 8), [1, 1, 2, 0, 3, 1, 2, 2, 0, 3]), ((2, 7, 1), []), ((2, 7, 2), [2, 2, 1]),
   ((2, 7, 3), [2, 0, 3, 1, 1, 2, 2, 0, 3]), ((2, 7, 4), [1, 2, 2, 0, 3]),
   ((2, 7, 5), [2, 1, 2, 0, 3]), ((2, 7, 6), [0, 2, 1, 3, 1, 2, 2, 0, 3]),
   ((2, 7, 8), [1, 2, 0, 3, 1, 2, 2, 0, 3]), ((2, 8, 1), []), ((2, 8, 2), [0, 2, 2, 1]),
   ((2, 8, 3), [0, 2, 0, 3, 1, 1, 2, 2, 0, 3]), ((2, 8, 4), [2, 2, 0, 3]),
   ((2, 8, 5), [0, 2, 1, 2, 0, 3]), ((2, 8, 6), [0, 0, 2, 1, 3, 1, 2, 2, 0, 3]),
   ((2, 8, 7), [2, 0, 3, 1, 2, 2, 0, 3]), ((3, 2, 3), [0, 3, 0, 3, 1, 1, 2, 0, 2, 1, 3]),
   ((3, 2, 4), [3, 0, 0, 2, 1, 1, 3, 0, 2, 0, 3]), ((3, 2, 5), [3]),
   ((3, 2, 6), [0, 3, 3, 0, 2, 1, 3, 1, 2, 0, 2, 1, 3]),
   ((3, 2, 7), [0, 3, 3, 1, 2, 0, 2, 1, 3]), ((3, 2, 8), [0, 3, 1, 3, 0, 2, 2, 1, 3]),
   ((3, 3, 2), []), ((3, 3, 4), [2, 1, 3, 1, 2, 0, 0, 3]), ((3, 3, 5), [2, 1, 1, 3, 0, 2, 0, 3]),
   ((3, 3, 6), [3, 1, 2, 0, 2, 1, 3, 1, 2, 0, 0, 3]),
   ((3, 3, 7), [1, 1, 2, 0, 3, 3, 1, 2, 0, 2, 1, 3]),
   ((3, 3, 8), [1, 1, 2, 0, 3, 1, 3, 0, 2, 2, 1, 3]), ((3, 4, 2), []),
   ((3, 4, 3), [0, 2, 1, 3, 1, 2, 0, 0, 3]), ((3, 4, 5), [0, 2, 1, 1, 3, 0, 2, 0, 3]),
   ((3, 4, 6), [0, 3, 1, 2, 0, 2, 1, 3, 1, 2, 0, 0, 3]),
   ((3, 4, 7), [1, 2, 0, 3, 3, 1, 2, 0, 2, 1, 3]),
   ((3, 4, 8), [1, 2, 0, 3, 1, 3, 0, 2, 2, 1, 3]), ((3, 5, 2), []),
   ((3, 5, 3), [0, 0, 2, 1, 3, 1, 2, 0, 0, 3]), ((3, 5, 4), [0, 0, 2, 1, 1, 3, 0, 2, 0, 3]),
   ((3, 5, 6), [0, 0, 3, 1, 2, 0, 2, 1, 3, 1, 2, 0, 0, 3]),
   ((3, 5, 7), [2, 0, 3, 3, 1, 2, 0, 2, 1, 3]), ((3, 5, 8), [2, 0, 3, 1, 3, 0, 2, 2, 1, 3]),
   ((3, 6, 2), []), ((3, 6, 3), [1, 2, 0, 2, 1, 3, 1, 2, 0, 0, 3]),
   ((3, 6, 4), [2, 2, 1, 3, 1, 2, 0, 0, 3]), ((3, 6, 5), [2, 2, 1, 1, 3, 0, 2, 0, 3]),
   ((3, 6, 7), [2, 1, 1, 2, 0, 3, 3, 1, 2, 0, 2, 1, 3]),
   ((3, 6, 8), [1, 1, 2, 2, 0, 3, 3, 1, 2, 0, 2, 1, 3]), ((3, 7, 2), []),
   ((3, 7, 3), [2, 0, 2, 1, 3, 1, 2, 0, 0, 3]), ((3, 7, 4), [0, 2, 2, 1, 3, 1, 2, 0, 0, 3]),
   ((3, 7, 5), [0, 2, 2, 1, 1, 3, 0, 2, 0, 3]),
   ((3, 7, 6), [0, 2, 1, 1, 2, 0, 3, 3, 1, 2, 0, 2, 1, 3]),
   ((3, 7, 8), [1, 2, 2, 0, 3, 3, 1, 2, 0, 2, 1, 3]), ((3, 8, 2), []),
   ((3, 8, 3), [0, 2, 0, 2, 1, 3, 1, 2, 0, 0, 3]),
   ((3, 8, 4), [0, 0, 2, 2, 1, 3, 1, 2, 0, 0, 3]),
   ((3, 8, 5), [0, 0, 2, 2, 1, 1, 3, 0, 2, 0, 3]),
   ((3, 8, 6), [0, 0, 2, 1, 1, 2, 0, 3, 3, 1, 2, 0, 2, 1, 3]),
   ((3, 8, 7), [2, 2, 0, 3, 3, 1, 2, 0, 2, 1, 3]), ((4, 3, 4), [1]),
   ((4, 3, 5), [1, 1, 3, 0, 0, 2, 1]), ((4, 3, 6), [3]), ((4, 3, 7), [1, 3, 0, 2, 1]),
   ((4, 3, 8), [1, 3, 1, 2, 0, 3, 0, 2, 1]), ((4, 4, 3), []), ((4, 4, 5), [1, 3, 0, 0, 2, 1]),
   ((4, 4, 6), [0, 3]), ((4, 4, 7), [3, 0, 2, 1]), ((4, 4, 8), [3, 1, 2, 0, 3, 0, 2, 1]),
   ((4, 5, 3), []), ((4, 5, 4), [3, 0, 0, 2, 1]), ((4, 5, 6), [0, 0, 3]),
   ((4, 5, 7), [0, 3, 0, 2, 1]), ((4, 5, 8), [0, 3, 1, 2, 0, 3, 0, 2, 1]), ((4, 6, 3), []),
   ((4, 6, 4), [2, 1]), ((4, 6, 5), [1, 2, 1, 3, 0, 0, 2, 1]), ((4, 6, 7), [1, 2, 0, 3]),
   ((4, 6, 8), [1, 1, 2, 0, 3, 0, 2, 1]), ((4, 7, 3), []), ((4, 7, 4), [0, 2, 1]),
   ((4, 7, 5), [2, 1, 3, 0, 0, 2, 1]), ((4, 7, 6), [2, 0, 3]),
   ((4, 7, 8), [1, 2, 0, 3, 0, 2, 1]), ((4, 8, 3), []), ((4, 8, 4), [0, 0, 2, 1]),
   ((4, 8, 5), [0, 2, 1, 3, 0, 0, 2, 1]), ((4, 8, 6), [0, 2, 0, 3]),
   ((4, 8, 7), [2, 0, 3, 0, 2, 1]), ((5, 4, 5), [1]),
   ((5, 4, 6), [1, 2, 0, 0, 3, 3, 1, 2, 0, 2, 1, 1, 3]), ((5, 4, 7), [3]),
   ((5, 4, 8), [1, 3, 0, 2, 1]), ((5, 5, 4), []),
   ((5, 5, 6), [2, 0, 0, 3, 3, 1, 2, 0, 2, 1, 1, 3]), ((5, 5, 7), [0, 3]),
   ((5, 5, 8), [3, 0, 2, 1]), ((5, 6, 4), []), ((5, 6, 5), [1, 2, 1]),
   ((5, 6, 7), [2, 1, 3, 1, 2, 0, 0, 3, 1, 2, 1]), ((5, 6, 8), [1, 1, 2, 0, 3]), ((5, 7, 4), []),
   ((5, 7, 5), [2, 1]), ((5, 7, 6), [0, 2, 1, 3, 1, 2, 0, 0, 3, 1, 2, 1]),
   ((5, 7, 8), [1, 2, 0, 3]), ((5, 8, 4), []), ((5, 8, 5), [0, 2, 1]),
   ((5, 8, 6), [0, 0, 2, 1, 3, 1, 2, 0, 0, 3, 1, 2, 1]), ((5, 8, 7), [2, 0, 3]),
   ((6, 5, 6), [3, 0, 0, 2, 1, 3, 1, 2, 0, 0, 3]),
   ((6, 5, 7), [3, 0, 0, 2, 1, 1, 3, 0, 2, 0, 3]), ((6, 5, 8), [3]), ((6, 6, 5), []),
   ((6, 6, 7), [2, 1, 3, 1, 2, 0, 0, 3]), ((6, 6, 8), [2, 1, 1, 3, 0, 2, 0, 3]), ((6, 7, 5), []),
   ((6, 7, 6), [0, 2, 1, 3, 1, 2, 0, 0, 3]), ((6, 7, 8), [0, 2, 1, 1, 3, 0, 2, 0, 3]),
   ((6, 8, 5), []), ((6, 8, 6), [0, 0, 2, 1, 3, 1, 2, 0, 0, 3]),
   ((6, 8, 7), [0, 0, 2, 1, 1, 3, 0, 2, 0, 3])]

/-- Move sequence of `stageTable` for `(k, z, p)`. -/
def stageMoves (k z p : Nat) : List Int :=
  match stageTable.find? (fun e => e.1 == (k, z, p)) with
  | some e => e.2.map dirOf
  | none => []

/-- The table entry for `(k, z, p)` places tiles `1..k` on the stage board. -/
def stageEntryOK (k z p : Nat) : Bool :=
  match runMoves (stageBoard k z p, (z : Int)) (stageMoves k z p) with
  | some (b, _) => decide (placed k b)
  | none => false

/-- All entries of stage `k` are right. -/
def stageOK (k : Nat) : Bool :=
  (List.range 9).all fun z => (List.range 9).all fun p =>
    if z ≠ p ∧ k ≤ z + 1 ∧ k ≤ p + 1 then stageEntryOK k z p else true

/-- Exchange of the tile values 1 and 2. -/
def swap12 (v : Int) : Int := if v = 1 then 2 else if v = 2 then 1 else v

/-! ## Invariants of the search loops -/

/-- Boards of the nodes of a queue. -/
def states (o : List (PuzzleState D)) : List (List Int) := o.map (fun n => n.state)

/-- Invariant of the three search loops on start board `start`: queue and
`explored` hold solvable boards, `explored` never holds the goal, every move from
an explored board leads to an explored or a queued board, and the start board has
been queued. -/
structure SearchInv (F : DoubleOps D) (start : List Int) (st : SearchState D) : Prop where
  open_valid : ∀ node ∈ st.openList, ValidState node ∧ Possible node.state = true
  explored_valid : ∀ e ∈ st.explored, ValidBoard e ∧ Possible e = true ∧ e ≠ goal
  closed : ∀ c : PuzzleState D, ValidState c → c.state ∈ st.explored →
    ∀ s ∈ ValidMoveset F c, s.state ∈ st.explored ∨ s.state ∈ states st.openList
  start_seen : start ∈ st.explored ∨ start ∈ states st.openList

/-- Invariant of the `UniformCostSearch` loop: `SearchInv`, and every queued
node of depth `d` comes with `d` distinct explored boards other than its own (the
boards on the path that produced it). -/
structure UCSInv (F : DoubleOps D) (start : List Int) (st : SearchState D)
    extends SearchInv F start st : Prop where
  chain : ∀ node ∈ st.openList, ∃ chain : List (List Int), chain.Nodup ∧
    (chain.length : Int) = node.depth ∧ (∀ c ∈ chain, c ∈ st.explored) ∧ node.state ∉ chain

/-- Weight of a queued node of depth `d` in the termination measure of
`UniformCostSearch`: five times the weight of a node one level deeper. -/
def depthWeight (n : PuzzleState D) : Nat := 5 ^ (181441 - n.depth.toNat)

/-- Termination measure of the `UniformCostSearch` loop. -/
def queueWeight (o : List (PuzzleState D)) : Nat := (o.map depthWeight).sum

/-- Invariant of the A* loops: `SearchInv`, no board twice in the queue or in
`explored`, no queued board in `explored`, and `expanded` counts `explored`. -/
structure AStarInv (F : DoubleOps D) (start : List Int) (st : SearchState D)
    extends SearchInv F start st : Prop where
  open_nodup : (states st.openList).Nodup
  explored_nodup : st.explored.Nodup
  disjoint : ∀ node ∈ st.openList, node.state ∉ st.explored
  expanded_eq : st.expanded = st.explored.length

/-! ## Definitions for the search order and the heuristics -/

/-- A node without its `double`: the heuristic field is replaced by the integer 0. -/
def forgetNode (n : PuzzleState D) : PuzzleState Int :=
  { state := n.state, heuristic := 0, depth := n.depth, zero := n.zero }

/-- Locals of a search with the heuristic fields of the queue forgotten. -/
def forgetState (st : SearchState D) : SearchState Int :=
  { openList := st.openList.map forgetNode
    explored := st.explored
    expanded := st.expanded
    maxSize := st.maxSize }

/-- Boards of the queue of `UniformCostSearch` on `puzzle` after `n` loop passes. -/
def ucsFrontier (n : Nat) (puzzle : List Int) : Option (List (List Int)) :=
  (iterateBody (UniformCostSearchBody exactIntOps) n
    (UniformCostSearchInit exactIntOps puzzle)).map (fun st => states st.openList)

/-- The comparison `<` is a strict weak order: irreflexive, transitive, and
`≥` is transitive (true of `<` on `int`, and on `double` values other than NaN). -/
def StrictWeakOrder {α : Type} (lt : α → α → Bool) : Prop :=
  (∀ a, lt a a = false) ∧ (∀ a b c, lt a b = true → lt b c = true → lt a c = true) ∧
    (∀ a b c, lt a b = false → lt b c = false → lt a c = false)

/-- The comparison `<` is a strict weak order on the values that satisfy `P`. -/
def StrictWeakOrderOn {α : Type} (lt : α → α → Bool) (P : α → Prop) : Prop :=
  (∀ a, P a → lt a a = false) ∧
    (∀ a b c, P a → P b → P c → lt a b = true → lt b c = true → lt a c = true) ∧
    (∀ a b c, P a → P b → P c → lt a b = false → lt b c = false → lt a c = false)

/-- Loop of lines 144-151 run over the indices `is`, from `mindex = m`. -/
def mindexFrom {α : Type} (less : α → α → Bool) (l : List α) (is : List Nat) (m : Nat) : Nat :=
  is.foldl
    (fun mindex i =>
      match l[i]?, l[mindex]? with
      | some a, some b => if less a b then i else mindex
      | _, _ => mindex)
    m

/-- Start node of `UniformCostSearch` (line 131). -/
def ucsStart (F : DoubleOps D) (puzzle : List Int) : PuzzleState D :=
  { state := puzzle, heuristic := F.ofInt 0, depth := 0, zero := findZero puzzle }

/-- Every queued node of `UniformCostSearch` was produced by `depth` moves from
the start node. -/
def UCSReachInv (F : DoubleOps D) (start : List Int) (st : SearchState D) : Prop :=
  ∀ node ∈ st.openList, 0 ≤ node.depth ∧ reachIn F node.depth.toNat (ucsStart F start) node

/-- Breadth-first order of `UniformCostSearch`: queued depths differ by at most
one, and a board reached by `j` moves is explored, or queued at depth at most
`j`, or some queued node is less than `j` deep. -/
structure UCSOrderInv (F : DoubleOps D) (start : List Int) (st : SearchState D)
    extends UCSInv F start st : Prop where
  spread : ∀ a ∈ st.openList, ∀ b ∈ st.openList, a.depth ≤ b.depth + 1
  guard : ∀ (j : Nat) (S : PuzzleState D), reachIn F j (ucsStart F start) S →
    S.state ∈ st.explored ∨ (∃ n ∈ st.openList, n.state = S.state ∧ n.depth ≤ j) ∨
      (∃ n ∈ st.openList, n.depth < j)

/-- Dedup invariant of the A* loops: no board twice in the queue, no queued board
in `explored`, no board twice in `explored`, and `expanded` counts `explored`. -/
structure DedupInv (st : SearchState D) : Prop where
  open_nodup : (states st.openList).Nodup
  disjoint : ∀ node ∈ st.openList, node.state ∉ st.explored
  explored_nodup : st.explored.Nodup
  expanded_eq : st.expanded = st.explored.length

/-- Contribution of index `i` to `OutOfPlace` (lines 111-114). -/
def misplacedAt (state : List Int) (i : Nat) : Int :=
  if state.getD i 0 ≠ 0 ∧ state.getD i 0 ≠ goal.getD i 0 then 1 else 0

/-- Distance added by `Euclidean` for the tile `v` at index `i` (lines 88-94). -/
def tileDistance (F : DoubleOps D) (v : Int) (i : Nat) : D :=
  F.sqrt (F.add (F.pow (F.ofInt (Int.tdiv (v - 1) 3 - Int.tdiv (i : Int) 3)) (F.ofInt 2))
    (F.pow (F.ofInt (Int.tmod (v - 1) 3 - Int.tmod (i : Int) 3)) (F.ofInt 2)))

/-- Contribution of index `i` to `Euclidean` (lines 82-94). -/
def euclideanAt (F : DoubleOps D) (state : List Int) (i : Nat) : D :=
  if state.getD i 0 = 0 then F.ofInt 0 else tileDistance F (state.getD i 0) i

/-- The operations are those of exact real arithmetic: conversion from `int` is
the inclusion of the integers, `+` is the sum, `pow(x, 2)` is the square and `sqrt`
is the real square root. -/
def RealExact (F : DoubleOps ℝ) : Prop :=
  (∀ x : Int, F.ofInt x = (x : ℝ)) ∧ (∀ a b : ℝ, F.add a b = a + b) ∧
    (∀ a : ℝ, F.pow a (F.ofInt 2) = a ^ 2) ∧ ∀ a : ℝ, F.sqrt a = Real.sqrt a

theorem ValidBoard.length_eq {s : List Int} (h : ValidBoard s) : s.length = 9 := by
  have := List.Perm.length_eq h
  simpa using this

theorem ValidBoard.nodup {s : List Int} (h : ValidBoard s) : s.Nodup :=
  (List.Perm.nodup_iff h).2 (by decide)

theorem validBoard_iff {s : List Int} :
    ValidBoard s ↔ s.length = 9 ∧ ∀ v ∈ ([0, 1, 2, 3, 4, 5, 6, 7, 8] : List Int), v ∈ s := by
  constructor
  · intro h
    exact ⟨h.length_eq, fun v hv => (List.Perm.mem_iff h).2 hv⟩
  · rintro ⟨hl, hm⟩
    have hsub : ([0, 1, 2, 3, 4, 5, 6, 7, 8] : List Int).Subperm s :=
      List.Nodup.subperm (by decide) hm
    exact (List.Subperm.perm_of_length_le hsub (by simp [hl])).symm

theorem swapCells_length (v : List Int) (i j : Nat) : (swapCells v i j).length = v.length := by
  simp [swapCells]

theorem swapCells_getElem? (v : List Int) {i j : Nat} (hi : i < v.length) (hj : j < v.length)
    (k : Nat) :
    (swapCells v i j)[k]? = if k = j then v[i]? else if k = i then v[j]? else v[k]? := by
  simp only [swapCells, List.getElem?_set, List.length_set, List.getD_eq_getElem?_getD,
    List.getElem?_eq_getElem hi, List.getElem?_eq_getElem hj, Option.getD_some]
  by_cases h1 : k = j
  · subst h1; simp [hj]
  · by_cases h2 : k = i
    · subst h2; simp [hi, Ne.symm h1, h1]
    · simp [Ne.symm h1, Ne.symm h2, h1, h2]

theorem mem_swapCells (v : List Int) {i j : Nat} (hi : i < v.length) (hj : j < v.length)
    (a : Int) : a ∈ swapCells v i j ↔ a ∈ v := by
  simp only [List.mem_iff_getElem?]
  constructor
  · rintro ⟨k, hk⟩
    rw [swapCells_getElem? v hi hj] at hk
    split_ifs at hk
    exacts [⟨i, hk⟩, ⟨j, hk⟩, ⟨k, hk⟩]
  · rintro ⟨k, hk⟩
    by_cases h1 : k = i
    · refine ⟨j, ?_⟩
      rw [swapCells_getElem? v hi hj]; simp [← h1, hk]
    · by_cases h2 : k = j
      · subst h2
        refine ⟨i, ?_⟩
        rw [swapCells_getElem? v hi hj]
        simp [Ne.symm h1, hk]
      · refine ⟨k, ?_⟩
        rw [swapCells_getElem? v hi hj]; simp [h1, h2, hk]

theorem ValidBoard.swapCells {s : List Int} (h : ValidBoard s) {i j : Nat} (hi : i < 9)
    (hj : j < 9) : ValidBoard (swapCells s i j) := by
  have hl := h.length_eq
  rw [validBoard_iff] at h ⊢
  refine ⟨by rw [swapCells_length]; exact hl, fun v hv => ?_⟩
  rw [mem_swapCells s (by omega) (by omega)]
  exact h.2 v hv

theorem mem_ValidMoveset (F : DoubleOps D) (curr s : PuzzleState D) :
    s ∈ ValidMoveset F curr ↔
      ∃ mov ∈ moves, ¬ moveRejected curr.zero mov ∧ s = moveNode F curr mov := by
  simp only [ValidMoveset, moves, List.foldl_cons, List.foldl_nil, ValidMovesetBody,
    moveRejected, moveNode, List.mem_cons, List.mem_singleton, exists_eq_or_imp,
    exists_eq_left, List.not_mem_nil, false_and, exists_false, or_false]
  split_ifs <;> simp_all

theorem ValidState.zero_lt {p : PuzzleState D} (h : ValidState p) : p.zero < 9 := by
  obtain ⟨hb, h0, hz⟩ := h
  have hl := hb.length_eq
  have : p.zero.toNat < p.state.length := by
    by_contra hc
    rw [List.getElem?_eq_none (by omega)] at hz
    cases hz
  omega

theorem moveRejected_adjacent {z mov : Int} (h0 : 0 ≤ z) (h9 : z < 9) (hm : mov ∈ moves)
    (h : ¬ moveRejected z mov) : 0 ≤ z + mov ∧ z + mov < 9 ∧ gridAdjacent z (z + mov) := by
  simp only [moves, List.mem_cons, List.mem_singleton, List.not_mem_nil, or_false] at hm
  rcases hm with rfl | rfl | rfl | rfl <;> interval_cases z <;> revert h <;> decide

theorem ValidMoveset_length (F : DoubleOps D) (curr : PuzzleState D)
    (h0 : 0 ≤ curr.zero) (h8 : curr.zero ≤ 8) :
    (ValidMoveset F curr).length =
      if curr.zero = 4 then 4
      else if curr.zero = 1 ∨ curr.zero = 3 ∨ curr.zero = 5 ∨ curr.zero = 7 then 3
      else 2 := by
  obtain ⟨state, heur, depth, zero⟩ := curr
  simp only at h0 h8 ⊢
  interval_cases zero <;> simp [ValidMoveset, moves, ValidMovesetBody, Int.tmod]

theorem ValidMoveset_swap_facts (F : DoubleOps D) (curr : PuzzleState D)
    (h : ValidState curr) :
    ∀ s ∈ ValidMoveset F curr,
      0 ≤ s.zero ∧ s.zero < 9 ∧ gridAdjacent curr.zero s.zero ∧
      s.state.length = 9 ∧
      s.state[s.zero.toNat]? = some 0 ∧
      s.state[curr.zero.toNat]? = curr.state[s.zero.toNat]? ∧
      curr.state[s.zero.toNat]? ≠ some 0 ∧
      ∀ i : Nat, i ≠ curr.zero.toNat → i ≠ s.zero.toNat → s.state[i]? = curr.state[i]? := by
  intro s hs
  obtain ⟨mov, hm, hrej, rfl⟩ := (mem_ValidMoveset F curr s).1 hs
  have h9 := h.zero_lt
  obtain ⟨hb, h0, hz⟩ := h
  have hl := hb.length_eq
  obtain ⟨hp0, hp9, hadj⟩ := moveRejected_adjacent h0 h9 hm hrej
  have hi : curr.zero.toNat < curr.state.length := by omega
  have hj : (curr.zero + mov).toNat < curr.state.length := by omega
  have hne : (curr.zero + mov).toNat ≠ curr.zero.toNat := by
    intro hc
    have : curr.zero + mov = curr.zero := by omega
    rw [this] at hadj
    revert hadj
    simp [gridAdjacent]
  refine ⟨hp0, hp9, hadj, ?_, ?_, ?_, ?_, ?_⟩
  · simp [moveNode, swapCells_length, hl]
  · simp [moveNode, swapCells_getElem? _ hi hj, hz]
  · simp [moveNode, swapCells_getElem? _ hi hj, Ne.symm hne]
  · simp only [moveNode]
    intro hc
    have hnd := hb.nodup
    rw [← hz] at hc
    rw [List.getElem?_eq_getElem hi, List.getElem?_eq_getElem hj, Option.some.injEq] at hc
    exact hne ((List.Nodup.getElem_inj_iff hnd).1 hc)
  · intro i h1 h2
    simp only [moveNode] at h2 ⊢
    simp [swapCells_getElem? _ hi hj, h1, h2]

/-! ## Solvability check: lemmas -/

theorem map_getD_range' (l : List Int) (s n : Nat) (h : s + n ≤ l.length) :
    (List.range' s n).map (fun j => l.getD j 0) = (l.drop s).take n := by
  induction n generalizing s with
  | zero => simp
  | succ n ih =>
    have hs : s < l.length := by omega
    rw [List.range'_succ, List.map_cons, ih (s + 1) (by omega), List.drop_eq_getElem_cons hs,
      List.take_succ_cons, List.getD_eq_getElem l 0 hs]

theorem PossibleInner_eq (l : List Int) (i : Nat) (inv : Int) (hi : i < l.length) :
    PossibleInner l i inv = (l.drop (i + 1)).foldl (invStep (l.getD i 0)) inv := by
  have h := map_getD_range' l (i + 1) (l.length - (i + 1)) (by omega)
  have h2 : (l.drop (i + 1)).take (l.length - (i + 1)) = l.drop (i + 1) := by
    apply List.take_of_length_le
    simp
  rw [h2] at h
  rw [← h, List.foldl_map]
  rfl

theorem outer_eq (l : List Int) (n k : Nat) (inv : Int) (h : k + n = l.length) :
    (List.range' k n).foldl
      (fun inv i => if l.getD i 0 = 0 then inv else PossibleInner l i inv) inv
      = invWrapped (l.drop k) inv := by
  induction n generalizing k inv with
  | zero =>
    have : l.drop k = [] := List.drop_eq_nil_of_le (by omega)
    simp [this, invWrapped]
  | succ n ih =>
    have hk : k < l.length := by omega
    rw [List.range'_succ, List.foldl_cons, ih (k + 1) _ (by omega),
      List.drop_eq_getElem_cons hk, invWrapped, PossibleInner_eq l k inv hk,
      List.getD_eq_getElem l 0 hk]

theorem PossibleInversions_eq (l : List Int) : PossibleInversions l = invWrapped l 0 := by
  have := outer_eq l l.length 0 0 (by simp)
  simpa [PossibleInversions, List.range_eq_range'] using this

theorem wrapInt32_emod_two (x : Int) : wrapInt32 x % 2 = x % 2 := by
  unfold wrapInt32
  omega

theorem foldl_invStep_emod_two (a : Int) (l : List Int) (inv : Int) :
    (l.foldl (invStep a) inv) % 2
      = (inv + (l.countP (fun b => decide (b ≠ 0 ∧ a > b)) : Nat)) % 2 := by
  induction l generalizing inv with
  | nil => simp
  | cons b l ih =>
    rw [List.foldl_cons, ih, List.countP_cons]
    unfold invStep
    by_cases hb : b = 0
    · simp [hb]
    · by_cases hab : a > b
      · have := wrapInt32_emod_two (inv + 1)
        simp only [hb, hab, if_true, if_false, ne_eq, not_false_eq_true, and_self, decide_True]
        push_cast
        omega
      · simp [hb, hab]

theorem invWrapped_emod_two (l : List Int) (inv : Int) :
    invWrapped l inv % 2 = (inv + (invCount l : Nat)) % 2 := by
  induction l generalizing inv with
  | nil => simp [invWrapped, invCount]
  | cons a l ih =>
    rw [invWrapped, ih, invCount]
    by_cases ha : a = 0
    · simp [ha]
    · have := foldl_invStep_emod_two a l inv
      simp only [ha, if_false]
      push_cast
      omega

theorem Possible_iff_invCount (l : List Int) : Possible l = true ↔ invCount l % 2 = 0 := by
  have h := invWrapped_emod_two l 0
  rw [← PossibleInversions_eq] at h
  unfold Possible
  rw [beq_iff_eq, ← Int.dvd_iff_tmod_eq_zero]
  omega

theorem sum_range_getD_eq_countP (p : Int → Prop) [DecidablePred p] (l : List Int) :
    (∑ j ∈ Finset.range l.length, if p (l.getD j 0) then 1 else 0)
      = l.countP (fun b => decide (p b)) := by
  induction l with
  | nil => simp
  | cons a l ih =>
    rw [List.length_cons, Finset.sum_range_succ', List.countP_cons]
    simp only [List.getD_cons_succ, List.getD_cons_zero, decide_eq_true_eq]
    rw [ih]

theorem inversionPairs_card (l : List Int) : (inversionPairs l).card = invCount l := by
  induction l with
  | nil => simp [inversionPairs, invCount]
  | cons a l ih =>
    rw [invCount, ← ih]
    unfold inversionPairs
    rw [Finset.card_filter, Finset.card_filter, Finset.sum_product, Finset.sum_product,
      List.length_cons, Finset.sum_range_succ']
    rw [add_comm]
    congr 1
    · rw [Finset.sum_range_succ']
      simp only [List.getD_cons_zero, List.getD_cons_succ, lt_self_iff_false, false_and,
        if_false, add_zero, Nat.zero_lt_succ, true_and]
      by_cases ha : a = 0
      · simp [ha]
      · simp only [ha, if_false, ne_eq, not_false_eq_true, true_and]
        exact sum_range_getD_eq_countP (fun b => ¬ b = 0 ∧ a > b) l
    · apply Finset.sum_congr rfl
      intro i _
      rw [Finset.sum_range_succ']
      simp [List.getD_cons_succ]

theorem Possible_iff_even_inversionPairs (puzzle : List Int) :
    Possible puzzle = true ↔ Even (inversionPairs puzzle).card := by
  rw [Possible_iff_invCount, inversionPairs_card, Nat.even_iff]


theorem gt01_add {a b : Int} (h : a ≠ b) : gt01 a b + gt01 b a = 1 := by
  unfold gt01
  rcases lt_or_gt_of_ne h with h1 | h1
  · simp [h1, not_lt_of_gt h1]
  · have h2 : ¬ b > a := not_lt_of_gt h1
    simp [h1, h2]

theorem countP_eq_sum_filter (a : Int) (l : List Int) :
    l.countP (fun b => decide (b ≠ 0 ∧ a > b))
      = ((l.filter (fun b => decide (b ≠ 0))).map (gt01 a)).sum := by
  induction l with
  | nil => simp
  | cons b l ih =>
    rw [List.countP_cons, List.filter_cons, ih]
    by_cases hb : b = 0
    · simp [hb]
    · by_cases hab : a > b
      · simp [hb, hab, gt01]; omega
      · simp [hb, hab, gt01]

theorem invCount_eq_filter (l : List Int) :
    invCount l = invAll (l.filter (fun b => decide (b ≠ 0))) := by
  induction l with
  | nil => simp [invCount, invAll]
  | cons a l ih =>
    rw [invCount, List.filter_cons, ih]
    by_cases ha : a = 0
    · simp [ha]
    · have hd : decide (a ≠ 0) = true := by simp [ha]
      simp only [ha, hd, if_true, if_false, invAll]
      rw [countP_eq_sum_filter]


theorem invAll_append (A B : List Int) :
    invAll (A ++ B) = invAll A + (A.map (fun a => (B.map (gt01 a)).sum)).sum + invAll B := by
  induction A with
  | nil => simp [invAll]
  | cons a A ih =>
    have e : invAll (a :: A ++ B) = ((A ++ B).map (gt01 a)).sum + invAll (A ++ B) := rfl
    rw [e, ih]
    simp only [List.map_append, List.sum_append, List.map_cons, List.sum_cons, invAll]
    omega

theorem invCount_blank_right (A : List Int) (t : Int) (C : List Int) :
    invCount (A ++ t :: 0 :: C) = invCount (A ++ 0 :: t :: C) := by
  rw [invCount_eq_filter, invCount_eq_filter]
  congr 1
  simp only [List.filter_append, List.filter_cons]
  by_cases ht : t = 0 <;> simp [ht]

theorem invCount_blank_down (A : List Int) (u1 u2 t : Int) (C : List Int)
    (h1 : u1 ≠ 0) (h2 : u2 ≠ 0) (ht : t ≠ 0) (ht1 : t ≠ u1) (ht2 : t ≠ u2) :
    invCount (A ++ t :: u1 :: u2 :: 0 :: C) % 2 = invCount (A ++ 0 :: u1 :: u2 :: t :: C) % 2 := by
  have e1 : (A ++ t :: u1 :: u2 :: 0 :: C).filter (fun b => decide (b ≠ 0))
      = A.filter (fun b => decide (b ≠ 0)) ++ t :: u1 :: u2 :: C.filter (fun b => decide (b ≠ 0)) := by
    simp [List.filter_append, List.filter_cons, h1, h2, ht]
  have e2 : (A ++ 0 :: u1 :: u2 :: t :: C).filter (fun b => decide (b ≠ 0))
      = A.filter (fun b => decide (b ≠ 0)) ++ u1 :: u2 :: t :: C.filter (fun b => decide (b ≠ 0)) := by
    simp [List.filter_append, List.filter_cons, h1, h2, ht]
  rw [invCount_eq_filter, invCount_eq_filter, e1, e2, invAll_append, invAll_append]
  have hf : (fun a => ((t :: u1 :: u2 :: C.filter (fun b => decide (b ≠ 0))).map (gt01 a)).sum)
      = (fun a => ((u1 :: u2 :: t :: C.filter (fun b => decide (b ≠ 0))).map (gt01 a)).sum) := by
    funext a
    simp only [List.map_cons, List.sum_cons]
    omega
  rw [hf]
  have g1 := gt01_add ht1
  have g2 := gt01_add ht2
  simp only [invAll, List.map_cons, List.sum_cons]
  omega

theorem exists_split_two (l : List Int) (i : Nat) (h : i + 1 < l.length) :
    ∃ A x y C, l = A ++ x :: y :: C ∧ A.length = i ∧ l[i]? = some x ∧ l[i + 1]? = some y := by
  refine ⟨l.take i, l[i], l[i + 1], l.drop (i + 2), ?_, ?_, ?_, ?_⟩
  · rw [← List.drop_eq_getElem_cons h, ← List.drop_eq_getElem_cons (by omega),
      List.take_append_drop]
  · simp; omega
  · exact List.getElem?_eq_getElem _
  · exact List.getElem?_eq_getElem _

theorem exists_split_four (l : List Int) (i : Nat) (h : i + 3 < l.length) :
    ∃ A x u1 u2 y C, l = A ++ x :: u1 :: u2 :: y :: C ∧ A.length = i ∧ l[i]? = some x ∧
      l[i + 3]? = some y := by
  refine ⟨l.take i, l[i], l[i + 1], l[i + 2], l[i + 3], l.drop (i + 4), ?_, ?_, ?_, ?_⟩
  · rw [← List.drop_eq_getElem_cons h, ← List.drop_eq_getElem_cons (by omega),
      ← List.drop_eq_getElem_cons (by omega), ← List.drop_eq_getElem_cons (by omega),
      List.take_append_drop]
  · simp; omega
  · exact List.getElem?_eq_getElem _
  · exact List.getElem?_eq_getElem _

theorem swapCells_adjacent (A : List Int) (x y : Int) (C : List Int) :
    swapCells (A ++ x :: y :: C) A.length (A.length + 1) = A ++ y :: x :: C := by
  induction A with
  | nil => rfl
  | cons a A ih =>
    simp only [swapCells, List.cons_append, List.length_cons, List.getD_cons_succ,
      List.set_cons_succ] at ih ⊢
    rw [ih]

theorem swapCells_three_apart (A : List Int) (x u1 u2 y : Int) (C : List Int) :
    swapCells (A ++ x :: u1 :: u2 :: y :: C) A.length (A.length + 3)
      = A ++ y :: u1 :: u2 :: x :: C := by
  induction A with
  | nil => rfl
  | cons a A ih =>
    simp only [swapCells, List.cons_append, List.length_cons, List.getD_cons_succ,
      List.set_cons_succ] at ih ⊢
    rw [ih]

theorem swapCells_comm (v : List Int) {i j : Nat} (hi : i < v.length) (hj : j < v.length) :
    swapCells v i j = swapCells v j i := by
  apply List.ext_getElem?
  intro k
  rw [swapCells_getElem? v hi hj, swapCells_getElem? v hj hi]
  by_cases h1 : k = i
  · subst h1
    by_cases h2 : k = j
    · subst h2; simp
    · simp [h2]
  · by_cases h2 : k = j
    · subst h2; simp [h1]
    · simp [h1, h2]

theorem invCount_swap_parity (l : List Int) (hnd : l.Nodup) (hlen : l.length = 9)
    (z mov : Int) (h0 : 0 ≤ z) (h9 : z < 9) (hz : l[z.toNat]? = some 0) (hm : mov ∈ moves)
    (hrej : ¬ moveRejected z mov) :
    invCount (swapCells l z.toNat (z + mov).toNat) % 2 = invCount l % 2 := by
  obtain ⟨hp0, hp9, -⟩ := moveRejected_adjacent h0 h9 hm hrej
  simp only [moves, List.mem_cons, List.mem_singleton, List.not_mem_nil, or_false] at hm
  rcases hm with rfl | rfl | rfl | rfl
  · -- left: the tile at `z - 1` moves right
    obtain ⟨A, x, y, C, hl, hA, hx, hy⟩ := exists_split_two l (z + -1).toNat (by omega)
    have e1 : (z + -1).toNat + 1 = z.toNat := by omega
    rw [e1, hz] at hy
    cases hy
    rw [swapCells_comm l (by omega) (by omega), ← e1, ← hA, hl, swapCells_adjacent]
    exact congrArg (· % 2) (invCount_blank_right A x C).symm
  · -- right: the tile at `z + 1` moves left
    obtain ⟨A, x, y, C, hl, hA, hx, hy⟩ := exists_split_two l z.toNat (by omega)
    rw [hz] at hx
    cases hx
    have e1 : (z + 1).toNat = z.toNat + 1 := by omega
    rw [e1, ← hA, hl, swapCells_adjacent]
    exact congrArg (· % 2) (invCount_blank_right A y C)
  · -- up: the tile at `z - 3` moves down
    obtain ⟨A, x, u1, u2, y, C, hl, hA, hx, hy⟩ := exists_split_four l (z + -3).toNat (by omega)
    have e1 : (z + -3).toNat + 3 = z.toNat := by omega
    rw [e1, hz] at hy
    cases hy
    rw [hl] at hnd
    simp only [List.nodup_append, List.nodup_cons, List.mem_cons, not_or] at hnd
    rw [swapCells_comm l (by omega) (by omega), ← e1, ← hA, hl, swapCells_three_apart]
    exact (invCount_blank_down A u1 u2 x C (by tauto) (by tauto) (by tauto) (by tauto)
      (by tauto)).symm
  · -- down: the tile at `z + 3` moves up
    obtain ⟨A, x, u1, u2, y, C, hl, hA, hx, hy⟩ := exists_split_four l z.toNat (by omega)
    rw [hz] at hx
    cases hx
    rw [hl] at hnd
    simp only [List.nodup_append, List.nodup_cons, List.mem_cons, not_or] at hnd
    have e1 : (z + 3).toNat = z.toNat + 3 := by omega
    rw [e1, ← hA, hl, swapCells_three_apart]
    exact invCount_blank_down A u1 u2 y C (by tauto) (by tauto) (by tauto) (by tauto)
      (by tauto)

/-! ## Successor generator: invariant and inverse moves -/

theorem ValidMoveset_valid (F : DoubleOps D) {curr : PuzzleState D} (h : ValidState curr)
    {s : PuzzleState D} (hs : s ∈ ValidMoveset F curr) : ValidState s := by
  obtain ⟨hp0, hp9, -, -, hz, -⟩ := ValidMoveset_swap_facts F curr h s hs
  obtain ⟨mov, -, -, rfl⟩ := (mem_ValidMoveset F curr s).1 hs
  have h9 := h.zero_lt
  refine ⟨?_, hp0, hz⟩
  simp only [moveNode] at hp0 hp9 ⊢
  exact h.1.swapCells (by have := h.2.1; omega) (by omega)

theorem swapCells_swapCells (v : List Int) {i j : Nat} (hi : i < v.length) (hj : j < v.length) :
    swapCells (swapCells v i j) j i = v := by
  apply List.ext_getElem?
  intro k
  have hi' : i < (swapCells v i j).length := by rw [swapCells_length]; exact hi
  have hj' : j < (swapCells v i j).length := by rw [swapCells_length]; exact hj
  simp only [swapCells_getElem? _ hj' hi', swapCells_getElem? _ hi hj]
  by_cases h1 : k = i
  · subst h1; simp
  · by_cases h2 : k = j
    · subst h2; simp [h1, Ne.symm h1]
    · simp [h1, h2]

theorem inverse_move_accepted {z mov : Int} (h0 : 0 ≤ z) (h9 : z < 9) (hm : mov ∈ moves)
    (hrej : ¬ moveRejected z mov) : -mov ∈ moves ∧ ¬ moveRejected (z + mov) (-mov) := by
  simp only [moves, List.mem_cons, List.mem_singleton, List.not_mem_nil, or_false] at hm
  rcases hm with rfl | rfl | rfl | rfl <;> interval_cases z <;>
    first
    | (exfalso; exact hrej (by decide))
    | decide

theorem ValidMoveset_inverse (F : DoubleOps D) {curr : PuzzleState D} (h : ValidState curr)
    {s : PuzzleState D} (hs : s ∈ ValidMoveset F curr) :
    ∃ t ∈ ValidMoveset F s, t.state = curr.state ∧ t.zero = curr.zero := by
  obtain ⟨mov, hm, hrej, rfl⟩ := (mem_ValidMoveset F curr s).1 hs
  have h9 := h.zero_lt
  obtain ⟨hb, h0, -⟩ := h
  have hl := hb.length_eq
  obtain ⟨hp0, hp9, -⟩ := moveRejected_adjacent h0 h9 hm hrej
  obtain ⟨hm', hrej'⟩ := inverse_move_accepted h0 h9 hm hrej
  refine ⟨moveNode F (moveNode F curr mov) (-mov), ?_, ?_, ?_⟩
  · exact (mem_ValidMoveset F _ _).2 ⟨-mov, hm', hrej', rfl⟩
  · simp only [moveNode, add_neg_cancel_right]
    exact swapCells_swapCells _ (by omega) (by omega)
  · simp [moveNode]

/-! ## Solvability check and moves -/

theorem Possible_eq_of_parity {a b : List Int} (h : invCount a % 2 = invCount b % 2) :
    Possible a = Possible b := by
  have ha := Possible_iff_invCount a
  have hb := Possible_iff_invCount b
  rw [h] at ha
  cases hpa : Possible a <;> cases hpb : Possible b <;> simp_all

theorem Possible_ValidMoveset (F : DoubleOps D) {curr : PuzzleState D} (h : ValidState curr)
    {s : PuzzleState D} (hs : s ∈ ValidMoveset F curr) : Possible s.state = Possible curr.state := by
  obtain ⟨mov, hm, hrej, rfl⟩ := (mem_ValidMoveset F curr s).1 hs
  apply Possible_eq_of_parity
  exact invCount_swap_parity curr.state h.1.nodup h.1.length_eq curr.zero mov h.2.1 h.zero_lt
    h.2.2 hm hrej

theorem reachIn_valid (F : DoubleOps D) :
    ∀ (n : Nat) {a b : PuzzleState D}, ValidState a → reachIn F n a b → ValidState b
  | 0, _, _, ha, hr => by
    simp only [reachIn] at hr
    exact hr ▸ ha
  | n + 1, _, _, ha, hr => by
    obtain ⟨m, hm, hr'⟩ := hr
    exact reachIn_valid F n (ValidMoveset_valid F ha hm) hr'

theorem reachIn_Possible (F : DoubleOps D) :
    ∀ (n : Nat) {a b : PuzzleState D}, ValidState a → reachIn F n a b →
      Possible b.state = Possible a.state
  | 0, _, _, _, hr => by
    simp only [reachIn] at hr
    rw [hr]
  | n + 1, _, _, ha, hr => by
    obtain ⟨m, hm, hr'⟩ := hr
    rw [reachIn_Possible F n (ValidMoveset_valid F ha hm) hr', Possible_ValidMoveset F ha hm]

/-! ## Search engines: lemmas -/

theorem mindexLoop_lt {α : Type} (less : α → α → Bool) (l : List α) (h : l ≠ []) :
    mindexLoop less l < l.length := by
  unfold mindexLoop
  have key : ∀ (is : List Nat) (m : Nat), m < l.length → (∀ i ∈ is, i < l.length) →
      is.foldl (fun mindex i =>
        match l[i]?, l[mindex]? with
        | some a, some b => if less a b then i else mindex
        | _, _ => mindex) m < l.length := by
    intro is
    induction is with
    | nil => intro m hm _; simpa using hm
    | cons i is ih =>
      intro m hm hi
      rw [List.foldl_cons]
      apply ih
      · have := hi i (by simp)
        split
        · split_ifs <;> assumption
        · assumption
      · intro j hj; exact hi j (by simp [hj])
  apply key
  · exact List.length_pos.2 h
  · intro i hi
    simp only [List.mem_range'_1] at hi
    omega

/-- Node selected by a loop pass: `open[mindex]`. -/
theorem selected_getElem? {α : Type} (less : α → α → Bool) (first : α) (rest : List α) :
    (first :: rest)[mindexLoop less (first :: rest)]?
      = some ((first :: rest).getD (mindexLoop less (first :: rest)) first) := by
  have h := mindexLoop_lt less (first :: rest) (by simp)
  rw [List.getD_eq_getElem _ _ h, List.getElem?_eq_getElem h]

theorem UniformCostSearchBody_ok (F : DoubleOps D) {st st' : SearchState D}
    (h : UniformCostSearchBody F st = .ok st') :
    ∃ (m : Nat) (curr : PuzzleState D), st.openList[m]? = some curr ∧ curr.state ≠ goal ∧
      st'.openList = (ValidMoveset F curr).foldl (ucsPush (st.explored ++ [curr.state]))
        (st.openList.eraseIdx m) ∧
      st'.explored = st.explored ++ [curr.state] ∧ st'.expanded = st.expanded + 1 ∧
      st'.maxSize = max st.maxSize (st.openList.length : Int) := by
  unfold UniformCostSearchBody at h
  split at h
  · cases h
  · rename_i first rest hopen
    simp only at h
    split_ifs at h with hg
    injection h with h
    subst h
    refine ⟨mindexLoop ucsLess (first :: rest),
      (first :: rest).getD (mindexLoop ucsLess (first :: rest)) first, ?_, hg, ?_, rfl, rfl, ?_⟩
    · rw [hopen]; exact selected_getElem? ucsLess first rest
    · simp only [hopen]
    · simp only [hopen]

theorem UniformCostSearchBody_error (F : DoubleOps D) {st : SearchState D} {r : SearchResult}
    (h : UniformCostSearchBody F st = .error r) :
    (st.openList = [] ∧ r = .failure st.expanded st.maxSize) ∨
    ∃ curr ∈ st.openList, curr.state = goal ∧
      r = .success st.expanded (max st.maxSize (st.openList.length : Int)) curr.depth := by
  unfold UniformCostSearchBody at h
  split at h
  · rename_i hopen
    injection h with h
    exact Or.inl ⟨hopen, h.symm⟩
  · rename_i first rest hopen
    simp only at h
    split_ifs at h with hg
    injection h with h
    refine Or.inr ⟨(first :: rest).getD (mindexLoop ucsLess (first :: rest)) first, ?_, hg, ?_⟩
    · rw [hopen]
      exact List.getElem?_mem (selected_getElem? ucsLess first rest)
    · rw [hopen]; exact h.symm

theorem AStarBody_ok (F : DoubleOps D) (hh : List Int → D) {st st' : SearchState D}
    (h : AStarBody F hh st = .ok st') :
    ∃ (m : Nat) (curr : PuzzleState D), st.openList[m]? = some curr ∧ curr.state ≠ goal ∧
      st'.openList = (ValidMoveset F { curr with heuristic := hh curr.state }).foldl
        (astarPush hh (st.explored ++ [curr.state])) (st.openList.eraseIdx m) ∧
      st'.explored = st.explored ++ [curr.state] ∧ st'.expanded = st.expanded + 1 ∧
      st'.maxSize = max st.maxSize (st.openList.length : Int) := by
  unfold AStarBody at h
  split at h
  · cases h
  · rename_i first rest hopen
    simp only at h
    split_ifs at h with hg
    injection h with h
    subst h
    refine ⟨mindexLoop (astarLess F) (first :: rest),
      (first :: rest).getD (mindexLoop (astarLess F) (first :: rest)) first, ?_, hg, ?_, rfl, rfl,
      ?_⟩
    · rw [hopen]; exact selected_getElem? (astarLess F) first rest
    · simp only [hopen]
    · simp only [hopen]

theorem AStarBody_error (F : DoubleOps D) (hh : List Int → D) {st : SearchState D}
    {r : SearchResult} (h : AStarBody F hh st = .error r) :
    (st.openList = [] ∧ r = .failure st.expanded st.maxSize) ∨
    ∃ curr ∈ st.openList, curr.state = goal ∧
      r = .success st.expanded (max st.maxSize (st.openList.length : Int)) curr.depth := by
  unfold AStarBody at h
  split at h
  · rename_i hopen
    injection h with h
    exact Or.inl ⟨hopen, h.symm⟩
  · rename_i first rest hopen
    simp only at h
    split_ifs at h with hg
    injection h with h
    refine Or.inr ⟨(first :: rest).getD (mindexLoop (astarLess F) (first :: rest)) first, ?_, hg,
      ?_⟩
    · rw [hopen]
      exact List.getElem?_mem (selected_getElem? (astarLess F) first rest)
    · rw [hopen]; exact h.symm

theorem mem_foldl_ucsPush (explored : List (List Int)) (heirs : List (PuzzleState D)) :
    ∀ (o : List (PuzzleState D)) (node : PuzzleState D),
      node ∈ heirs.foldl (ucsPush explored) o → node ∈ o ∨ node ∈ heirs := by
  induction heirs with
  | nil => intro o node h; exact Or.inl h
  | cons heir heirs ih =>
    intro o node h
    rw [List.foldl_cons] at h
    rcases ih _ _ h with h1 | h1
    · unfold ucsPush at h1
      split_ifs at h1
      · rcases List.mem_append.1 h1 with h2 | h2
        · exact Or.inl h2
        · exact Or.inr (by simp only [List.mem_singleton] at h2; simp [h2])
      · exact Or.inl h1
    · exact Or.inr (List.mem_cons_of_mem _ h1)

theorem mem_foldl_astarPush (hh : List Int → D) (explored : List (List Int))
    (heirs : List (PuzzleState D)) :
    ∀ (o : List (PuzzleState D)) (node : PuzzleState D),
      node ∈ heirs.foldl (astarPush hh explored) o →
        node ∈ o ∨ ∃ heir ∈ heirs, node = { heir with heuristic := hh heir.state } := by
  induction heirs with
  | nil => intro o node h; exact Or.inl h
  | cons heir heirs ih =>
    intro o node h
    rw [List.foldl_cons] at h
    rcases ih _ _ h with h1 | ⟨x, hx, hn⟩
    · unfold astarPush at h1
      simp only at h1
      split_ifs at h1
      · rcases List.mem_append.1 h1 with h2 | h2
        · exact Or.inl h2
        · refine Or.inr ⟨heir, by simp, ?_⟩
          simpa using h2
      · exact Or.inl h1
    · exact Or.inr ⟨x, List.mem_cons_of_mem _ hx, hn⟩

theorem ValidState.with_heuristic {p : PuzzleState D} (h : ValidState p) (x : D) :
    ValidState { p with heuristic := x } := h

theorem UniformCostSearchBody_valid (F : DoubleOps D) {st st' : SearchState D}
    (hv : ∀ node ∈ st.openList, ValidState node) (h : UniformCostSearchBody F st = .ok st') :
    ∀ node ∈ st'.openList, ValidState node := by
  obtain ⟨m, curr, hc, -, ho, -⟩ := UniformCostSearchBody_ok F h
  intro node hn
  rw [ho] at hn
  rcases mem_foldl_ucsPush _ _ _ _ hn with h1 | h1
  · exact hv node (List.mem_of_mem_eraseIdx h1)
  · exact ValidMoveset_valid F (hv curr (List.getElem?_mem hc)) h1

theorem AStarBody_valid (F : DoubleOps D) (hh : List Int → D) {st st' : SearchState D}
    (hv : ∀ node ∈ st.openList, ValidState node) (h : AStarBody F hh st = .ok st') :
    ∀ node ∈ st'.openList, ValidState node := by
  obtain ⟨m, curr, hc, -, ho, -⟩ := AStarBody_ok F hh h
  intro node hn
  rw [ho] at hn
  rcases mem_foldl_astarPush _ _ _ _ _ hn with h1 | ⟨x, hx, rfl⟩
  · exact hv node (List.mem_of_mem_eraseIdx h1)
  · have hcv : ValidState { curr with heuristic := hh curr.state } :=
      (hv curr (List.getElem?_mem hc)).with_heuristic _
    exact (ValidMoveset_valid F hcv hx).with_heuristic _

theorem iterateBody_invariant {S R : Type} (body : S → Except R S) (P : S → Prop)
    (hstep : ∀ s s', P s → body s = .ok s' → P s') :
    ∀ (n : Nat) (s s' : S), P s → iterateBody body n s = some s' → P s'
  | 0, s, s', hs, h => by
    simp only [iterateBody, Option.some.injEq] at h
    exact h ▸ hs
  | n + 1, s, s', hs, h => by
    simp only [iterateBody] at h
    split at h
    · rename_i s1 hb
      exact iterateBody_invariant body P hstep n s1 s' (hstep s s1 hs hb) h
    · cases h

theorem findZero_valid {puzzle : List Int} (h : ValidBoard puzzle) :
    0 ≤ findZero puzzle ∧ puzzle[(findZero puzzle).toNat]? = some 0 := by
  have hmem : (0 : Int) ∈ puzzle := (List.Perm.mem_iff h).2 (by decide)
  have hlt : puzzle.indexOf 0 < puzzle.length := List.indexOf_lt_length.2 hmem
  refine ⟨by simp [findZero], ?_⟩
  simp only [findZero, Int.toNat_ofNat]
  rw [List.getElem?_eq_getElem hlt, List.getElem_indexOf hlt]

theorem startNode_valid {puzzle : List Int} (h : ValidBoard puzzle) (x : D) (d : Int) :
    ValidState ({ state := puzzle, heuristic := x, depth := d, zero := findZero puzzle } :
      PuzzleState D) :=
  ⟨h, (findZero_valid h).1, (findZero_valid h).2⟩

theorem Euclidean_goal (F : DoubleOps D) (hF : ZeroExact F) : Euclidean F goal = F.ofInt 0 := by
  obtain ⟨hpow, hadd, hsqrt, -⟩ := hF
  simp [Euclidean, goal, List.range, List.range.loop, Int.tdiv, Int.tmod, hpow, hadd, hsqrt]

theorem runLoop_error {S R : Type} (body : S → Except R S) (s : S) (r : R)
    (h : body s = .error r) (fuel : Nat) : runLoop body (fuel + 1) s = some r := by
  simp [runLoop, h]

theorem UniformCostSearch_goal (F : DoubleOps D) (fuel : Nat) :
    UniformCostSearch F (fuel + 1) goal = some (.success 0 1 0) := by
  apply runLoop_error
  simp [UniformCostSearchBody, UniformCostSearchInit, mindexLoop]

theorem AStarMisplaced_goal (F : DoubleOps D) (fuel : Nat) :
    AStarMisplaced F (fuel + 1) goal = some (.success 0 1 0) := by
  apply runLoop_error
  have h : OutOfPlace goal = 0 := by decide
  simp [AStarBody, AStarMisplacedInit, mindexLoop, h]

theorem AStarEuclidean_goal (F : DoubleOps D) (hF : ZeroExact F) (fuel : Nat) :
    AStarEuclidean F (fuel + 1) goal = some (.success 0 1 0) := by
  apply runLoop_error
  simp [AStarBody, AStarEuclideanInit, mindexLoop, Euclidean_goal F hF, hF.2.2.2]

/-! ## Every solvable board reaches the goal -/

theorem stageOK_all : ∀ k ∈ [1, 2, 3, 4, 5, 6], stageOK k = true := by decide!

theorem swapCells_map (f : Int → Int) (hf : f 0 = 0) (l : List Int) (i j : Nat) :
    swapCells (l.map f) i j = (swapCells l i j).map f := by
  have hg : ∀ n, (l.map f).getD n 0 = f (l.getD n 0) := by
    intro n
    simp only [List.getD_eq_getElem?_getD, List.getElem?_map]
    cases l[n]? <;> simp [hf]
  simp only [swapCells, hg, List.map_set]

theorem runMoves_map (f : Int → Int) (hf : f 0 = 0) (ms : List Int) :
    ∀ (b : List Int) (z : Int),
      runMoves (b.map f, z) ms = (runMoves (b, z) ms).map (fun r => (r.1.map f, r.2)) := by
  induction ms with
  | nil => intro b z; simp [runMoves]
  | cons mov ms ih =>
    intro b z
    simp only [runMoves]
    split_ifs
    · rw [swapCells_map f hf, ih]
    · rfl

theorem reachIn_trans (F : DoubleOps D) :
    ∀ (n m : Nat) {a b c : PuzzleState D}, reachIn F n a b → reachIn F m b c →
      reachIn F (n + m) a c
  | 0, m, _, _, _, h1, h2 => by
    simp only [reachIn] at h1
    subst h1
    simpa using h2
  | n + 1, m, _, _, _, h1, h2 => by
    obtain ⟨x, hx, h1'⟩ := h1
    have h := reachIn_trans F n m h1' h2
    rw [Nat.add_right_comm]
    exact ⟨x, hx, h⟩

theorem reachIn_of_runMoves (F : DoubleOps D) (ms : List Int) :
    ∀ (B : PuzzleState D) (b' : List Int) (z' : Int),
      runMoves (B.state, B.zero) ms = some (b', z') →
        ∃ S, reachIn F ms.length B S ∧ S.state = b' ∧ S.zero = z' := by
  induction ms with
  | nil =>
    intro B b' z' h
    simp only [runMoves, Option.some.injEq, Prod.mk.injEq] at h
    exact ⟨B, rfl, h.1, h.2⟩
  | cons mov ms ih =>
    intro B b' z' h
    simp only [runMoves] at h
    split_ifs at h with hl
    obtain ⟨S, hS, h1, h2⟩ := ih (moveNode F B mov) b' z' h
    exact ⟨S, ⟨moveNode F B mov, (mem_ValidMoveset F B _).2 ⟨mov, hl.1, hl.2, rfl⟩, hS⟩, h1, h2⟩

theorem stageView_zero (k : Nat) : stageView k 0 = 0 := by simp [stageView]

theorem stageView_pos {k : Nat} {v w : Int} (h : stageView k v = w) (hw : 1 ≤ w) : v = w := by
  unfold stageView at h
  split_ifs at h <;> omega

theorem stageView_board {b : List Int} (hb : ValidBoard b) {k z p : Nat}
    (hk : 1 ≤ k) (hplaced : placed (k - 1) b) (hz : b[z]? = some 0)
    (hp : b[p]? = some (k : Int)) : b.map (stageView k) = stageBoard k z p := by
  have hl := hb.length_eq
  have hnd := hb.nodup
  apply List.ext_getElem?
  intro i
  by_cases hi : i < 9
  · have hib : i < b.length := by omega
    have e1 : (b.map (stageView k))[i]? = some (stageView k b[i]) := by
      simp [List.getElem?_map, List.getElem?_eq_getElem hib]
    have e2 : (stageBoard k z p)[i]?
        = some (if i = z then 0 else if i = p then (k : Int) else if i + 1 < k then (i : Int) + 1
            else -1) := by
      simp [stageBoard, List.getElem?_map, List.getElem?_range hi]
    rw [e1, e2]
    congr 1
    obtain ⟨hzl, hz'⟩ := List.getElem?_eq_some.1 hz
    obtain ⟨hpl, hp'⟩ := List.getElem?_eq_some.1 hp
    by_cases h1 : i = z
    · subst h1; simp [hz', stageView]
    · by_cases h2 : i = p
      · subst h2
        have : (1 : Int) ≤ k := by exact_mod_cast hk
        simp [h1, hp', stageView]
        omega
      · by_cases h3 : i + 1 < k
        · have := hplaced i (by omega)
          obtain ⟨_, h4⟩ := List.getElem?_eq_some.1 this
          simp only [h1, h2, h3, if_true, if_false, h4, stageView]
          have : ((i : Int) + 1 ≤ k) := by exact_mod_cast (by omega : i + 1 ≤ k)
          split_ifs <;> omega
        · simp only [h1, h2, h3, if_false, stageView]
          have hv0 : b[i] ≠ 0 := by
            intro hc
            exact h1 ((List.Nodup.getElem_inj_iff hnd).1 (hc.trans hz'.symm))
          have hvk : b[i] ≠ (k : Int) := by
            intro hc
            exact h2 ((List.Nodup.getElem_inj_iff hnd).1 (hc.trans hp'.symm))
          have hvlow : ¬ (1 ≤ b[i] ∧ b[i] < (k : Int)) := by
            rintro ⟨hc1, hc2⟩
            have hj : (b[i] - 1).toNat < k - 1 := by omega
            obtain ⟨hjl, h4⟩ := List.getElem?_eq_some.1 (hplaced _ hj)
            have h5 : b[(b[i] - 1).toNat] = b[i] := by rw [h4]; omega
            have := (List.Nodup.getElem_inj_iff hnd).1 h5
            omega
          split_ifs <;> omega
  · rw [List.getElem?_eq_none (by simp; omega), List.getElem?_eq_none (by simp [stageBoard]; omega)]


theorem stageEntryOK_of_stageOK {k z p : Nat} (hk : stageOK k = true) (hz : z < 9) (hp : p < 9)
    (hzp : z ≠ p) (hkz : k ≤ z + 1) (hkp : k ≤ p + 1) : stageEntryOK k z p = true := by
  simp only [stageOK, List.all_eq_true, List.mem_range] at hk
  have h := hk z hz p hp
  simpa [hzp, hkz, hkp] using h

theorem placed_of_stageView {k : Nat} {b : List Int} (h : placed k (b.map (stageView k))) :
    placed k b := by
  intro i hi
  have h1 := h i hi
  rw [List.getElem?_map] at h1
  cases hb : b[i]? with
  | none => rw [hb] at h1; cases h1
  | some v =>
    rw [hb] at h1
    simp only [Option.map_some', Option.some.injEq] at h1
    rw [stageView_pos h1 (by omega)]

theorem stage_step (F : DoubleOps D) {k : Nat} (hk : k ∈ [1, 2, 3, 4, 5, 6])
    {B : PuzzleState D} (hB : ValidState B) (hpl : placed (k - 1) B.state) :
    ∃ n S, reachIn F n B S ∧ placed k S.state := by
  have hk1 : 1 ≤ k ∧ k ≤ 6 := by
    simp only [List.mem_cons, List.mem_singleton, List.not_mem_nil, or_false] at hk
    omega
  have hz9 := hB.zero_lt
  obtain ⟨hb, hz0, hz⟩ := hB
  have hkmem : (k : Int) ∈ B.state := by
    apply (validBoard_iff.1 hb).2
    simp only [List.mem_cons, List.mem_singleton, List.not_mem_nil, or_false] at hk ⊢
    omega
  obtain ⟨p, hp⟩ := List.mem_iff_getElem?.1 hkmem
  have hp9 : p < 9 := by
    have := (List.getElem?_eq_some.1 hp).1
    rw [hb.length_eq] at this
    exact this
  have hkz : k ≤ B.zero.toNat + 1 := by
    by_contra hc
    have := hpl B.zero.toNat (by omega)
    rw [hz] at this
    simp only [Option.some.injEq] at this
    omega
  have hkp : k ≤ p + 1 := by
    by_contra hc
    have := hpl p (by omega)
    rw [hp] at this
    simp only [Option.some.injEq] at this
    omega
  have hzp : B.zero.toNat ≠ p := by
    intro hc
    rw [hc, hp] at hz
    simp only [Option.some.injEq] at hz
    omega
  have hentry := stageEntryOK_of_stageOK (stageOK_all k hk) (by omega) hp9 hzp hkz hkp
  unfold stageEntryOK at hentry
  rw [← stageView_board hb hk1.1 hpl hz hp, Int.toNat_of_nonneg hz0,
    runMoves_map _ (stageView_zero k)] at hentry
  cases hrun : runMoves (B.state, B.zero) (stageMoves k B.zero.toNat p) with
  | none => rw [hrun] at hentry; simp at hentry
  | some r =>
    obtain ⟨b', z'⟩ := r
    rw [hrun] at hentry
    simp only [Option.map_some', decide_eq_true_eq] at hentry
    obtain ⟨S, hS, hSb, -⟩ := reachIn_of_runMoves F _ B b' z' hrun
    exact ⟨_, S, hS, hSb ▸ placed_of_stageView hentry⟩

theorem reach_placed (F : DoubleOps D) :
    ∀ k, k ≤ 6 → ∀ {B : PuzzleState D}, ValidState B → ∃ n S, reachIn F n B S ∧ placed k S.state
  | 0, _, B, _ => ⟨0, B, rfl, fun i hi => absurd hi (Nat.not_lt_zero i)⟩
  | k + 1, hk, B, hB => by
    obtain ⟨n, S, hS, hpl⟩ := reach_placed F k (by omega) hB
    have hmem : k + 1 ∈ [1, 2, 3, 4, 5, 6] := by
      simp only [List.mem_cons, List.mem_singleton, List.not_mem_nil, or_false]
      omega
    obtain ⟨m, T, hT, hpl'⟩ := stage_step F hmem (reachIn_valid F n hB hS) hpl
    exact ⟨n + m, T, reachIn_trans F n m hS hT, hpl'⟩

theorem list_length_nine {s : List Int} (h : s.length = 9) :
    ∃ a0 a1 a2 a3 a4 a5 a6 a7 a8, s = [a0, a1, a2, a3, a4, a5, a6, a7, a8] := by
  match s, h with
  | [a0, a1, a2, a3, a4, a5, a6, a7, a8], _ => exact ⟨a0, a1, a2, a3, a4, a5, a6, a7, a8, rfl⟩

theorem last_row_cases {b : List Int} (hb : ValidBoard b) (hpl : placed 6 b) :
    b = [1, 2, 3, 4, 5, 6, 7, 8, 0] ∨ b = [1, 2, 3, 4, 5, 6, 7, 0, 8] ∨
      b = [1, 2, 3, 4, 5, 6, 0, 7, 8] ∨ b = [1, 2, 3, 4, 5, 6, 8, 7, 0] ∨
      b = [1, 2, 3, 4, 5, 6, 8, 0, 7] ∨ b = [1, 2, 3, 4, 5, 6, 0, 8, 7] := by
  obtain ⟨a0, a1, a2, a3, a4, a5, x, y, w, rfl⟩ := list_length_nine hb.length_eq
  have h0 := hpl 0 (by omega)
  have h1 := hpl 1 (by omega)
  have h2 := hpl 2 (by omega)
  have h3 := hpl 3 (by omega)
  have h4 := hpl 4 (by omega)
  have h5 := hpl 5 (by omega)
  simp only [List.getElem?_cons_zero, List.getElem?_cons_succ, Option.some.injEq] at h0 h1 h2 h3 h4 h5
  norm_num at h0 h1 h2 h3 h4 h5
  subst h0 h1 h2 h3 h4 h5
  have hnd := hb.nodup
  have m0 := (validBoard_iff.1 hb).2 0 (by decide)
  have m7 := (validBoard_iff.1 hb).2 7 (by decide)
  have m8 := (validBoard_iff.1 hb).2 8 (by decide)
  simp only [List.mem_cons, List.mem_singleton, List.not_mem_nil, or_false] at m0 m7 m8
  norm_num at m0 m7 m8
  simp only [List.nodup_cons, List.mem_cons, List.mem_singleton, List.not_mem_nil, not_or,
    List.nodup_nil, and_true, not_false_eq_true] at hnd
  rcases m0 with rfl | rfl | rfl <;> rcases m7 with h7 | h7 | h7 <;>
    rcases m8 with h8 | h8 | h8 <;> first | omega | (subst h7 h8; simp)


theorem ValidState.zero_eq {S : PuzzleState D} (h : ValidState S) {z : Nat}
    (hz : S.state[z]? = some 0) : S.zero = z := by
  obtain ⟨hb, h0, hz'⟩ := h
  obtain ⟨h1, e1⟩ := List.getElem?_eq_some.1 hz
  obtain ⟨h2, e2⟩ := List.getElem?_eq_some.1 hz'
  have := (List.Nodup.getElem_inj_iff hb.nodup).1 (e1.trans e2.symm)
  omega

theorem reach_by_runMoves (F : DoubleOps D) {S : PuzzleState D} {b : List Int} {z : Int}
    (hs : S.state = b) (hz : S.zero = z) (ms : List Int) (b' : List Int) (z' : Int)
    (h : runMoves (b, z) ms = some (b', z')) : ∃ n T, reachIn F n S T ∧ T.state = b' := by
  rw [← hs, ← hz] at h
  obtain ⟨T, hT, hTb, -⟩ := reachIn_of_runMoves F ms S b' z' h
  exact ⟨_, T, hT, hTb⟩

theorem solvable_reaches_goal (F : DoubleOps D) {B : PuzzleState D} (hB : ValidState B)
    (hP : Possible B.state = true) : ∃ n S, reachIn F n B S ∧ S.state = goal := by
  obtain ⟨n, S, hS, hpl⟩ := reach_placed F 6 le_rfl hB
  have hSv := reachIn_valid F n hB hS
  have hSP : Possible S.state = true := by rw [reachIn_Possible F n hB hS, hP]
  rcases last_row_cases hSv.1 hpl with hs | hs | hs | hs | hs | hs
  · exact ⟨n, S, hS, hs⟩
  · have hz : S.zero = (7 : Nat) := hSv.zero_eq (by rw [hs]; rfl)
    obtain ⟨m, T, hT, hTb⟩ := reach_by_runMoves F hs hz [1] goal 8 (by decide)
    exact ⟨n + m, T, reachIn_trans F n m hS hT, hTb⟩
  · have hz : S.zero = (6 : Nat) := hSv.zero_eq (by rw [hs]; rfl)
    obtain ⟨m, T, hT, hTb⟩ := reach_by_runMoves F hs hz [1, 1] goal 8 (by decide)
    exact ⟨n + m, T, reachIn_trans F n m hS hT, hTb⟩
  · rw [hs] at hSP; exact absurd hSP (by decide)
  · rw [hs] at hSP; exact absurd hSP (by decide)
  · rw [hs] at hSP; exact absurd hSP (by decide)

/-! ## Counting the solvable boards -/

theorem swap12_swap12 (v : Int) : swap12 (swap12 v) = v := by
  unfold swap12
  split_ifs <;> omega

theorem map_swap12_involutive (l : List Int) : (l.map swap12).map swap12 = l := by
  rw [List.map_map]
  conv_rhs => rw [← List.map_id l]
  apply List.map_congr_left
  intro a _
  exact swap12_swap12 a

theorem ValidBoard.map_swap12 {l : List Int} (h : ValidBoard l) : ValidBoard (l.map swap12) := by
  have h1 : (l.map swap12).Perm (([0, 1, 2, 3, 4, 5, 6, 7, 8] : List Int).map swap12) :=
    List.Perm.map _ h
  exact h1.trans (by decide)

theorem countP_eq_ite_mem {l : List Int} (hnd : l.Nodup) (c : Int) :
    l.countP (fun b => decide (b = c)) = if c ∈ l then 1 else 0 := by
  have h : l.countP (fun b => decide (b = c)) = l.count c := by
    rw [List.count]
    apply List.countP_congr
    intro x _
    simp
  rw [h, List.count_eq_of_nodup hnd]

theorem invCount_swap12 (l : List Int) (hnd : l.Nodup) (hpos : ∀ v ∈ l, 0 ≤ v) :
    (invCount (l.map swap12) + invCount l) % 2 = if 1 ∈ l ∧ 2 ∈ l then 1 else 0 := by
  induction l with
  | nil => simp [invCount]
  | cons a l ih =>
    have hnd' := (List.nodup_cons.1 hnd).2
    have ha := (List.nodup_cons.1 hnd).1
    have ih' := ih hnd' (fun v hv => hpos v (List.mem_cons_of_mem _ hv))
    have hposl : ∀ v ∈ l, 0 ≤ v := fun v hv => hpos v (List.mem_cons_of_mem _ hv)
    simp only [List.map_cons, invCount, List.countP_map]
    by_cases h1 : a = 1
    · subst h1
      have e1 : l.countP ((fun b => decide (b ≠ 0 ∧ swap12 1 > b)) ∘ swap12)
          = l.countP (fun b => decide (b = 2)) := by
        apply List.countP_congr
        intro x hx
        have := hposl x hx
        simp only [Function.comp, swap12, decide_eq_true_eq]
        split_ifs <;> omega
      have e2 : l.countP (fun b => decide (b ≠ 0 ∧ (1 : Int) > b)) = 0 := by
        rw [List.countP_eq_zero]
        intro x hx
        have := hposl x hx
        simp only [decide_eq_true_eq]
        omega
      have e3 : swap12 1 = 2 := by decide
      rw [e1, e2, countP_eq_ite_mem hnd', e3]
      simp only [ha, false_and, if_false] at ih'
      simp only [List.mem_cons, true_or, true_and]
      have e4 : ((2 : Int) = 1) = False := by simp
      simp only [e4, false_or]
      split_ifs <;> omega
    · by_cases h2 : a = 2
      · subst h2
        have e1 : l.countP ((fun b => decide (b ≠ 0 ∧ swap12 2 > b)) ∘ swap12) = 0 := by
          rw [List.countP_eq_zero]
          intro x hx
          have := hposl x hx
          simp only [Function.comp, swap12, decide_eq_true_eq]
          split_ifs <;> omega
        have e2 : l.countP (fun b => decide (b ≠ 0 ∧ (2 : Int) > b))
            = l.countP (fun b => decide (b = 1)) := by
          apply List.countP_congr
          intro x hx
          have := hposl x hx
          simp only [decide_eq_true_eq]
          omega
        have e3 : swap12 2 = 1 := by decide
        rw [e1, e2, countP_eq_ite_mem hnd', e3]
        simp only [ha, and_false, if_false] at ih'
        simp only [List.mem_cons, true_or, and_true]
        have e4 : ((1 : Int) = 2) = False := by simp
        simp only [e4, false_or]
        split_ifs <;> omega
      · have e0 : swap12 a = a := by simp [swap12, h1, h2]
        have e1 : l.countP ((fun b => decide (b ≠ 0 ∧ swap12 a > b)) ∘ swap12)
            = l.countP (fun b => decide (b ≠ 0 ∧ a > b)) := by
          apply List.countP_congr
          intro x _
          simp only [Function.comp, e0, swap12, decide_eq_true_eq]
          split_ifs <;> omega
        rw [e1, e0]
        have e5 : (1 ∈ a :: l ∧ 2 ∈ a :: l) ↔ (1 ∈ l ∧ 2 ∈ l) := by
          simp only [List.mem_cons]
          constructor
          · rintro ⟨h | h, h' | h'⟩
            · exact absurd h.symm h1
            · exact absurd h.symm h1
            · exact absurd h'.symm h2
            · exact ⟨h, h'⟩
          · rintro ⟨h, h'⟩; exact ⟨Or.inr h, Or.inr h'⟩
        simp only [e5]
        split_ifs at ih' ⊢ <;> omega

theorem Possible_map_swap12 {l : List Int} (h : ValidBoard l) :
    Possible (l.map swap12) = !Possible l := by
  have hpos : ∀ v ∈ l, 0 ≤ v := by
    intro v hv
    have := (List.Perm.mem_iff h).1 hv
    simp only [List.mem_cons, List.mem_singleton, List.not_mem_nil, or_false] at this
    omega
  have h1 : (1 : Int) ∈ l := (List.Perm.mem_iff h).2 (by decide)
  have h2 : (2 : Int) ∈ l := (List.Perm.mem_iff h).2 (by decide)
  have hs := invCount_swap12 l h.nodup hpos
  simp only [h1, h2, and_self, if_true] at hs
  have ha := Possible_iff_invCount l
  have hb := Possible_iff_invCount (l.map swap12)
  cases hpa : Possible l <;> cases hpb : Possible (l.map swap12) <;> simp_all <;> omega

theorem solvable_boards_length_le (E : List (List Int)) (hnd : E.Nodup)
    (hE : ∀ e ∈ E, ValidBoard e ∧ Possible e = true) : E.length ≤ 181440 := by
  have hinj : Function.Injective (List.map swap12) := by
    intro a b hab
    have := congrArg (List.map swap12) hab
    rwa [map_swap12_involutive, map_swap12_involutive] at this
  have hnd2 : (E ++ E.map (List.map swap12)).Nodup := by
    rw [List.nodup_append]
    refine ⟨hnd, List.Nodup.map hinj hnd, ?_⟩
    intro x hx hx'
    obtain ⟨y, hy, rfl⟩ := List.mem_map.1 hx'
    have h1 := (hE _ hx).2
    rw [Possible_map_swap12 (hE y hy).1, (hE y hy).2] at h1
    cases h1
  have hsub : E ++ E.map (List.map swap12) ⊆
      ([0, 1, 2, 3, 4, 5, 6, 7, 8] : List Int).permutations := by
    intro x hx
    rw [List.mem_permutations]
    rcases List.mem_append.1 hx with h | h
    · exact (hE x h).1
    · obtain ⟨y, hy, rfl⟩ := List.mem_map.1 h
      exact (hE y hy).1.map_swap12
  have hlen := (List.Nodup.subperm hnd2 hsub).length_le
  rw [List.length_permutations, List.length_append, List.length_map] at hlen
  have hf : ([0, 1, 2, 3, 4, 5, 6, 7, 8] : List Int).length.factorial = 362880 := by
    simp [Nat.factorial]
  omega

/-! ## Search loops: invariants and termination -/

theorem previouslyExplored_iff (explored : List (List Int)) (s : List Int) :
    previouslyExplored explored s = true ↔ s ∈ explored := by
  simp only [previouslyExplored, List.any_eq_true, beq_iff_eq]
  constructor
  · rintro ⟨x, hx, rfl⟩; exact hx
  · intro h; exact ⟨s, h, rfl⟩

theorem inside_iff (o : List (PuzzleState D)) (s : List Int) :
    inside o s = true ↔ s ∈ states o := by
  simp only [inside, states, List.any_eq_true, beq_iff_eq, List.mem_map]

theorem astarPush_eq (hh : List Int → D) (explored : List (List Int)) (o : List (PuzzleState D))
    (heir : PuzzleState D) :
    astarPush hh explored o heir
      = if heir.state ∉ explored ∧ heir.state ∉ states o then
          o ++ [{ heir with heuristic := hh heir.state }]
        else o := by
  unfold astarPush
  simp only [Bool.and_eq_true, Bool.not_eq_true', ← Bool.not_eq_true, previouslyExplored_iff,
    inside_iff]

theorem ucsPush_eq (explored : List (List Int)) (o : List (PuzzleState D))
    (heir : PuzzleState D) :
    ucsPush explored o heir = if heir.state ∈ explored then o else o ++ [heir] := by
  unfold ucsPush
  by_cases h : heir.state ∈ explored
  · simp [h, (previouslyExplored_iff explored heir.state).2 h]
  · have h' : previouslyExplored explored heir.state = false := by
      rw [← Bool.not_eq_true, previouslyExplored_iff]; exact h
    simp [h, h']

/-- What the heir loop of an A* function does to the queue. -/
theorem foldl_astarPush_spec (hh : List Int → D) (explored : List (List Int))
    (heirs : List (PuzzleState D)) :
    ∀ o : List (PuzzleState D),
      (∀ node ∈ heirs.foldl (astarPush hh explored) o, node ∈ o ∨
        ∃ heir ∈ heirs, node = { heir with heuristic := hh heir.state } ∧
          heir.state ∉ explored) ∧
      (∀ node ∈ o, node ∈ heirs.foldl (astarPush hh explored) o) ∧
      (∀ heir ∈ heirs, heir.state ∈ explored ∨
        heir.state ∈ states (heirs.foldl (astarPush hh explored) o)) ∧
      ((states o).Nodup → (states (heirs.foldl (astarPush hh explored) o)).Nodup) := by
  induction heirs with
  | nil =>
    intro o
    exact ⟨fun node h => Or.inl h, fun node h => h, fun heir h => absurd h (List.not_mem_nil _),
      fun h => h⟩
  | cons heir heirs ih =>
    intro o
    obtain ⟨i1, i2, i3, i4⟩ := ih (astarPush hh explored o heir)
    rw [List.foldl_cons]
    have hsub : ∀ node ∈ o, node ∈ astarPush hh explored o heir := by
      intro node hn
      rw [astarPush_eq]
      split_ifs
      · exact List.mem_append_left _ hn
      · exact hn
    refine ⟨?_, fun node hn => i2 node (hsub node hn), ?_, ?_⟩
    · intro node hn
      rcases i1 node hn with h | ⟨x, hx, h1, h2⟩
      · rw [astarPush_eq] at h
        split_ifs at h with hc
        · rcases List.mem_append.1 h with h' | h'
          · exact Or.inl h'
          · exact Or.inr ⟨heir, List.mem_cons_self _ _, List.mem_singleton.1 h', hc.1⟩
        · exact Or.inl h
      · exact Or.inr ⟨x, List.mem_cons_of_mem _ hx, h1, h2⟩
    · intro x hx
      rcases List.mem_cons.1 hx with rfl | hx
      · by_cases he : x.state ∈ explored
        · exact Or.inl he
        · right
          have : x.state ∈ states (astarPush hh explored o x) := by
            rw [astarPush_eq]
            split_ifs with hc
            · simp [states]
            · simp only [he, not_false_eq_true, true_and, not_not] at hc
              exact hc
          obtain ⟨y, hy, hys⟩ := List.mem_map.1 this
          exact List.mem_map.2 ⟨y, i2 y hy, hys⟩
      · exact i3 x hx
    · intro hnd
      apply i4
      rw [astarPush_eq]
      split_ifs with hc
      · simp only [states, List.map_append, List.map_cons, List.map_nil]
        rw [List.nodup_append]
        refine ⟨hnd, List.nodup_singleton _, ?_⟩
        intro a ha ha'
        rw [List.mem_singleton] at ha'
        subst ha'
        exact hc.2 ha
      · exact hnd

/-- What the heir loop of `UniformCostSearch` does to the queue. -/
theorem foldl_ucsPush_spec (explored : List (List Int)) (heirs : List (PuzzleState D)) :
    ∀ o : List (PuzzleState D),
      (∀ node ∈ heirs.foldl (ucsPush explored) o, node ∈ o ∨
        (node ∈ heirs ∧ node.state ∉ explored)) ∧
      (∀ node ∈ o, node ∈ heirs.foldl (ucsPush explored) o) ∧
      (∀ heir ∈ heirs, heir.state ∈ explored ∨
        heir.state ∈ states (heirs.foldl (ucsPush explored) o)) := by
  induction heirs with
  | nil =>
    intro o
    exact ⟨fun node h => Or.inl h, fun node h => h, fun heir h => absurd h (List.not_mem_nil _)⟩
  | cons heir heirs ih =>
    intro o
    obtain ⟨i1, i2, i3⟩ := ih (ucsPush explored o heir)
    rw [List.foldl_cons]
    have hsub : ∀ node ∈ o, node ∈ ucsPush explored o heir := by
      intro node hn
      rw [ucsPush_eq]
      split_ifs
      · exact hn
      · exact List.mem_append_left _ hn
    refine ⟨?_, fun node hn => i2 node (hsub node hn), ?_⟩
    · intro node hn
      rcases i1 node hn with h | ⟨hx, h2⟩
      · rw [ucsPush_eq] at h
        split_ifs at h with hc
        · exact Or.inl h
        · rcases List.mem_append.1 h with h' | h'
          · exact Or.inl h'
          · rw [List.mem_singleton] at h'
            subst h'
            exact Or.inr ⟨List.mem_cons_self _ _, hc⟩
      · exact Or.inr ⟨List.mem_cons_of_mem _ hx, h2⟩
    · intro x hx
      rcases List.mem_cons.1 hx with rfl | hx
      · by_cases he : x.state ∈ explored
        · exact Or.inl he
        · right
          have : x ∈ ucsPush explored o x := by
            rw [ucsPush_eq]
            simp [he]
          exact List.mem_map.2 ⟨x, i2 x this, rfl⟩
      · exact i3 x hx

theorem mem_or_mem_eraseIdx {α : Type} {l : List α} {m : Nat} {c : α} (hc : l[m]? = some c)
    {x : α} (hx : x ∈ l) : x = c ∨ x ∈ l.eraseIdx m := by
  obtain ⟨i, hi, rfl⟩ := List.mem_iff_getElem.1 hx
  by_cases him : i = m
  · left
    subst him
    rw [List.getElem?_eq_getElem hi] at hc
    exact Option.some.inj hc
  · right
    exact List.mem_eraseIdx_iff_getElem.2 ⟨i, hi, him, rfl⟩

theorem state_ne_of_mem_eraseIdx {l : List (PuzzleState D)} (hnd : (states l).Nodup) {m : Nat}
    {c : PuzzleState D} (hc : l[m]? = some c) {x : PuzzleState D} (hx : x ∈ l.eraseIdx m) :
    x.state ≠ c.state := by
  obtain ⟨i, hi, him, rfl⟩ := List.mem_eraseIdx_iff_getElem.1 hx
  intro hs
  have h1 : (states l)[i]? = some l[i].state := by
    simp [states, List.getElem?_map, List.getElem?_eq_getElem hi]
  have h2 : (states l)[m]? = some c.state := by
    simp [states, List.getElem?_map, hc]
  rw [hs, ← h2] at h1
  exact him (List.getElem?_inj (by simp [states]; exact hi) hnd h1)


theorem ValidMoveset_state_congr (F : DoubleOps D) {c c' : PuzzleState D} (hc : ValidState c)
    (hc' : ValidState c') (hs : c.state = c'.state) {s : PuzzleState D}
    (h : s ∈ ValidMoveset F c) : ∃ s' ∈ ValidMoveset F c', s'.state = s.state := by
  obtain ⟨mov, hm, hrej, rfl⟩ := (mem_ValidMoveset F c s).1 h
  have hz : c'.zero = c.zero := by
    have h1 := hc.2.2
    rw [hs] at h1
    rw [hc'.zero_eq h1, Int.toNat_of_nonneg hc.2.1]
  refine ⟨moveNode F c' mov, (mem_ValidMoveset F c' _).2 ⟨mov, hm, hz ▸ hrej, rfl⟩, ?_⟩
  simp only [moveNode, hz, hs]

/-- One loop pass keeps the common invariant, given what the heir loop did. -/
theorem SearchInv.step (F : DoubleOps D) {start : List Int} {st st' : SearchState D}
    (inv : SearchInv F start st) {m : Nat} {curr curr' : PuzzleState D}
    (hc : st.openList[m]? = some curr) (hg : curr.state ≠ goal)
    (hcs : curr'.state = curr.state) (hcz : curr'.zero = curr.zero)
    (hexp : st'.explored = st.explored ++ [curr.state])
    (h1 : ∀ node ∈ st'.openList, node ∈ st.openList.eraseIdx m ∨
      ∃ heir ∈ ValidMoveset F curr', node.state = heir.state ∧ node.zero = heir.zero)
    (h2 : ∀ node ∈ st.openList.eraseIdx m, node ∈ st'.openList)
    (h3 : ∀ heir ∈ ValidMoveset F curr', heir.state ∈ st'.explored ∨
      heir.state ∈ states st'.openList) : SearchInv F start st' := by
  have hcm : curr ∈ st.openList := List.getElem?_mem hc
  have hcv := inv.open_valid curr hcm
  have hcv' : ValidState curr' := ⟨hcs ▸ hcv.1.1, hcz ▸ hcv.1.2.1, by rw [hcs, hcz]; exact hcv.1.2.2⟩
  have hkeep : ∀ x ∈ states st.openList, x ∈ st'.explored ∨ x ∈ states st'.openList := by
    intro x hx
    obtain ⟨y, hy, rfl⟩ := List.mem_map.1 hx
    rcases mem_or_mem_eraseIdx hc hy with h | h
    · left; rw [hexp, h]; simp
    · right; exact List.mem_map.2 ⟨y, h2 y h, rfl⟩
  refine ⟨?_, ?_, ?_, ?_⟩
  · intro node hn
    rcases h1 node hn with h | ⟨heir, hh, hs, hz⟩
    · exact inv.open_valid node (List.mem_of_mem_eraseIdx h)
    · have hv := ValidMoveset_valid F hcv' hh
      refine ⟨⟨hs ▸ hv.1, hz ▸ hv.2.1, by rw [hs, hz]; exact hv.2.2⟩, ?_⟩
      rw [hs, Possible_ValidMoveset F hcv' hh, hcs]
      exact hcv.2
  · intro e he
    rw [hexp] at he
    rcases List.mem_append.1 he with h | h
    · exact inv.explored_valid e h
    · rw [List.mem_singleton] at h
      subst h
      exact ⟨hcv.1.1, hcv.2, hg⟩
  · intro c hcval hce s hs
    rw [hexp] at hce
    rcases List.mem_append.1 hce with h | h
    · rcases inv.closed c hcval h s hs with h' | h'
      · left; rw [hexp]; exact List.mem_append_left _ h'
      · exact hkeep _ h'
    · rw [List.mem_singleton] at h
      obtain ⟨s', hs', hss⟩ := ValidMoveset_state_congr F hcval hcv' (h.trans hcs.symm) hs
      rw [← hss]
      exact h3 s' hs'
  · rcases inv.start_seen with h | h
    · left; rw [hexp]; exact List.mem_append_left _ h
    · exact hkeep _ h

theorem AStarBody_inv (F : DoubleOps D) (hh : List Int → D) {start : List Int}
    {st st' : SearchState D} (inv : AStarInv F start st) (h : AStarBody F hh st = .ok st') :
    AStarInv F start st' ∧ st'.explored.length = st.explored.length + 1 := by
  obtain ⟨m, curr, hc, hg, ho, hexp, hexpd, -⟩ := AStarBody_ok F hh h
  obtain ⟨s1, s2, s3, s4⟩ := foldl_astarPush_spec hh (st.explored ++ [curr.state])
    (ValidMoveset F { curr with heuristic := hh curr.state }) (st.openList.eraseIdx m)
  rw [← ho] at s1 s2 s3 s4
  have hcm : curr ∈ st.openList := List.getElem?_mem hc
  have base : SearchInv F start st' := by
    refine inv.toSearchInv.step F hc hg rfl rfl hexp ?_ s2 ?_
    · intro node hn
      rcases s1 node hn with h' | ⟨heir, hh', rfl, -⟩
      · exact Or.inl h'
      · exact Or.inr ⟨heir, hh', rfl, rfl⟩
    · intro heir hheir
      rw [hexp]
      exact s3 heir hheir
  have herase : (states (st.openList.eraseIdx m)).Nodup := by
    have : (states (st.openList.eraseIdx m)).Sublist (states st.openList) :=
      List.Sublist.map _ (List.eraseIdx_sublist _ _)
    exact List.Nodup.sublist this inv.open_nodup
  refine ⟨⟨base, s4 herase, ?_, ?_, ?_⟩, by rw [hexp]; simp⟩
  · rw [hexp]
    rw [List.nodup_append]
    refine ⟨inv.explored_nodup, List.nodup_singleton _, ?_⟩
    intro a ha ha'
    rw [List.mem_singleton] at ha'
    subst ha'
    exact inv.disjoint curr hcm ha
  · intro node hn
    rcases s1 node hn with h' | ⟨heir, -, rfl, hne⟩
    · rw [hexp]
      intro hmem
      rcases List.mem_append.1 hmem with h'' | h''
      · exact inv.disjoint node (List.mem_of_mem_eraseIdx h') h''
      · rw [List.mem_singleton] at h''
        exact state_ne_of_mem_eraseIdx inv.open_nodup hc h' h''
    · rw [hexp]; exact hne
  · rw [hexpd, hexp, inv.expanded_eq]
    simp


theorem SearchInv.closed_reach (F : DoubleOps D) {start : List Int} {st : SearchState D}
    (inv : SearchInv F start st) (hopen : st.openList = []) :
    ∀ (n : Nat) {B S : PuzzleState D}, reachIn F n B S → ValidState B →
      B.state ∈ st.explored → S.state ∈ st.explored
  | 0, _, _, hr, _, hB => by
    simp only [reachIn] at hr
    exact hr ▸ hB
  | n + 1, _, _, hr, hv, hB => by
    obtain ⟨x, hx, hr'⟩ := hr
    have hx' : x.state ∈ st.explored := by
      rcases inv.closed _ hv hB x hx with h | h
      · exact h
      · rw [hopen] at h; simp [states] at h
    exact SearchInv.closed_reach F inv hopen n hr' (ValidMoveset_valid F hv hx) hx'

/-- While the invariant holds on a solvable start board the queue is not empty. -/
theorem SearchInv.open_ne_nil (F : DoubleOps D) {start : List Int} {st : SearchState D}
    (inv : SearchInv F start st) (hv : ValidBoard start) (hP : Possible start = true) :
    st.openList ≠ [] := by
  intro hopen
  have hstart : start ∈ st.explored := by
    rcases inv.start_seen with h | h
    · exact h
    · rw [hopen] at h; simp [states] at h
  have hB : ValidState (⟨start, F.ofInt 0, 0, findZero start⟩ : PuzzleState D) :=
    startNode_valid hv _ _
  obtain ⟨n, S, hS, hg⟩ := solvable_reaches_goal F hB hP
  have := SearchInv.closed_reach F inv hopen n hS hB hstart
  rw [hg] at this
  exact (inv.explored_valid goal this).2.2 rfl

theorem AStarInv.explored_length_le (F : DoubleOps D) {start : List Int} {st : SearchState D}
    (inv : AStarInv F start st) : st.explored.length ≤ 181440 :=
  solvable_boards_length_le st.explored inv.explored_nodup
    (fun e he => ⟨(inv.explored_valid e he).1, (inv.explored_valid e he).2.1⟩)

theorem runLoop_mono {S R : Type} (body : S → Except R S) :
    ∀ (n k : Nat) (s : S) (r : R), runLoop body n s = some r → runLoop body (n + k) s = some r
  | 0, _, _, _, h => by cases h
  | n + 1, k, s, r, h => by
    rw [Nat.add_right_comm]
    simp only [runLoop] at h ⊢
    cases hb : body s with
    | ok s' =>
      rw [hb] at h
      exact runLoop_mono body n k s' r h
    | error r' =>
      rw [hb] at h
      exact h

/-- An A* loop started in a state satisfying the invariant returns in the
`Goal!!!` branch once it is given enough passes. -/
theorem AStar_runLoop (F : DoubleOps D) (hh : List Int → D) {start : List Int}
    (hv : ValidBoard start) (hP : Possible start = true) :
    ∀ (n : Nat) (st : SearchState D), AStarInv F start st → 181441 ≤ st.explored.length + n →
      ∃ e m d, runLoop (AStarBody F hh) n st = some (.success e m d) ∧ 0 ≤ e ∧ e ≤ 181440
  | 0, st, inv, hn => by
    have := inv.explored_length_le
    omega
  | n + 1, st, inv, hn => by
    have hlen := inv.explored_length_le
    cases hb : AStarBody F hh st with
    | error r =>
      rcases AStarBody_error F hh hb with ⟨hopen, -⟩ | ⟨curr, -, -, hr⟩
      · exact absurd hopen (inv.toSearchInv.open_ne_nil F hv hP)
      · refine ⟨st.expanded, max st.maxSize (st.openList.length : Int), curr.depth,
          by simp only [runLoop, hb, hr], ?_, ?_⟩
        · rw [inv.expanded_eq]; omega
        · rw [inv.expanded_eq]; omega
    | ok st' =>
      obtain ⟨inv', hlen'⟩ := AStarBody_inv F hh inv hb
      obtain ⟨e, m, d, hrun, he⟩ := AStar_runLoop F hh hv hP n st' inv' (by omega)
      exact ⟨e, m, d, by simp only [runLoop, hb, hrun], he⟩

theorem AStarInv_init (F : DoubleOps D) {start : List Int} (hv : ValidBoard start)
    (hP : Possible start = true) (x : D) (d : Int) :
    AStarInv F start
      { openList := [{ state := start, heuristic := x, depth := d, zero := findZero start }]
        explored := []
        expanded := 0
        maxSize := 0 } := by
  refine ⟨⟨?_, ?_, ?_, ?_⟩, ?_, ?_, ?_, ?_⟩
  · intro node hn
    rw [List.mem_singleton] at hn
    subst hn
    exact ⟨startNode_valid hv _ _, hP⟩
  · intro e he; cases he
  · intro c _ hc; cases hc
  · right; simp [states]
  · simp [states]
  · exact List.nodup_nil
  · intro node _ h; cases h
  · simp

theorem AStar_terminates (F : DoubleOps D) (hh : List Int → D) {start : List Int}
    (hv : ValidBoard start) (hP : Possible start = true) (x : D) (d : Int) :
    ∃ e m d', 0 ≤ e ∧ e ≤ 181440 ∧ ∀ fuel, 181441 ≤ fuel →
      runLoop (AStarBody F hh) fuel
        { openList := [{ state := start, heuristic := x, depth := d, zero := findZero start }]
          explored := []
          expanded := 0
          maxSize := 0 } = some (.success e m d') := by
  obtain ⟨e, m, d', hrun, he⟩ :=
    AStar_runLoop F hh hv hP 181441 _ (AStarInv_init F hv hP x d) (by simp)
  refine ⟨e, m, d', he.1, he.2, fun fuel hf => ?_⟩
  obtain ⟨k, rfl⟩ := Nat.exists_eq_add_of_le hf
  exact runLoop_mono _ _ k _ _ hrun


theorem queueWeight_eraseIdx {l : List (PuzzleState D)} :
    ∀ {m : Nat} {c : PuzzleState D}, l[m]? = some c →
      queueWeight l = depthWeight c + queueWeight (l.eraseIdx m) := by
  induction l with
  | nil => intro m c h; cases h
  | cons a l ih =>
    intro m c h
    cases m with
    | zero =>
      simp only [List.getElem?_cons_zero, Option.some.injEq] at h
      subst h
      simp [queueWeight]
    | succ m =>
      simp only [List.getElem?_cons_succ] at h
      have := ih h
      simp only [queueWeight, List.eraseIdx_cons_succ, List.map_cons, List.sum_cons] at this ⊢
      omega

theorem queueWeight_foldl_ucsPush (explored : List (List Int)) (heirs : List (PuzzleState D)) :
    ∀ o : List (PuzzleState D),
      queueWeight (heirs.foldl (ucsPush explored) o) ≤ queueWeight o + queueWeight heirs := by
  induction heirs with
  | nil => intro o; simp [queueWeight]
  | cons heir heirs ih =>
    intro o
    rw [List.foldl_cons]
    have h1 := ih (ucsPush explored o heir)
    have h2 : queueWeight (ucsPush explored o heir) ≤ queueWeight o + depthWeight heir := by
      rw [ucsPush_eq]
      split_ifs
      · omega
      · simp [queueWeight]
    have h3 : queueWeight (heir :: heirs) = depthWeight heir + queueWeight heirs := by
      simp [queueWeight]
    omega

theorem queueWeight_le_of_forall {l : List (PuzzleState D)} {w : Nat}
    (h : ∀ x ∈ l, depthWeight x ≤ w) : queueWeight l ≤ l.length * w := by
  induction l with
  | nil => simp [queueWeight]
  | cons a l ih =>
    have h1 := ih (fun x hx => h x (List.mem_cons_of_mem _ hx))
    have h2 := h a (List.mem_cons_self _ _)
    simp only [queueWeight, List.map_cons, List.sum_cons, List.length_cons] at h1 ⊢
    rw [Nat.succ_mul]
    omega

theorem UCSInv.depth_bounds (F : DoubleOps D) {start : List Int} {st : SearchState D}
    (inv : UCSInv F start st) {node : PuzzleState D} (hn : node ∈ st.openList) :
    0 ≤ node.depth ∧ node.depth ≤ 181440 := by
  obtain ⟨chain, hnd, hlen, hsub, -⟩ := inv.chain node hn
  have := solvable_boards_length_le chain hnd
    (fun e he => ⟨(inv.explored_valid e (hsub e he)).1, (inv.explored_valid e (hsub e he)).2.1⟩)
  omega

theorem UniformCostSearchBody_inv (F : DoubleOps D) {start : List Int}
    {st st' : SearchState D} (inv : UCSInv F start st)
    (h : UniformCostSearchBody F st = .ok st') :
    UCSInv F start st' ∧ queueWeight st'.openList < queueWeight st.openList := by
  obtain ⟨m, curr, hc, hg, ho, hexp, -, -⟩ := UniformCostSearchBody_ok F h
  obtain ⟨s1, s2, s3⟩ := foldl_ucsPush_spec (st.explored ++ [curr.state])
    (ValidMoveset F curr) (st.openList.eraseIdx m)
  rw [← ho] at s1 s2 s3
  have hcm : curr ∈ st.openList := List.getElem?_mem hc
  have hcv := (inv.open_valid curr hcm).1
  have hdepth : ∀ heir ∈ ValidMoveset F curr, heir.depth = curr.depth + 1 := by
    intro heir hh
    obtain ⟨mov, -, -, rfl⟩ := (mem_ValidMoveset F curr heir).1 hh
    rfl
  have base : SearchInv F start st' := by
    refine inv.toSearchInv.step F hc hg rfl rfl hexp ?_ s2 ?_
    · intro node hn
      rcases s1 node hn with h' | ⟨h', -⟩
      · exact Or.inl h'
      · exact Or.inr ⟨node, h', rfl, rfl⟩
    · intro heir hheir
      rw [hexp]
      exact s3 heir hheir
  refine ⟨⟨base, ?_⟩, ?_⟩
  · intro node hn
    rcases s1 node hn with h' | ⟨h', hne⟩
    · obtain ⟨chain, c1, c2, c3, c4⟩ := inv.chain node (List.mem_of_mem_eraseIdx h')
      exact ⟨chain, c1, c2, fun c hc' => by rw [hexp]; exact List.mem_append_left _ (c3 c hc'), c4⟩
    · obtain ⟨chain, c1, c2, c3, c4⟩ := inv.chain curr hcm
      have hsub : ∀ c ∈ chain ++ [curr.state], c ∈ st'.explored := by
        intro c hc'
        rw [hexp]
        rcases List.mem_append.1 hc' with h1 | h1
        · exact List.mem_append_left _ (c3 c h1)
        · exact List.mem_append_right _ h1
      refine ⟨chain ++ [curr.state], ?_, ?_, hsub, ?_⟩
      · rw [List.nodup_append]
        refine ⟨c1, List.nodup_singleton _, ?_⟩
        intro a ha ha'
        rw [List.mem_singleton] at ha'
        subst ha'
        exact c4 ha
      · rw [hdepth node h', ← c2]
        simp
      · intro hmem
        apply hne
        rw [← hexp]
        exact hsub _ hmem
  · have hb := inv.depth_bounds F hcm
    have hw1 := queueWeight_eraseIdx hc
    have hw2 := queueWeight_foldl_ucsPush (st.explored ++ [curr.state]) (ValidMoveset F curr)
      (st.openList.eraseIdx m)
    rw [← ho] at hw2
    have hw3 : queueWeight (ValidMoveset F curr)
        ≤ (ValidMoveset F curr).length * 5 ^ (181440 - curr.depth.toNat) := by
      apply queueWeight_le_of_forall
      intro x hx
      unfold depthWeight
      rw [hdepth x hx]
      apply Nat.pow_le_pow_right (by decide)
      omega
    have hlen : (ValidMoveset F curr).length ≤ 4 := by
      have h9 := hcv.zero_lt
      rw [ValidMoveset_length F curr hcv.2.1 (by omega)]
      split_ifs <;> decide
    have hw4 : depthWeight curr = 5 * 5 ^ (181440 - curr.depth.toNat) := by
      unfold depthWeight
      rw [← Nat.pow_succ']
      congr 1
      omega
    have hpos : 0 < 5 ^ (181440 - curr.depth.toNat) := Nat.pow_pos (by decide)
    have hw5 : (ValidMoveset F curr).length * 5 ^ (181440 - curr.depth.toNat)
        ≤ 4 * 5 ^ (181440 - curr.depth.toNat) := Nat.mul_le_mul_right _ hlen
    omega

/-- The `UniformCostSearch` loop started in a state satisfying the invariant
returns in the `Goal!!!` branch once it is given enough passes. -/
theorem UCS_runLoop (F : DoubleOps D) {start : List Int} (hv : ValidBoard start)
    (hP : Possible start = true) :
    ∀ (n : Nat) (st : SearchState D), UCSInv F start st → queueWeight st.openList < n →
      ∃ e m d, runLoop (UniformCostSearchBody F) n st = some (.success e m d)
  | 0, _, _, hn => absurd hn (Nat.not_lt_zero _)
  | n + 1, st, inv, hn => by
    cases hb : UniformCostSearchBody F st with
    | error r =>
      rcases UniformCostSearchBody_error F hb with ⟨hopen, -⟩ | ⟨curr, -, -, hr⟩
      · exact absurd hopen (inv.toSearchInv.open_ne_nil F hv hP)
      · exact ⟨st.expanded, max st.maxSize (st.openList.length : Int), curr.depth,
          by simp only [runLoop, hb, hr]⟩
    | ok st' =>
      obtain ⟨inv', hlt⟩ := UniformCostSearchBody_inv F inv hb
      obtain ⟨e, m, d, hrun⟩ := UCS_runLoop F hv hP n st' inv' (by omega)
      exact ⟨e, m, d, by simp only [runLoop, hb, hrun]⟩

theorem UCSInv_init (F : DoubleOps D) {start : List Int} (hv : ValidBoard start)
    (hP : Possible start = true) : UCSInv F start (UniformCostSearchInit F start) := by
  refine ⟨⟨?_, ?_, ?_, ?_⟩, ?_⟩
  · intro node hn
    simp only [UniformCostSearchInit, List.mem_singleton] at hn
    subst hn
    exact ⟨startNode_valid hv _ _, hP⟩
  · intro e he; cases he
  · intro c _ hc; cases hc
  · right; simp [states, UniformCostSearchInit]
  · intro node hn
    simp only [UniformCostSearchInit, List.mem_singleton] at hn
    subst hn
    exact ⟨[], List.nodup_nil, rfl, fun c hc => absurd hc (List.not_mem_nil _),
      List.not_mem_nil _⟩

theorem UniformCostSearch_terminates (F : DoubleOps D) {start : List Int}
    (hv : ValidBoard start) (hP : Possible start = true) :
    ∃ fuel0 e m d, ∀ fuel, fuel0 ≤ fuel →
      UniformCostSearch F fuel start = some (.success e m d) := by
  obtain ⟨e, m, d, hrun⟩ := UCS_runLoop F hv hP
    (queueWeight (UniformCostSearchInit F start).openList + 1) _ (UCSInv_init F hv hP)
    (Nat.lt_succ_self _)
  refine ⟨queueWeight (UniformCostSearchInit F start).openList + 1, e, m, d,
    fun fuel hf => ?_⟩
  obtain ⟨k, rfl⟩ := Nat.exists_eq_add_of_le hf
  exact runLoop_mono _ _ k _ _ hrun

/-! ## `UniformCostSearch` never reads a double -/

theorem mindexLoop_map {α β : Type} (f : α → β) (less : α → α → Bool) (less' : β → β → Bool)
    (h : ∀ a b, less' (f a) (f b) = less a b) (l : List α) :
    mindexLoop less' (l.map f) = mindexLoop less l := by
  unfold mindexLoop
  rw [List.length_map]
  congr 1
  funext m i
  simp only [List.getElem?_map]
  cases l[i]? <;> cases l[m]? <;> simp [h]

theorem map_eraseIdx {α β : Type} (f : α → β) :
    ∀ (l : List α) (i : Nat), (l.map f).eraseIdx i = (l.eraseIdx i).map f
  | [], _ => rfl
  | _ :: _, 0 => rfl
  | a :: l, i + 1 => by
    simp only [List.map_cons, List.eraseIdx_cons_succ, map_eraseIdx f l i]

theorem ValidMoveset_forget (F : DoubleOps D) (c : PuzzleState D) :
    ValidMoveset exactIntOps (forgetNode c) = (ValidMoveset F c).map forgetNode := by
  simp only [ValidMoveset, moves, List.foldl_cons, List.foldl_nil, ValidMovesetBody]
  simp only [forgetNode, exactIntOps]
  split_ifs <;> simp [forgetNode]

theorem foldl_ucsPush_forget (explored : List (List Int)) (heirs : List (PuzzleState D)) :
    ∀ o : List (PuzzleState D),
      (heirs.map forgetNode).foldl (ucsPush explored) (o.map forgetNode)
        = (heirs.foldl (ucsPush explored) o).map forgetNode := by
  induction heirs with
  | nil => intro o; rfl
  | cons heir heirs ih =>
    intro o
    rw [List.map_cons, List.foldl_cons, List.foldl_cons, ← ih]
    congr 1
    rw [ucsPush_eq, ucsPush_eq]
    have : (forgetNode heir).state = heir.state := rfl
    rw [this]
    split_ifs
    · rfl
    · simp

/-- `UniformCostSearch` never reads a `double`: its loop body commutes with
forgetting the heuristic fields. -/
theorem UniformCostSearchBody_forget (F : DoubleOps D) (st : SearchState D) :
    UniformCostSearchBody exactIntOps (forgetState st)
      = match UniformCostSearchBody F st with
        | .ok st' => .ok (forgetState st')
        | .error r => .error r := by
  obtain ⟨o, ex, e, m⟩ := st
  cases o with
  | nil => rfl
  | cons first rest =>
    have hm : mindexLoop ucsLess ((first :: rest).map forgetNode)
        = mindexLoop ucsLess (first :: rest) :=
      mindexLoop_map (forgetNode : PuzzleState D → PuzzleState Int) ucsLess ucsLess
        (fun _ _ => rfl) _
    have hlt := mindexLoop_lt ucsLess (first :: rest) (by simp)
    have hsel : ((first :: rest).map forgetNode).getD (mindexLoop ucsLess (first :: rest))
        (forgetNode first)
        = forgetNode ((first :: rest).getD (mindexLoop ucsLess (first :: rest)) first) := by
      rw [List.getD_eq_getElem _ _ (by simpa using hlt), List.getD_eq_getElem _ _ hlt,
        List.getElem_map]
    simp only [UniformCostSearchBody, forgetState, List.map_cons] at hm hsel ⊢
    rw [hm, hsel]
    have hst : ∀ n : PuzzleState D, (forgetNode n).state = n.state := fun _ => rfl
    have hd : ∀ n : PuzzleState D, (forgetNode n).depth = n.depth := fun _ => rfl
    simp only [hst, hd, List.length_cons, List.length_map]
    split_ifs with hg
    · rfl
    · simp only [ValidMoveset_forget F, ← List.map_cons, map_eraseIdx,
        foldl_ucsPush_forget]


theorem runLoop_forget (F : DoubleOps D) :
    ∀ (fuel : Nat) (st : SearchState D),
      runLoop (UniformCostSearchBody exactIntOps) fuel (forgetState st)
        = runLoop (UniformCostSearchBody F) fuel st
  | 0, _ => rfl
  | fuel + 1, st => by
    simp only [runLoop, UniformCostSearchBody_forget F st]
    cases UniformCostSearchBody F st with
    | ok st' => exact runLoop_forget F fuel st'
    | error r => rfl

theorem iterateBody_forget (F : DoubleOps D) :
    ∀ (n : Nat) (st : SearchState D),
      iterateBody (UniformCostSearchBody exactIntOps) n (forgetState st)
        = (iterateBody (UniformCostSearchBody F) n st).map forgetState
  | 0, _ => rfl
  | n + 1, st => by
    simp only [iterateBody, UniformCostSearchBody_forget F st]
    cases UniformCostSearchBody F st with
    | ok st' => exact iterateBody_forget F n st'
    | error r => rfl

theorem UniformCostSearchInit_forget (F : DoubleOps D) (puzzle : List Int) :
    forgetState (UniformCostSearchInit F puzzle) = UniformCostSearchInit exactIntOps puzzle := rfl

/-- The result of `UniformCostSearch` does not depend on the `double` operations. -/
theorem UniformCostSearch_forget (F : DoubleOps D) (fuel : Nat) (puzzle : List Int) :
    UniformCostSearch F fuel puzzle = UniformCostSearch exactIntOps fuel puzzle := by
  unfold UniformCostSearch
  rw [← UniformCostSearchInit_forget F, runLoop_forget]

theorem states_forget (o : List (PuzzleState D)) : states (o.map forgetNode) = states o := by
  simp only [states, List.map_map]
  rfl

theorem UniformCostSearch_default_59 :
    UniformCostSearch exactIntOps 59 defaultPuzzle = some (.success 58 44 5) := by decide!

theorem ucsFrontier_default_50 :
    (ucsFrontier 50 defaultPuzzle).map (fun l => (l[24]?, l[41]?))
      = some (some [1, 0, 8, 4, 3, 2, 7, 6, 5], some [1, 0, 8, 4, 3, 2, 7, 6, 5]) := by decide!


/-! ## Selection loop -/

theorem mindexLoop_eq_mindexFrom {α : Type} (less : α → α → Bool) (l : List α) :
    mindexLoop less l = mindexFrom less l (List.range' 1 (l.length - 1)) 0 := rfl

/-- Invariant of the selection loop: after the indices below `k`, `mindex` is the
first index of a least element among them. -/
theorem mindexFrom_spec {α : Type} (less : α → α → Bool) (P : α → Prop)
    (hless : StrictWeakOrderOn less P) (l : List α) (hP : ∀ x ∈ l, P x) :
    ∀ (n k m : Nat), k + n = l.length → m < k →
      (∀ (j : Nat) (a b : α), j < k → l[j]? = some a → l[m]? = some b → less a b = false) →
      (∀ (i : Nat) (a b : α), i < m → l[i]? = some a → l[m]? = some b → less b a = true) →
      mindexFrom less l (List.range' k n) m < l.length ∧
        (∀ (j : Nat) (a b : α), l[j]? = some a →
          l[mindexFrom less l (List.range' k n) m]? = some b → less a b = false) ∧
        (∀ (i : Nat) (a b : α), i < mindexFrom less l (List.range' k n) m → l[i]? = some a →
          l[mindexFrom less l (List.range' k n) m]? = some b → less b a = true) := by
  obtain ⟨hirr, htr, hntr⟩ := hless
  intro n
  induction n with
  | zero =>
    intro k m hk hm h1 h2
    simp only [mindexFrom, List.range'_zero, List.foldl_nil]
    refine ⟨by omega, fun j a b ha hb => ?_, h2⟩
    have hj : j < l.length := (List.getElem?_eq_some.1 ha).1
    exact h1 j a b (by omega) ha hb
  | succ n ih =>
    intro k m hk hm h1 h2
    have hkl : k < l.length := by omega
    have hml : m < l.length := by omega
    simp only [mindexFrom, List.range'_succ, List.foldl_cons, List.getElem?_eq_getElem hkl,
      List.getElem?_eq_getElem hml]
    by_cases hlt : less l[k] l[m] = true
    · simp only [hlt, if_true]
      refine ih (k + 1) k (by omega) (by omega) ?_ ?_
      · intro j a b hj ha hb
        rw [List.getElem?_eq_getElem hkl, Option.some.injEq] at hb
        subst hb
        by_cases hjk : j = k
        · subst hjk
          rw [List.getElem?_eq_getElem hkl, Option.some.injEq] at ha
          subst ha
          exact hirr _ (hP _ (List.getElem_mem _))
        · have h3 := h1 j a l[m] (by omega) ha (List.getElem?_eq_getElem hml)
          by_contra hc
          rw [Bool.not_eq_false] at hc
          rw [htr _ _ _ (hP _ (List.getElem?_mem ha)) (hP _ (List.getElem_mem _))
            (hP _ (List.getElem_mem _)) hc hlt] at h3
          cases h3
      · intro i a b hi ha hb
        rw [List.getElem?_eq_getElem hkl, Option.some.injEq] at hb
        subst hb
        have h3 := h1 i a l[m] hi ha (List.getElem?_eq_getElem hml)
        by_contra hc
        rw [Bool.not_eq_true] at hc
        rw [hntr _ _ _ (hP _ (List.getElem_mem _)) (hP _ (List.getElem?_mem ha))
          (hP _ (List.getElem_mem _)) hc h3] at hlt
        cases hlt
    · simp only [hlt, if_false]
      rw [Bool.not_eq_true] at hlt
      refine ih (k + 1) m (by omega) (by omega) ?_ h2
      intro j a b hj ha hb
      by_cases hjk : j = k
      · subst hjk
        rw [List.getElem?_eq_getElem hkl, Option.some.injEq] at ha
        rw [List.getElem?_eq_getElem hml, Option.some.injEq] at hb
        subst ha hb
        exact hlt
      · exact h1 j a b (by omega) ha hb

/-- The selection loop returns the first index of a least element, when `less` is
a strict weak order on the elements of the list. -/
theorem mindexLoop_spec_on {α : Type} (less : α → α → Bool) (P : α → Prop)
    (hless : StrictWeakOrderOn less P) (l : List α) (hP : ∀ x ∈ l, P x) (hne : l ≠ []) :
    (∀ (j : Nat) (a b : α), l[j]? = some a → l[mindexLoop less l]? = some b →
        less a b = false) ∧
      (∀ (i : Nat) (a b : α), i < mindexLoop less l → l[i]? = some a →
        l[mindexLoop less l]? = some b → less b a = true) := by
  have hpos : 0 < l.length := List.length_pos.2 hne
  have h := mindexFrom_spec less P hless l hP (l.length - 1) 1 0 (by omega) (by omega)
    (by
      intro j a b hj ha hb
      have : j = 0 := by omega
      subst this
      rw [ha, Option.some.injEq] at hb
      subst hb
      exact hless.1 a (hP a (List.getElem?_mem ha)))
    (by intro i a b hi; omega)
  exact h.2

/-- The selection loop returns the first index of a least element. -/
theorem mindexLoop_spec {α : Type} (less : α → α → Bool) (hless : StrictWeakOrder less)
    (l : List α) (hne : l ≠ []) :
    (∀ (j : Nat) (a b : α), l[j]? = some a → l[mindexLoop less l]? = some b →
        less a b = false) ∧
      (∀ (i : Nat) (a b : α), i < mindexLoop less l → l[i]? = some a →
        l[mindexLoop less l]? = some b → less b a = true) :=
  mindexLoop_spec_on less (fun _ => True)
    ⟨fun a _ => hless.1 a, fun a b c _ _ _ => hless.2.1 a b c, fun a b c _ _ _ => hless.2.2 a b c⟩
    l (fun _ _ => trivial) hne

theorem ucsLess_strictWeakOrder : StrictWeakOrder (ucsLess : PuzzleState D → PuzzleState D → Bool) := by
  refine ⟨?_, ?_, ?_⟩
  · intro a; simp [ucsLess]
  · intro a b c; simp only [ucsLess, decide_eq_true_eq]; omega
  · intro a b c; simp only [ucsLess, decide_eq_false_iff_not]; omega

/-- What one pass of the `UniformCostSearch` loop does on a non-empty queue, with
the selected index named. -/
theorem UniformCostSearchBody_select (F : DoubleOps D) (st : SearchState D)
    (hne : st.openList ≠ []) :
    ∃ curr, st.openList[mindexLoop ucsLess st.openList]? = some curr ∧
      ((curr.state = goal ∧ UniformCostSearchBody F st
          = .error (.success st.expanded (max st.maxSize (st.openList.length : Int)) curr.depth)) ∨
       (curr.state ≠ goal ∧ ∃ st', UniformCostSearchBody F st = .ok st' ∧
          st'.openList = (ValidMoveset F curr).foldl (ucsPush (st.explored ++ [curr.state]))
            (st.openList.eraseIdx (mindexLoop ucsLess st.openList)) ∧
          st'.explored = st.explored ++ [curr.state] ∧ st'.expanded = st.expanded + 1)) := by
  obtain ⟨o, ex, e, m⟩ := st
  cases o with
  | nil => exact absurd rfl hne
  | cons first rest =>
    refine ⟨(first :: rest).getD (mindexLoop ucsLess (first :: rest)) first,
      selected_getElem? ucsLess first rest, ?_⟩
    by_cases hg : ((first :: rest).getD (mindexLoop ucsLess (first :: rest)) first).state = goal
    · left
      refine ⟨hg, ?_⟩
      simp only [UniformCostSearchBody, hg, if_true]
    · right
      refine ⟨hg, ?_⟩
      simp only [UniformCostSearchBody, hg, if_false]
      exact ⟨_, rfl, rfl, rfl, rfl⟩

theorem reachIn_snoc (F : DoubleOps D) :
    ∀ (n : Nat) {a b m : PuzzleState D}, reachIn F n a b → m ∈ ValidMoveset F b →
      reachIn F (n + 1) a m := by
  intro n a b m h hm
  exact reachIn_trans F n 1 h ⟨m, hm, rfl⟩

theorem reachIn_last (F : DoubleOps D) :
    ∀ (n : Nat) {a b : PuzzleState D}, reachIn F (n + 1) a b →
      ∃ c, reachIn F n a c ∧ b ∈ ValidMoveset F c
  | 0, a, b, h => by
    obtain ⟨x, hx, h'⟩ := h
    simp only [reachIn] at h'
    subst h'
    exact ⟨a, rfl, hx⟩
  | n + 1, a, b, h => by
    obtain ⟨x, hx, h'⟩ := h
    obtain ⟨c, hc, hb⟩ := reachIn_last F n h'
    exact ⟨c, ⟨x, hx, hc⟩, hb⟩

theorem runLoop_some {S R : Type} (body : S → Except R S) :
    ∀ (fuel : Nat) (s : S) (r : R), runLoop body fuel s = some r →
      ∃ n st, iterateBody body n s = some st ∧ body st = .error r
  | 0, _, _, h => by cases h
  | fuel + 1, s, r, h => by
    simp only [runLoop] at h
    cases hb : body s with
    | ok s' =>
      rw [hb] at h
      obtain ⟨n, st, h1, h2⟩ := runLoop_some body fuel s' r h
      exact ⟨n + 1, st, by simp only [iterateBody, hb, h1], h2⟩
    | error r' =>
      rw [hb] at h
      simp only [Option.some.injEq] at h
      subst h
      exact ⟨0, s, rfl, hb⟩

theorem ucsStart_valid (F : DoubleOps D) {puzzle : List Int} (hv : ValidBoard puzzle) :
    ValidState (ucsStart F puzzle) := startNode_valid hv _ _

theorem UCSReachInv_init (F : DoubleOps D) (puzzle : List Int) :
    UCSReachInv F puzzle (UniformCostSearchInit F puzzle) := by
  intro node hn
  simp only [UniformCostSearchInit, List.mem_singleton] at hn
  subst hn
  exact ⟨le_refl _, rfl⟩

theorem UCSReachInv_step (F : DoubleOps D) {start : List Int} {st st' : SearchState D}
    (inv : UCSReachInv F start st) (h : UniformCostSearchBody F st = .ok st') :
    UCSReachInv F start st' := by
  obtain ⟨m, curr, hc, -, ho, -⟩ := UniformCostSearchBody_ok F h
  intro node hn
  rw [ho] at hn
  rcases mem_foldl_ucsPush _ _ _ _ hn with h1 | h1
  · exact inv node (List.mem_of_mem_eraseIdx h1)
  · obtain ⟨hd, hr⟩ := inv curr (List.getElem?_mem hc)
    obtain ⟨mov, -, -, rfl⟩ := (mem_ValidMoveset F curr node).1 h1
    have h2 := reachIn_snoc F _ hr h1
    have e : (moveNode F curr mov).depth.toNat = curr.depth.toNat + 1 := by
      simp only [moveNode]; omega
    refine ⟨by simp only [moveNode]; omega, ?_⟩
    rw [e]
    exact h2

theorem UCSOrderInv_init (F : DoubleOps D) {start : List Int} (hv : ValidBoard start)
    (hP : Possible start = true) : UCSOrderInv F start (UniformCostSearchInit F start) := by
  refine ⟨UCSInv_init F hv hP, ?_, ?_⟩
  · intro a ha b hb
    simp only [UniformCostSearchInit, List.mem_singleton] at ha hb
    subst ha hb
    simp
  · intro j S hr
    cases j with
    | zero =>
      simp only [reachIn] at hr
      subst hr
      exact Or.inr (Or.inl ⟨ucsStart F start, by simp [UniformCostSearchInit, ucsStart], rfl,
        by simp [ucsStart]⟩)
    | succ j =>
      exact Or.inr (Or.inr ⟨ucsStart F start, by simp [UniformCostSearchInit, ucsStart],
        by simp [ucsStart]⟩)


theorem UCSOrderInv_step (F : DoubleOps D) {start : List Int} (hv : ValidBoard start)
    {st st' : SearchState D} (inv : UCSOrderInv F start st)
    (h : UniformCostSearchBody F st = .ok st') : UCSOrderInv F start st' := by
  have base := (UniformCostSearchBody_inv F inv.toUCSInv h).1
  have hne : st.openList ≠ [] := by
    obtain ⟨m, c, hc, -⟩ := UniformCostSearchBody_ok F h
    exact List.ne_nil_of_mem (List.getElem?_mem hc)
  obtain ⟨curr, hc, hsel⟩ := UniformCostSearchBody_select F st hne
  rcases hsel with ⟨-, he⟩ | ⟨-, st2, hb, ho, hex, -⟩
  · rw [he] at h
    cases h
  rw [hb] at h
  obtain rfl : st2 = st' := by injection h
  obtain ⟨hmin, -⟩ := mindexLoop_spec ucsLess ucsLess_strictWeakOrder st.openList hne
  have hmin' : ∀ n ∈ st.openList, curr.depth ≤ n.depth := by
    intro n hn
    obtain ⟨j, hj, rfl⟩ := List.mem_iff_getElem.1 hn
    have h1 := hmin j _ curr (List.getElem?_eq_getElem hj) hc
    simpa [ucsLess] using h1
  rw [← hex] at ho
  obtain ⟨s1, s2, s3⟩ := foldl_ucsPush_spec st2.explored (ValidMoveset F curr)
    (st.openList.eraseIdx (mindexLoop ucsLess st.openList))
  rw [← ho] at s1 s2 s3
  have hcm : curr ∈ st.openList := List.getElem?_mem hc
  have hcex : curr.state ∈ st2.explored := by
    rw [hex]
    exact List.mem_append_right _ (List.mem_singleton_self _)
  have hsub : ∀ e ∈ st.explored, e ∈ st2.explored := by
    intro e he
    rw [hex]
    exact List.mem_append_left _ he
  have P1 : ∀ n ∈ st2.openList, curr.depth ≤ n.depth ∧ n.depth ≤ curr.depth + 1 := by
    intro n hn
    rcases s1 n hn with h1 | ⟨h1, -⟩
    · have h2 := List.mem_of_mem_eraseIdx h1
      exact ⟨hmin' n h2, inv.spread n h2 curr hcm⟩
    · obtain ⟨mov, -, -, rfl⟩ := (mem_ValidMoveset F curr n).1 h1
      simp [moveNode]
  have old : ∀ n ∈ st.openList, n.state ∉ st2.explored → n ∈ st2.openList := by
    intro n hn hx
    rcases mem_or_mem_eraseIdx hc hn with h1 | h1
    · exact absurd (h1 ▸ hcex) hx
    · exact s2 n h1
  have inState : ∀ b : List Int, b ∈ states st2.openList →
      ∃ n ∈ st2.openList, n.state = b ∧ n.depth ≤ curr.depth + 1 := by
    intro b hb
    obtain ⟨n, hn, rfl⟩ := List.mem_map.1 hb
    exact ⟨n, hn, rfl, (P1 n hn).2⟩
  refine ⟨base, ?_, ?_⟩
  · intro a ha b hb
    have h1 := P1 a ha
    have h2 := P1 b hb
    omega
  · intro j S hr
    by_cases hS : S.state ∈ st2.explored
    · exact Or.inl hS
    right
    rcases inv.guard j S hr with g1 | ⟨n, hn, hns, hnd⟩ | ⟨n, hn, hnd⟩
    · exact absurd (hsub _ g1) hS
    · exact Or.inl ⟨n, old n hn (hns ▸ hS), hns, hnd⟩
    · have hcj : curr.depth < j := lt_of_le_of_lt (hmin' n hn) hnd
      by_cases hlt : curr.depth + 1 < j
      · cases ho2 : st2.openList with
        | nil =>
          exfalso
          have hstart : start ∈ st2.explored := by
            rcases base.start_seen with h1 | h1
            · exact h1
            · rw [ho2] at h1
              simp [states] at h1
          exact hS (SearchInv.closed_reach F base.toSearchInv ho2 j hr (ucsStart_valid F hv) hstart)
        | cons x rest =>
          have hx : x ∈ st2.openList := by
            rw [ho2]
            exact List.mem_cons_self _ _
          refine Or.inr ⟨x, List.mem_cons_self _ _, ?_⟩
          have h1 := (P1 x hx).2
          omega
      · have hd0 : 0 ≤ curr.depth := by
          have h1 := inv.chain curr hcm
          obtain ⟨ch, -, hl, -⟩ := h1
          omega
        obtain ⟨j', rfl⟩ : ∃ j', j = j' + 1 := ⟨j - 1, by omega⟩
        have hj' : (j' : Int) = curr.depth := by push_cast at hcj hlt; omega
        obtain ⟨S', hr', hS'⟩ := reachIn_last F j' hr
        have hvS' : ValidState S' := reachIn_valid F j' (ucsStart_valid F hv) hr'
        rcases inv.guard j' S' hr' with g1 | ⟨n2, hn2, hns2, hnd2⟩ | ⟨n2, hn2, hnd2⟩
        · rcases inv.closed S' hvS' g1 S hS' with h1 | h1
          · exact absurd (hsub _ h1) hS
          · obtain ⟨n3, hn3, hs3⟩ := List.mem_map.1 h1
            have h4 := old n3 hn3 (by rw [hs3]; exact hS)
            refine Or.inl ⟨n3, h4, hs3, ?_⟩
            have h5 := (P1 n3 h4).2
            push_cast
            omega
        · rcases mem_or_mem_eraseIdx hc hn2 with h1 | h1
          · subst h1
            obtain ⟨s', hs', hss⟩ := ValidMoveset_state_congr F hvS'
              (inv.open_valid n2 hcm).1 hns2.symm hS'
            rcases s3 s' hs' with h2 | h2
            · exact absurd (hss ▸ h2) hS
            · obtain ⟨n3, hn3, hs3, hd3⟩ := inState _ h2
              refine Or.inl ⟨n3, hn3, hs3.trans hss, ?_⟩
              push_cast
              omega
          · refine Or.inr ⟨n2, s2 n2 h1, ?_⟩
            push_cast
            omega
        · have h1 := hmin' n2 hn2
          omega

/-- The boards any number of moves away from a valid start are solvable exactly
when the start is. -/
theorem UniformCostSearch_success_facts (F : DoubleOps D) {puzzle : List Int}
    (hv : ValidBoard puzzle) {fuel : Nat} {e m d : Int}
    (h : UniformCostSearch F fuel puzzle = some (.success e m d)) :
    ∃ (n : Nat) (st : SearchState D) (curr : PuzzleState D),
      iterateBody (UniformCostSearchBody F) n (UniformCostSearchInit F puzzle) = some st ∧
      curr ∈ st.openList ∧ curr.state = goal ∧ curr.depth = d ∧
      (∀ node ∈ st.openList, curr.depth ≤ node.depth) ∧
      0 ≤ d ∧ reachIn F d.toNat (ucsStart F puzzle) curr ∧ Possible puzzle = true := by
  obtain ⟨n, st, hit, hb⟩ := runLoop_some _ _ _ _ h
  have hne : st.openList ≠ [] := by
    rcases UniformCostSearchBody_error F hb with ⟨-, h1⟩ | ⟨c, hc, -⟩
    · cases h1
    · exact List.ne_nil_of_mem hc
  obtain ⟨curr, hc, hsel⟩ := UniformCostSearchBody_select F st hne
  rcases hsel with ⟨hg, he⟩ | ⟨-, st2, hb2, -⟩
  swap
  · rw [hb2] at hb
    cases hb
  rw [he] at hb
  have hd : curr.depth = d := by
    injection hb with h1
    injection h1
  obtain ⟨hmin, -⟩ := mindexLoop_spec ucsLess ucsLess_strictWeakOrder st.openList hne
  have hmin' : ∀ n ∈ st.openList, curr.depth ≤ n.depth := by
    intro n hn
    obtain ⟨j, hj, rfl⟩ := List.mem_iff_getElem.1 hn
    have h1 := hmin j _ curr (List.getElem?_eq_getElem hj) hc
    simpa [ucsLess] using h1
  have hcm : curr ∈ st.openList := List.getElem?_mem hc
  have hreach := iterateBody_invariant (UniformCostSearchBody F) (UCSReachInv F puzzle)
    (fun s s' hs hss => UCSReachInv_step F hs hss) n _ st (UCSReachInv_init F puzzle) hit
  obtain ⟨h0, hr⟩ := hreach curr hcm
  have hP := reachIn_Possible F _ (ucsStart_valid F hv) hr
  rw [hg] at hP
  exact ⟨n, st, curr, hit, hcm, hg, hd, hmin', hd ▸ h0, hd ▸ hr, hP.symm.trans (by decide)⟩

/-! ## Costs compared by the A* loops -/

theorem DedupInv_single (node : PuzzleState D) :
    DedupInv { openList := [node], explored := [], expanded := 0, maxSize := 0 } :=
  ⟨by simp [states], by simp, List.nodup_nil, rfl⟩

theorem AStarBody_dedup (F : DoubleOps D) (hh : List Int → D) {st st' : SearchState D}
    (inv : DedupInv st) (h : AStarBody F hh st = .ok st') : DedupInv st' := by
  obtain ⟨m, curr, hc, -, ho, hexp, hexpd, -⟩ := AStarBody_ok F hh h
  obtain ⟨s1, -, -, s4⟩ := foldl_astarPush_spec hh (st.explored ++ [curr.state])
    (ValidMoveset F { curr with heuristic := hh curr.state }) (st.openList.eraseIdx m)
  rw [← ho] at s1 s4
  have hcm : curr ∈ st.openList := List.getElem?_mem hc
  have herase : (states (st.openList.eraseIdx m)).Nodup :=
    List.Nodup.sublist (List.Sublist.map _ (List.eraseIdx_sublist _ _)) inv.open_nodup
  refine ⟨s4 herase, ?_, ?_, ?_⟩
  · intro node hn
    rw [hexp]
    rcases s1 node hn with h1 | ⟨heir, -, rfl, hne⟩
    · intro hmem
      rcases List.mem_append.1 hmem with h2 | h2
      · exact inv.disjoint node (List.mem_of_mem_eraseIdx h1) h2
      · exact state_ne_of_mem_eraseIdx inv.open_nodup hc h1 (List.mem_singleton.1 h2)
    · exact hne
  · rw [hexp, List.nodup_append]
    refine ⟨inv.explored_nodup, List.nodup_singleton _, ?_⟩
    intro a ha ha'
    rw [List.mem_singleton] at ha'
    subst ha'
    exact inv.disjoint curr hcm ha
  · rw [hexpd, hexp, inv.expanded_eq]
    simp

/-! ## Heuristics as sums over the indices -/

theorem foldl_range_add {M : Type} [AddCommMonoid M] (w : Nat → M) (a : M) :
    ∀ n : Nat, (List.range n).foldl (fun acc i => acc + w i) a
      = a + Finset.sum (Finset.range n) w
  | 0 => by simp
  | n + 1 => by
    rw [List.range_succ, List.foldl_append, foldl_range_add w a n, Finset.sum_range_succ]
    simp [add_assoc]

/-- Two families that differ at the indices `z` and `p` only have sums that
differ by the terms at `z` and `p`. -/
theorem sum_two_changed {M : Type} [AddCommGroup M] (f g : Nat → M) (n z p : Nat)
    (hz : z < n) (hp : p < n) (hzp : z ≠ p)
    (h : ∀ i, i < n → i ≠ z → i ≠ p → f i = g i) :
    Finset.sum (Finset.range n) f + (g z + g p) = Finset.sum (Finset.range n) g + (f z + f p) := by
  have hz' : z ∈ Finset.range n := Finset.mem_range.2 hz
  have hp' : p ∈ (Finset.range n).erase z :=
    Finset.mem_erase.2 ⟨fun e => hzp e.symm, Finset.mem_range.2 hp⟩
  have hrest : Finset.sum (((Finset.range n).erase z).erase p) f
      = Finset.sum (((Finset.range n).erase z).erase p) g := by
    apply Finset.sum_congr rfl
    intro i hi
    obtain ⟨hip, hi2⟩ := Finset.mem_erase.1 hi
    obtain ⟨hiz, hi3⟩ := Finset.mem_erase.1 hi2
    exact h i (Finset.mem_range.1 hi3) hiz hip
  rw [← Finset.add_sum_erase _ f hz', ← Finset.add_sum_erase _ g hz',
    ← Finset.add_sum_erase _ f hp', ← Finset.add_sum_erase _ g hp', hrest]
  abel

theorem OutOfPlace_eq_sum (state : List Int) :
    OutOfPlace state = Finset.sum (Finset.range state.length) (misplacedAt state) := by
  have h := foldl_range_add (misplacedAt state) 0 state.length
  rw [zero_add] at h
  rw [← h]
  unfold OutOfPlace
  congr 1
  funext acc i
  simp only [misplacedAt]
  split_ifs <;> simp

theorem misplacedAt_bounds (state : List Int) (i : Nat) :
    0 ≤ misplacedAt state i ∧ misplacedAt state i ≤ 1 := by
  unfold misplacedAt
  split_ifs <;> simp

theorem getD_of_getElem? {l : List Int} {i : Nat} {v : Int} (h : l[i]? = some v) :
    l.getD i 0 = v := by
  rw [List.getD_eq_getElem?_getD, h]
  rfl

/-- Consistency of `OutOfPlace`: a move changes it by at most one. -/
theorem OutOfPlace_step (F : DoubleOps D) {B S : PuzzleState D} (hB : ValidState B)
    (hS : S ∈ ValidMoveset F B) : OutOfPlace B.state ≤ 1 + OutOfPlace S.state := by
  obtain ⟨h0, h9, hadj, hlen, hSz, hSB, hBne, hrest⟩ := ValidMoveset_swap_facts F B hB S hS
  have hBlen : B.state.length = 9 := hB.1.length_eq
  have hz9 := hB.zero_lt
  have hzp : B.zero.toNat ≠ S.zero.toNat := by
    intro e
    rw [← e, hB.2.2] at hBne
    exact hBne rfl
  have hsum := sum_two_changed (misplacedAt B.state) (misplacedAt S.state) 9 B.zero.toNat
    S.zero.toNat (by have := hB.2.1; omega) (by omega) hzp (by
      intro i _ hiz hip
      have h1 := hrest i hiz hip
      simp only [misplacedAt, List.getD_eq_getElem?_getD, h1])
  have hBz : misplacedAt B.state B.zero.toNat = 0 := by
    unfold misplacedAt
    rw [getD_of_getElem? hB.2.2]
    simp
  have hSp : misplacedAt S.state S.zero.toNat = 0 := by
    unfold misplacedAt
    rw [getD_of_getElem? hSz]
    simp
  rw [OutOfPlace_eq_sum, OutOfPlace_eq_sum, hBlen, hlen]
  have b1 := misplacedAt_bounds B.state S.zero.toNat
  have b2 := misplacedAt_bounds S.state B.zero.toNat
  rw [hBz, hSp] at hsum
  omega

theorem OutOfPlace_goal : OutOfPlace goal = 0 := by decide

/-- Admissibility of `OutOfPlace`: it is at most the number of moves of any
sequence of moves that ends on the goal board. -/
theorem OutOfPlace_admissible (F : DoubleOps D) :
    ∀ (k : Nat) {B G : PuzzleState D}, ValidState B → reachIn F k B G → G.state = goal →
      OutOfPlace B.state ≤ k
  | 0, B, G, _, hr, hG => by
    simp only [reachIn] at hr
    subst hr
    rw [hG, OutOfPlace_goal]
    rfl
  | k + 1, B, G, hB, hr, hG => by
    obtain ⟨m, hm, hr'⟩ := hr
    have h1 := OutOfPlace_step F hB hm
    have h2 := OutOfPlace_admissible F k (ValidMoveset_valid F hB hm) hr' hG
    push_cast
    omega

/-! ## `OutOfPlace` counts the misplaced tiles -/

theorem foldl_count {α : Type} (c : α → Bool) :
    ∀ (l : List α) (a : Int),
      l.foldl (fun acc i => if c i = true then acc + 1 else acc) a = a + (l.countP c : Int)
  | [], a => by simp
  | x :: l, a => by
    rw [List.foldl_cons, foldl_count c l, List.countP_cons]
    split_ifs <;> simp
    omega

theorem OutOfPlace_eq_countP (state : List Int) :
    OutOfPlace state = ((List.range state.length).countP
      (fun i => decide (state.getD i 0 ≠ 0 ∧ state.getD i 0 ≠ goal.getD i 0)) : Int) := by
  have h := foldl_count (fun i => decide (state.getD i 0 ≠ 0 ∧ state.getD i 0 ≠ goal.getD i 0))
    (List.range state.length) 0
  rw [zero_add] at h
  rw [← h]
  unfold OutOfPlace
  congr 1
  funext acc i
  simp only [decide_eq_true_eq]

theorem goal_nodup : goal.Nodup := by decide

/-- On the goal board, the tile at index `i` is `t` exactly when `t` is first
found at index `i`. -/
theorem goal_getD_eq_iff {i : Nat} (hi : i < 9) (t : Int) :
    goal.getD i 0 = t ↔ goal.indexOf t = i := by
  have hlen : goal.length = 9 := rfl
  have hi' : i < goal.length := by omega
  rw [List.getD_eq_getElem goal 0 hi']
  constructor
  · intro h
    rw [← h]
    exact List.indexOf_getElem goal_nodup i hi'
  · intro h
    subst h
    exact List.getElem_indexOf _

theorem OutOfPlace_eq_filter {state : List Int} (h : ValidBoard state) :
    OutOfPlace state = ((List.filter
      (fun t : Int => decide (state.indexOf t ≠ goal.indexOf t)) [1, 2, 3, 4, 5, 6, 7, 8]).length
        : Int) := by
  have hlen := h.length_eq
  have hnd := h.nodup
  have hmap : (List.range 9).map (fun j => state.getD j 0) = state := by
    have h1 := map_getD_range' state 0 9 (by omega)
    rw [List.range_eq_range']
    rw [h1, List.drop_zero, ← hlen, List.take_length]
  rw [OutOfPlace_eq_countP, hlen]
  have hcongr : (List.range 9).countP
      (fun i => decide (state.getD i 0 ≠ 0 ∧ state.getD i 0 ≠ goal.getD i 0))
      = (List.range 9).countP ((fun t : Int => decide (t ≠ 0 ∧ state.indexOf t ≠ goal.indexOf t))
          ∘ (fun j => state.getD j 0)) := by
    apply List.countP_congr
    intro i hi
    have hi9 : i < 9 := List.mem_range.1 hi
    have hi' : i < state.length := by omega
    have hidx : state.indexOf (state.getD i 0) = i := by
      rw [List.getD_eq_getElem state 0 hi']
      exact List.indexOf_getElem hnd i hi'
    simp only [Function.comp_apply, decide_eq_true_eq, hidx]
    constructor
    · rintro ⟨h1, h2⟩
      exact ⟨h1, fun e => h2 ((goal_getD_eq_iff hi9 _).2 e.symm).symm⟩
    · rintro ⟨h1, h2⟩
      exact ⟨h1, fun e => h2 ((goal_getD_eq_iff hi9 _).1 e.symm).symm⟩
  rw [hcongr, ← List.countP_map, hmap, List.Perm.countP_eq _ h, List.countP_cons]
  simp only [ne_eq, not_true_eq_false, false_and, decide_False, Bool.false_eq_true, if_false,
    add_zero]
  rw [List.countP_eq_length_filter]
  congr 2
  apply List.filter_congr
  intro t ht
  have : t ≠ 0 := by
    intro e
    subst e
    revert ht
    decide
  simp [this]

/-! ## `Euclidean` over exact real arithmetic -/

theorem Euclidean_eq_sum (F : DoubleOps ℝ) (hF : RealExact F) (state : List Int) :
    Euclidean F state = Finset.sum (Finset.range state.length) (euclideanAt F state) := by
  obtain ⟨hof, hadd, -, -⟩ := hF
  have h := foldl_range_add (euclideanAt F state) (F.ofInt 0) state.length
  have h0 : F.ofInt 0 = 0 := by rw [hof]; simp
  rw [h0, zero_add] at h
  rw [← h]
  unfold Euclidean
  rw [h0]
  congr 1
  funext dis i
  simp only [euclideanAt, tileDistance]
  split_ifs
  · rw [h0, add_zero]
  · rw [hadd]

theorem tileDistance_real (F : DoubleOps ℝ) (hF : RealExact F) (v : Int) (i : Nat) :
    tileDistance F v i = Real.sqrt
      (((Int.tdiv (v - 1) 3 - Int.tdiv (i : Int) 3 : Int) : ℝ) ^ 2 +
        ((Int.tmod (v - 1) 3 - Int.tmod (i : Int) 3 : Int) : ℝ) ^ 2) := by
  obtain ⟨hof, hadd, hpow, hsqrt⟩ := hF
  simp only [tileDistance, hsqrt, hadd, hpow]
  simp only [hof]

theorem sqrt_le_one_add (x y : ℝ) (hy : 0 ≤ y) (h : x ≤ y + 2 * Real.sqrt y + 1) :
    Real.sqrt x ≤ 1 + Real.sqrt y := by
  rw [Real.sqrt_le_iff]
  have h1 := Real.sqrt_nonneg y
  have h2 := Real.sq_sqrt hy
  constructor
  · linarith
  · nlinarith

/-- Moving a point of the plane by one unit along an axis changes its distance to
the origin by at most one. -/
theorem sqrt_shift (a b e : ℝ) (he : e = 1 ∨ e = -1) :
    Real.sqrt (a ^ 2 + (b - e) ^ 2) ≤ 1 + Real.sqrt (a ^ 2 + b ^ 2) := by
  apply sqrt_le_one_add _ _ (by positivity)
  have h1 : |b| ≤ Real.sqrt (a ^ 2 + b ^ 2) := Real.abs_le_sqrt (by nlinarith [sq_nonneg a])
  have h2 := abs_le.1 h1
  rcases he with rfl | rfl <;> nlinarith [h2.1, h2.2]

theorem sqrt_shift_left (a b e : ℝ) (he : e = 1 ∨ e = -1) :
    Real.sqrt ((a - e) ^ 2 + b ^ 2) ≤ 1 + Real.sqrt (a ^ 2 + b ^ 2) := by
  rw [add_comm ((a - e) ^ 2), add_comm (a ^ 2)]
  exact sqrt_shift b a e he

theorem gridAdjacent_rows_cols {z p : Int} (hz0 : 0 ≤ z) (hp0 : 0 ≤ p)
    (h : gridAdjacent z p) :
    (Int.tdiv p 3 = Int.tdiv z 3 ∧
        (Int.tmod p 3 = Int.tmod z 3 + 1 ∨ Int.tmod p 3 = Int.tmod z 3 + -1)) ∨
      (Int.tmod p 3 = Int.tmod z 3 ∧
        (Int.tdiv p 3 = Int.tdiv z 3 + 1 ∨ Int.tdiv p 3 = Int.tdiv z 3 + -1)) := by
  rw [Int.tdiv_eq_ediv hz0 (by decide), Int.tdiv_eq_ediv hp0 (by decide), Int.tmod_eq_emod hz0 (by decide),
    Int.tmod_eq_emod hp0 (by decide)]
  unfold gridAdjacent at h
  omega

/-- A tile one grid step away is at most one further from its goal cell. -/
theorem tileDistance_step (F : DoubleOps ℝ) (hF : RealExact F) (v : Int) {z p : Nat}
    (h : gridAdjacent (z : Int) (p : Int)) :
    tileDistance F v p ≤ 1 + tileDistance F v z := by
  rw [tileDistance_real F hF, tileDistance_real F hF]
  rcases gridAdjacent_rows_cols (by omega) (by omega) h with
    ⟨h1, h2⟩ | ⟨h1, h2⟩
  · rw [h1]
    rcases h2 with h2 | h2
    · rw [h2]
      have := sqrt_shift ((Int.tdiv (v - 1) 3 - Int.tdiv (z : Int) 3 : Int) : ℝ)
        ((Int.tmod (v - 1) 3 - Int.tmod (z : Int) 3 : Int) : ℝ) 1 (Or.inl rfl)
      push_cast at this ⊢
      rw [← sub_sub]
      exact this
    · rw [h2]
      have := sqrt_shift ((Int.tdiv (v - 1) 3 - Int.tdiv (z : Int) 3 : Int) : ℝ)
        ((Int.tmod (v - 1) 3 - Int.tmod (z : Int) 3 : Int) : ℝ) (-1) (Or.inr rfl)
      push_cast at this ⊢
      rw [← sub_sub]
      exact this
  · rw [h1]
    rcases h2 with h2 | h2
    · rw [h2]
      have := sqrt_shift_left ((Int.tdiv (v - 1) 3 - Int.tdiv (z : Int) 3 : Int) : ℝ)
        ((Int.tmod (v - 1) 3 - Int.tmod (z : Int) 3 : Int) : ℝ) 1 (Or.inl rfl)
      push_cast at this ⊢
      rw [← sub_sub]
      exact this
    · rw [h2]
      have := sqrt_shift_left ((Int.tdiv (v - 1) 3 - Int.tdiv (z : Int) 3 : Int) : ℝ)
        ((Int.tmod (v - 1) 3 - Int.tmod (z : Int) 3 : Int) : ℝ) (-1) (Or.inr rfl)
      push_cast at this ⊢
      rw [← sub_sub]
      exact this

/-- Consistency of `Euclidean` over exact real arithmetic. -/
theorem Euclidean_step (F : DoubleOps ℝ) (hF : RealExact F) {B S : PuzzleState ℝ}
    (hB : ValidState B) (hS : S ∈ ValidMoveset F B) :
    Euclidean F B.state ≤ 1 + Euclidean F S.state := by
  obtain ⟨h0, h9, hadj, hlen, hSz, hSB, hBne, hrest⟩ := ValidMoveset_swap_facts F B hB S hS
  have hBlen : B.state.length = 9 := hB.1.length_eq
  have hz9 := hB.zero_lt
  have hz0 := hB.2.1
  have hzp : B.zero.toNat ≠ S.zero.toNat := by
    intro e
    rw [← e, hB.2.2] at hBne
    exact hBne rfl
  have hsum := sum_two_changed (euclideanAt F B.state) (euclideanAt F S.state) 9 B.zero.toNat
    S.zero.toNat (by omega) (by omega) hzp (by
      intro i _ hiz hip
      have h1 := hrest i hiz hip
      simp only [euclideanAt, List.getD_eq_getElem?_getD, h1])
  have hof0 : F.ofInt 0 = 0 := by rw [hF.1]; simp
  have hBz : euclideanAt F B.state B.zero.toNat = 0 := by
    unfold euclideanAt
    rw [getD_of_getElem? hB.2.2, if_pos rfl, hof0]
  have hSp : euclideanAt F S.state S.zero.toNat = 0 := by
    unfold euclideanAt
    rw [getD_of_getElem? hSz, if_pos rfl, hof0]
  obtain ⟨t, ht⟩ : ∃ t, B.state[S.zero.toNat]? = some t := by
    have : S.zero.toNat < B.state.length := by omega
    exact ⟨_, List.getElem?_eq_getElem this⟩
  have ht0 : t ≠ 0 := by
    intro e
    rw [ht, e] at hBne
    exact hBne rfl
  have hBp : euclideanAt F B.state S.zero.toNat = tileDistance F t S.zero.toNat := by
    unfold euclideanAt
    rw [getD_of_getElem? ht, if_neg ht0]
  have hSzz : euclideanAt F S.state B.zero.toNat = tileDistance F t B.zero.toNat := by
    unfold euclideanAt
    rw [getD_of_getElem? (hSB.trans ht), if_neg ht0]
  have hadj' : gridAdjacent ((B.zero.toNat : Nat) : Int) ((S.zero.toNat : Nat) : Int) := by
    rw [Int.toNat_of_nonneg hz0, Int.toNat_of_nonneg h0]
    exact hadj
  have hstep := tileDistance_step F hF t hadj'
  rw [Euclidean_eq_sum F hF, Euclidean_eq_sum F hF, hBlen, hlen]
  rw [hBz, hSp, hBp, hSzz] at hsum
  linarith

/-! ## Claims -/

/-- C1, the part of it that holds: on every start board that is a permutation
of `0..8` with `Possible` true, each of `UniformCostSearch`, `AStarMisplaced` and
`AStarEuclidean` returns in the `Goal!!!` branch once given enough loop passes,
and the two A* functions report at most 181440 expanded nodes. (No bound is
stated for `UniformCostSearch`, which queues a board once per shortest path.) -/
theorem solvable_search_terminates (F : DoubleOps D) (puzzle : List Int)
    (hv : ValidBoard puzzle) (hP : Possible puzzle = true) :
    (∃ fuel0 e m d, ∀ fuel, fuel0 ≤ fuel →
      UniformCostSearch F fuel puzzle = some (.success e m d)) ∧
    (∃ e m d, 0 ≤ e ∧ e ≤ 181440 ∧ ∀ fuel, 181441 ≤ fuel →
      AStarMisplaced F fuel puzzle = some (.success e m d)) ∧
    (∃ e m d, 0 ≤ e ∧ e ≤ 181440 ∧ ∀ fuel, 181441 ≤ fuel →
      AStarEuclidean F fuel puzzle = some (.success e m d)) :=
  ⟨UniformCostSearch_terminates F hv hP,
    AStar_terminates F (fun s => F.ofInt (OutOfPlace s)) hv hP (F.ofInt 0) (OutOfPlace puzzle),
    AStar_terminates F (Euclidean F) hv hP (F.ofInt 0) (F.toInt (Euclidean F puzzle))⟩

/-- Instance of `solvable_search_terminates` at the board `{6,5,0,2,8,1,3,4,7}`. -/
theorem solvable_search_terminates_witness :
    (ValidBoard [6, 5, 0, 2, 8, 1, 3, 4, 7] ∧ Possible [6, 5, 0, 2, 8, 1, 3, 4, 7] = true) ∧
      ∃ fuel0 e m d, ∀ fuel, fuel0 ≤ fuel →
        UniformCostSearch exactIntOps fuel [6, 5, 0, 2, 8, 1, 3, 4, 7]
          = some (.success e m d) :=
  ⟨⟨by decide, by decide!⟩,
    (solvable_search_terminates exactIntOps [6, 5, 0, 2, 8, 1, 3, 4, 7] (by decide)
      (by decide!)).1⟩

/-- C2: every successor of a valid node is the node's board with the blank and
one grid-adjacent tile exchanged. The new blank index `s.zero` lies in `0..8` and
is a neighbour of `curr.zero` on the 3x3 grid (so no move wraps across a row
boundary or leaves the board); the successor has 9 cells, holds the blank at
`s.zero` and, at `curr.zero`, the tile the node had at `s.zero`; that tile is not
the blank; every other cell is unchanged. -/
theorem successor_is_adjacent_swap (F : DoubleOps D) (curr : PuzzleState D)
    (h : ValidState curr) :
    ∀ s ∈ ValidMoveset F curr,
      0 ≤ s.zero ∧ s.zero < 9 ∧ gridAdjacent curr.zero s.zero ∧
      s.state.length = 9 ∧
      s.state[s.zero.toNat]? = some 0 ∧
      s.state[curr.zero.toNat]? = curr.state[s.zero.toNat]? ∧
      curr.state[s.zero.toNat]? ≠ some 0 ∧
      ∀ i : Nat, i ≠ curr.zero.toNat → i ≠ s.zero.toNat → s.state[i]? = curr.state[i]? :=
  ValidMoveset_swap_facts F curr h

/-- Instance of `successor_is_adjacent_swap`: the default puzzle and its left move. -/
theorem successor_is_adjacent_swap_witness :
    ValidState (⟨defaultPuzzle, 0, 0, 5⟩ : PuzzleState Int) ∧
      (⟨[1, 2, 3, 4, 0, 8, 7, 6, 5], 0, 1, 4⟩ : PuzzleState Int)
        ∈ ValidMoveset exactIntOps ⟨defaultPuzzle, 0, 0, 5⟩ ∧
      gridAdjacent 5 4 :=
  ⟨by decide, by decide,
    (successor_is_adjacent_swap exactIntOps ⟨defaultPuzzle, 0, 0, 5⟩ (by decide)
      ⟨[1, 2, 3, 4, 0, 8, 7, 6, 5], 0, 1, 4⟩ (by decide)).2.2.1⟩

/-- C3: for a node with 9 cells and `zero` in `0..8`, `ValidMoveset` returns
exactly 2 successors when `zero` is a corner (0, 2, 6, 8), exactly 3 when it is
an edge (1, 3, 5, 7) and exactly 4 when it is the centre 4; so always between 2
and 4. -/
theorem successor_count (F : DoubleOps D) (curr : PuzzleState D)
    (_hlen : curr.state.length = 9) (h0 : 0 ≤ curr.zero) (h8 : curr.zero ≤ 8) :
    ((curr.zero = 0 ∨ curr.zero = 2 ∨ curr.zero = 6 ∨ curr.zero = 8) →
        (ValidMoveset F curr).length = 2) ∧
      ((curr.zero = 1 ∨ curr.zero = 3 ∨ curr.zero = 5 ∨ curr.zero = 7) →
        (ValidMoveset F curr).length = 3) ∧
      (curr.zero = 4 → (ValidMoveset F curr).length = 4) ∧
      2 ≤ (ValidMoveset F curr).length ∧ (ValidMoveset F curr).length ≤ 4 := by
  have h := ValidMoveset_length F curr h0 h8
  refine ⟨?_, ?_, ?_, ?_, ?_⟩
  · rintro (hz | hz | hz | hz) <;> rw [h, hz] <;> decide
  · rintro (hz | hz | hz | hz) <;> rw [h, hz] <;> decide
  · intro hz; rw [h, hz]; decide
  · rw [h]; split_ifs <;> decide
  · rw [h]; split_ifs <;> decide

/-- Instance of `successor_count`: the default puzzle, blank on an edge. -/
theorem successor_count_witness :
    (defaultPuzzle.length = 9 ∧ (0 : Int) ≤ 5 ∧ (5 : Int) ≤ 8) ∧
      (ValidMoveset exactIntOps (⟨defaultPuzzle, 0, 0, 5⟩ : PuzzleState Int)).length = 3 :=
  ⟨by decide,
    (successor_count exactIntOps ⟨defaultPuzzle, 0, 0, 5⟩ (by decide) (by decide)
      (by decide)).2.1 (by decide)⟩

/-- C4: `ValidMoveset` preserves the board invariant (state a permutation of
`0..8`, `zero` the index of the blank), and so, when the start board is a
permutation of `0..8`, every node of the queue `open` satisfies it after any
number of loop passes of `UniformCostSearch`, `AStarMisplaced` and
`AStarEuclidean`. -/
theorem board_invariant_preserved (F : DoubleOps D) :
    (∀ curr : PuzzleState D, ValidState curr → ∀ s ∈ ValidMoveset F curr, ValidState s) ∧
    ∀ puzzle : List Int, ValidBoard puzzle → ∀ (n : Nat) (st : SearchState D),
      (iterateBody (UniformCostSearchBody F) n (UniformCostSearchInit F puzzle) = some st →
        ∀ node ∈ st.openList, ValidState node) ∧
      (iterateBody (AStarBody F (fun s => F.ofInt (OutOfPlace s))) n
          (AStarMisplacedInit F puzzle) = some st →
        ∀ node ∈ st.openList, ValidState node) ∧
      (iterateBody (AStarBody F (Euclidean F)) n (AStarEuclideanInit F puzzle) = some st →
        ∀ node ∈ st.openList, ValidState node) := by
  refine ⟨fun curr h s hs => ValidMoveset_valid F h hs, fun puzzle hp n st => ⟨?_, ?_, ?_⟩⟩
  · refine iterateBody_invariant _ (fun st => ∀ node ∈ st.openList, ValidState node)
      (fun s s' hs hb => UniformCostSearchBody_valid F hs hb) n _ st ?_
    intro node hn
    simp only [UniformCostSearchInit, List.mem_singleton] at hn
    exact hn ▸ startNode_valid hp _ _
  · refine iterateBody_invariant _ (fun st => ∀ node ∈ st.openList, ValidState node)
      (fun s s' hs hb => AStarBody_valid F _ hs hb) n _ st ?_
    intro node hn
    simp only [AStarMisplacedInit, List.mem_singleton] at hn
    exact hn ▸ startNode_valid hp _ _
  · refine iterateBody_invariant _ (fun st => ∀ node ∈ st.openList, ValidState node)
      (fun s s' hs hb => AStarBody_valid F _ hs hb) n _ st ?_
    intro node hn
    simp only [AStarEuclideanInit, List.mem_singleton] at hn
    exact hn ▸ startNode_valid hp _ _

/-- Instance of `board_invariant_preserved`: `UniformCostSearch` on the default
puzzle after two loop passes. -/
theorem board_invariant_preserved_witness :
    ValidBoard defaultPuzzle ∧
      ∃ st, iterateBody (UniformCostSearchBody exactIntOps) 2
          (UniformCostSearchInit exactIntOps defaultPuzzle) = some st ∧
        ∀ node ∈ st.openList, ValidState node := by
  obtain ⟨st, hst⟩ := Option.isSome_iff_exists.1
    (show (iterateBody (UniformCostSearchBody exactIntOps) 2
      (UniformCostSearchInit exactIntOps defaultPuzzle)).isSome = true by decide)
  exact ⟨by decide, st, hst,
    ((board_invariant_preserved exactIntOps).2 defaultPuzzle (by decide) 2 st).1 hst⟩

/-- C5: moves are invertible. For a valid node `curr` and a successor `s` of it,
the successors of `s` contain a node with the board and the blank index of `curr`. -/
theorem moves_invertible (F : DoubleOps D) (curr : PuzzleState D) (h : ValidState curr) :
    ∀ s ∈ ValidMoveset F curr, ∃ t ∈ ValidMoveset F s, t.state = curr.state ∧ t.zero = curr.zero :=
  fun _ hs => ValidMoveset_inverse F h hs

/-- Instance of `moves_invertible`: the default puzzle and its left move. -/
theorem moves_invertible_witness :
    ValidState (⟨defaultPuzzle, 0, 0, 5⟩ : PuzzleState Int) ∧
      ∃ t ∈ ValidMoveset exactIntOps (⟨[1, 2, 3, 4, 0, 8, 7, 6, 5], 0, 1, 4⟩ : PuzzleState Int),
        t.state = defaultPuzzle ∧ t.zero = 5 :=
  ⟨by decide,
    moves_invertible exactIntOps ⟨defaultPuzzle, 0, 0, 5⟩ (by decide)
      ⟨[1, 2, 3, 4, 0, 8, 7, 6, 5], 0, 1, 4⟩ (by decide)⟩

/-- C6: for every integer vector, `Possible` returns true exactly when the number
of index pairs `(i, j)` with `i < j`, both cells non-zero and
`puzzle[i] > puzzle[j]` is even. `{1,2,3,4,5,6,8,7,0}` has one such pair and
`Possible` is false on it; `Possible` is true on `{1,2,3,4,8,0,7,6,5}`. -/
theorem Possible_iff_even_inversions :
    (∀ puzzle : List Int, Possible puzzle = true ↔ Even (inversionPairs puzzle).card) ∧
      (inversionPairs [1, 2, 3, 4, 5, 6, 8, 7, 0]).card = 1 ∧
      Possible [1, 2, 3, 4, 5, 6, 8, 7, 0] = false ∧
      Possible [1, 2, 3, 4, 8, 0, 7, 6, 5] = true := by
  refine ⟨Possible_iff_even_inversionPairs, ?_, by decide, by decide⟩
  rw [inversionPairs_card]
  decide

/-- C7: `Possible` is invariant under the program's moves: a successor of a
valid node has the same `Possible` value as the node. Consequently no sequence
of moves leads from a valid node whose board has `Possible` false to a node
holding the goal board. -/
theorem Possible_invariant_under_moves (F : DoubleOps D) :
    (∀ B : PuzzleState D, ValidState B → ∀ S ∈ ValidMoveset F B,
      Possible S.state = Possible B.state) ∧
    ∀ B : PuzzleState D, ValidState B → Possible B.state = false →
      ∀ (n : Nat) (S : PuzzleState D), reachIn F n B S → S.state ≠ goal := by
  refine ⟨fun B hB S hS => Possible_ValidMoveset F hB hS, fun B hB hP n S hr hg => ?_⟩
  have h := reachIn_Possible F n hB hr
  rw [hg, hP] at h
  exact absurd h (by decide)

/-- Instance of `Possible_invariant_under_moves`: one move from `{1,2,3,4,5,6,8,7,0}`. -/
theorem Possible_invariant_under_moves_witness :
    (ValidState (⟨[1, 2, 3, 4, 5, 6, 8, 7, 0], 0, 0, 8⟩ : PuzzleState Int) ∧
      Possible [1, 2, 3, 4, 5, 6, 8, 7, 0] = false ∧
      reachIn exactIntOps 1 ⟨[1, 2, 3, 4, 5, 6, 8, 7, 0], 0, 0, 8⟩
        ⟨[1, 2, 3, 4, 5, 6, 8, 0, 7], 0, 1, 7⟩) ∧
      ([1, 2, 3, 4, 5, 6, 8, 0, 7] : List Int) ≠ goal :=
  ⟨⟨by decide, by decide, ⟨_, by decide, rfl⟩⟩,
    (Possible_invariant_under_moves exactIntOps).2 ⟨[1, 2, 3, 4, 5, 6, 8, 7, 0], 0, 0, 8⟩
      (by decide) (by decide) 1 ⟨[1, 2, 3, 4, 5, 6, 8, 0, 7], 0, 1, 7⟩ ⟨_, by decide, rfl⟩⟩

/-- C8, as the code behaves: every board obtained from the goal board by any
number of moves, even or odd, has `Possible` true. -/
theorem Possible_of_reached_from_goal (F : DoubleOps D) (B : PuzzleState D)
    (hB : ValidState B) (hg : B.state = goal) (n : Nat) (S : PuzzleState D)
    (hr : reachIn F n B S) : Possible S.state = true := by
  rw [reachIn_Possible F n hB hr, hg]
  decide

/-- Instance of `Possible_of_reached_from_goal`: one move from the goal board. -/
theorem Possible_of_reached_from_goal_witness :
    (ValidState (⟨goal, 0, 0, 8⟩ : PuzzleState Int) ∧
      reachIn exactIntOps 1 ⟨goal, 0, 0, 8⟩ ⟨[1, 2, 3, 4, 5, 6, 7, 0, 8], 0, 1, 7⟩) ∧
      Possible [1, 2, 3, 4, 5, 6, 7, 0, 8] = true :=
  ⟨⟨by decide, ⟨_, by decide, rfl⟩⟩,
    Possible_of_reached_from_goal exactIntOps ⟨goal, 0, 0, 8⟩ (by decide) rfl 1
      ⟨[1, 2, 3, 4, 5, 6, 7, 0, 8], 0, 1, 7⟩ ⟨_, by decide, rfl⟩⟩

/-- C8 as stated fails: the board `{1,2,3,4,5,6,7,0,8}` is one move (an odd
number) from the goal board and `Possible` is true on it, not false. -/
theorem Possible_odd_moves_counterexample :
    ¬ ∀ (n : Nat) (S : PuzzleState Int), reachIn exactIntOps n ⟨goal, 0, 0, 8⟩ S →
        (Even n → Possible S.state = true) ∧ (Odd n → Possible S.state = false) := by
  intro h
  have h1 := (h 1 ⟨[1, 2, 3, 4, 5, 6, 7, 0, 8], 0, 1, 7⟩ ⟨_, by decide, rfl⟩).2 (by decide)
  exact absurd h1 (by decide)

/-- C9, evaluated on the default puzzle: the root node that `AStarMisplaced`
and `AStarEuclidean` put in `open` has heuristic 0 and carries the heuristic
value of the start board in its `depth` field (3 for `OutOfPlace`); `explored`
is empty and `open` has that one node. -/
theorem AStar_root_fields (F : DoubleOps D) :
    (AStarMisplacedInit F defaultPuzzle).openList
        = [{ state := defaultPuzzle, heuristic := F.ofInt 0, depth := 3, zero := 5 }] ∧
      (AStarMisplacedInit F defaultPuzzle).explored = [] ∧
      OutOfPlace defaultPuzzle = 3 ∧
      (AStarEuclideanInit F defaultPuzzle).openList
        = [{ state := defaultPuzzle, heuristic := F.ofInt 0,
             depth := F.toInt (Euclidean F defaultPuzzle), zero := 5 }] ∧
      (AStarEuclideanInit F defaultPuzzle).explored = [] := by
  have h1 : OutOfPlace defaultPuzzle = 3 := by decide
  have h2 : findZero defaultPuzzle = 5 := by decide
  simp [AStarMisplacedInit, AStarEuclideanInit, h1, h2]

/-- C10: on the goal board each of `UniformCostSearch`, `AStarMisplaced` and
`AStarEuclidean` returns in the `Goal!!!` branch on the first loop pass, with 0
nodes expanded, maximum queue size 1 and goal depth 0 (for `AStarEuclidean`,
given the `double` facts `ZeroExact`). -/
theorem goal_start_succeeds_at_once (F : DoubleOps D) (hF : ZeroExact F) (fuel : Nat) :
    UniformCostSearch F (fuel + 1) goal = some (.success 0 1 0) ∧
      AStarMisplaced F (fuel + 1) goal = some (.success 0 1 0) ∧
      AStarEuclidean F (fuel + 1) goal = some (.success 0 1 0) :=
  ⟨UniformCostSearch_goal F fuel, AStarMisplaced_goal F fuel, AStarEuclidean_goal F hF fuel⟩

/-- Instance of `goal_start_succeeds_at_once` for `exactIntOps` and one loop pass. -/
theorem goal_start_succeeds_at_once_witness :
    ZeroExact exactIntOps ∧
      UniformCostSearch exactIntOps 1 goal = some (.success 0 1 0) ∧
      AStarMisplaced exactIntOps 1 goal = some (.success 0 1 0) ∧
      AStarEuclidean exactIntOps 1 goal = some (.success 0 1 0) :=
  ⟨by decide, goal_start_succeeds_at_once exactIntOps (by decide) 0⟩

/-! ## Claims C11 to C20 -/

/-- C11, as the code behaves: on the default puzzle `{1,2,3,4,8,0,7,6,5}`
`UniformCostSearch` returns in the `Goal!!!` branch on its 59th loop pass and
reports goal depth 5 (with 58 nodes expanded and maximum queue size 44). -/
theorem UniformCostSearch_default_depth (F : DoubleOps D) (fuel : Nat) (h : 59 ≤ fuel) :
    UniformCostSearch F fuel defaultPuzzle = some (.success 58 44 5) := by
  obtain ⟨k, rfl⟩ := Nat.exists_eq_add_of_le h
  rw [UniformCostSearch_forget]
  exact runLoop_mono _ 59 k _ _ UniformCostSearch_default_59

/-- Instance of `UniformCostSearch_default_depth` with 100 loop passes allowed. -/
theorem UniformCostSearch_default_depth_witness :
    (59 ≤ 100) ∧ UniformCostSearch exactIntOps 100 defaultPuzzle = some (.success 58 44 5) :=
  ⟨by decide, UniformCostSearch_default_depth exactIntOps 100 (by decide)⟩

/-- C11 as stated fails: no run of `UniformCostSearch` on the default puzzle
reports goal depth 2. -/
theorem UniformCostSearch_default_depth_two_counterexample :
    ¬ ∃ (fuel : Nat) (e m : Int),
        UniformCostSearch exactIntOps fuel defaultPuzzle = some (.success e m 2) := by
  rintro ⟨fuel, e, m, h⟩
  have h1 := runLoop_mono _ fuel 59 _ _ h
  have h2 := runLoop_mono _ 59 fuel _ _ UniformCostSearch_default_59
  rw [Nat.add_comm, h2] at h1
  simp at h1

/-- C14: both heuristics are zero on the goal board. `OutOfPlace(goal)` is `0`,
and `Euclidean(goal)` is `0.0` as soon as `pow(0.0, 2)`, `0.0 + 0.0` and
`sqrt(0.0)` are `0.0`. -/
theorem heuristics_zero_on_goal (F : DoubleOps D) (hF : ZeroExact F) :
    OutOfPlace goal = 0 ∧ Euclidean F goal = F.ofInt 0 :=
  ⟨by decide, Euclidean_goal F hF⟩

/-- Instance of `heuristics_zero_on_goal` for the integer-valued operations. -/
theorem heuristics_zero_on_goal_witness :
    ZeroExact exactIntOps ∧ OutOfPlace goal = 0 ∧ Euclidean exactIntOps goal = 0 :=
  ⟨by decide, heuristics_zero_on_goal exactIntOps (by decide)⟩

/-- C19: `UniformCostSearch` does not deduplicate against the queue. On the
default puzzle `{1,2,3,4,8,0,7,6,5}`, a solvable permutation of `0..8`, the queue
at the start of the loop pass that follows the first 50 holds the board
`{1,0,8,4,3,2,7,6,5}` at the two positions 24 and 41. -/
theorem UniformCostSearch_queue_holds_duplicates (F : DoubleOps D) :
    ∃ (puzzle : List Int) (n : Nat) (st : SearchState D) (i j : Nat) (a b : PuzzleState D),
      ValidBoard puzzle ∧ Possible puzzle = true ∧
      iterateBody (UniformCostSearchBody F) n (UniformCostSearchInit F puzzle) = some st ∧
      i ≠ j ∧ st.openList[i]? = some a ∧ st.openList[j]? = some b ∧ a.state = b.state := by
  have h50 := ucsFrontier_default_50
  have hf := iterateBody_forget F 50 (UniformCostSearchInit F defaultPuzzle)
  rw [UniformCostSearchInit_forget] at hf
  simp only [ucsFrontier, hf, Option.map_map] at h50
  cases hit : iterateBody (UniformCostSearchBody F) 50 (UniformCostSearchInit F defaultPuzzle) with
  | none =>
    rw [hit] at h50
    cases h50
  | some st =>
    rw [hit] at h50
    simp only [Option.map_some', Function.comp_apply, forgetState, states_forget,
      Option.some.injEq, Prod.mk.injEq] at h50
    obtain ⟨h24, h41⟩ := h50
    simp only [states, List.getElem?_map, Option.map_eq_some'] at h24 h41
    obtain ⟨a, ha, has⟩ := h24
    obtain ⟨b, hb, hbs⟩ := h41
    exact ⟨defaultPuzzle, 50, st, 24, 41, a, b, by decide, by decide, hit, by decide, ha, hb,
      has.trans hbs.symm⟩

/-- C20: the depth reported by `UniformCostSearch` is the length of a shortest
solution. If `UniformCostSearch` returns from its goal branch with depth `d` on a
permutation of `0..8`, then `d ≥ 0`, some sequence of exactly `d` moves of
`ValidMoveset` leads from the start node to a node with the goal board, and every
sequence of `k` moves from the start node to a node with the goal board has
`d ≤ k`. -/
theorem UniformCostSearch_depth_is_shortest (F : DoubleOps D) (puzzle : List Int)
    (hv : ValidBoard puzzle) (fuel : Nat) (e m d : Int)
    (h : UniformCostSearch F fuel puzzle = some (.success e m d)) :
    0 ≤ d ∧ (∃ G, reachIn F d.toNat (ucsStart F puzzle) G ∧ G.state = goal) ∧
      ∀ (k : Nat) (G : PuzzleState D), reachIn F k (ucsStart F puzzle) G → G.state = goal →
        d ≤ k := by
  obtain ⟨n, st, curr, hit, hcm, hg, hd, hmin, h0, hr, hP⟩ :=
    UniformCostSearch_success_facts F hv h
  refine ⟨h0, ⟨curr, hr, hg⟩, ?_⟩
  intro k G hk hG
  have inv := iterateBody_invariant (UniformCostSearchBody F) (UCSOrderInv F puzzle)
    (fun s s' hs hss => UCSOrderInv_step F hv hs hss) n _ st (UCSOrderInv_init F hv hP) hit
  rcases inv.guard k G hk with g1 | ⟨x, hx, -, hxd⟩ | ⟨x, hx, hxd⟩
  · rw [hG] at g1
    exact absurd rfl (inv.explored_valid _ g1).2.2
  · have h1 := hmin x hx
    omega
  · have h1 := hmin x hx
    omega

/-- Instance of `UniformCostSearch_depth_is_shortest`: the default puzzle, on which
`UniformCostSearch` reports depth 5. -/
theorem UniformCostSearch_depth_is_shortest_witness :
    ValidBoard defaultPuzzle ∧
      UniformCostSearch exactIntOps 59 defaultPuzzle = some (.success 58 44 5) ∧
      ∀ (k : Nat) (G : PuzzleState Int), reachIn exactIntOps k (ucsStart exactIntOps defaultPuzzle) G →
        G.state = goal → (5 : Int) ≤ k :=
  ⟨by decide, UniformCostSearch_default_59,
    (UniformCostSearch_depth_is_shortest exactIntOps defaultPuzzle (by decide) 59 58 44 5
      UniformCostSearch_default_59).2.2⟩

/-- C17: dedup invariant of the A* engines. At the start of every loop pass of
`AStarMisplaced` and of `AStarEuclidean`, whatever the start board: no two queued
nodes have equal boards, no queued board is in `explored`, `explored` holds no
board twice (a board is appended to it, that is expanded, at most once), and `expanded` is the number of
distinct boards in `explored`. -/
theorem AStar_dedup_invariant (F : DoubleOps D) (puzzle : List Int) (n : Nat)
    (st : SearchState D)
    (h : iterateBody (AStarBody F (fun s => F.ofInt (OutOfPlace s))) n
          (AStarMisplacedInit F puzzle) = some st ∨
        iterateBody (AStarBody F (Euclidean F)) n (AStarEuclideanInit F puzzle) = some st) :
    (states st.openList).Nodup ∧ (∀ node ∈ st.openList, node.state ∉ st.explored) ∧
      st.explored.Nodup ∧
      (∀ (i j : Nat) (b : List Int), st.explored[i]? = some b → st.explored[j]? = some b →
        i = j) ∧
      st.expanded = (st.explored.toFinset.card : Int) := by
  have inv : DedupInv st := by
    rcases h with h | h
    · exact iterateBody_invariant _ DedupInv (fun s s' hs hss => AStarBody_dedup F _ hs hss)
        n _ st (DedupInv_single _) h
    · exact iterateBody_invariant _ DedupInv (fun s s' hs hss => AStarBody_dedup F _ hs hss)
        n _ st (DedupInv_single _) h
  refine ⟨inv.open_nodup, inv.disjoint, inv.explored_nodup,
    fun i j b hi hj => List.getElem?_inj (List.getElem?_eq_some_iff.1 hi).1 inv.explored_nodup
      (hi.trans hj.symm), ?_⟩
  rw [List.toFinset_card_of_nodup inv.explored_nodup]
  exact inv.expanded_eq

/-- Instance of `AStar_dedup_invariant`: `AStarMisplaced` on the default puzzle
after three loop passes. -/
theorem AStar_dedup_invariant_witness :
    ∃ st, iterateBody (AStarBody exactIntOps (fun s => exactIntOps.ofInt (OutOfPlace s))) 3
          (AStarMisplacedInit exactIntOps defaultPuzzle) = some st ∧
      (states st.openList).Nodup ∧ st.expanded = (st.explored.toFinset.card : Int) := by
  obtain ⟨st, hst⟩ := Option.isSome_iff_exists.1
    (show (iterateBody (AStarBody exactIntOps (fun s => exactIntOps.ofInt (OutOfPlace s))) 3
      (AStarMisplacedInit exactIntOps defaultPuzzle)).isSome = true by decide!)
  have h := AStar_dedup_invariant exactIntOps defaultPuzzle 3 st (Or.inl hst)
  exact ⟨st, hst, h.1, h.2.2.2.2⟩

/-- C13: the misplaced-tile heuristic is consistent and admissible under unit
move cost. For a valid node `B`, every successor `S` of `ValidMoveset` has
`OutOfPlace(B.state) ≤ 1 + OutOfPlace(S.state)`, and every sequence of `k` moves
from `B` to a node with the goal board has `OutOfPlace(B.state) ≤ k`. -/
theorem OutOfPlace_consistent_admissible (F : DoubleOps D) (B : PuzzleState D)
    (hB : ValidState B) :
    (∀ S ∈ ValidMoveset F B, OutOfPlace B.state ≤ 1 + OutOfPlace S.state) ∧
      ∀ (k : Nat) (G : PuzzleState D), reachIn F k B G → G.state = goal →
        OutOfPlace B.state ≤ k :=
  ⟨fun _ hS => OutOfPlace_step F hB hS, fun k _ hr hG => OutOfPlace_admissible F k hB hr hG⟩

/-- Instance of `OutOfPlace_consistent_admissible`: the start node of the default
puzzle (blank at index 5), which has three misplaced tiles. -/
theorem OutOfPlace_consistent_admissible_witness :
    ValidState (⟨defaultPuzzle, 0, 0, 5⟩ : PuzzleState Int) ∧ OutOfPlace defaultPuzzle = 3 ∧
      ∀ (k : Nat) (G : PuzzleState Int),
        reachIn exactIntOps k ⟨defaultPuzzle, 0, 0, 5⟩ G → G.state = goal → (3 : Int) ≤ k :=
  ⟨by decide, by decide,
    (OutOfPlace_consistent_admissible exactIntOps ⟨defaultPuzzle, 0, 0, 5⟩ (by decide)).2⟩

/-- C15: on a permutation of `0..8`, `OutOfPlace` is the number of tiles `t` in
`1..8` whose index in the board differs from the index of `t` in the goal board;
the blank is not counted, and the result is between 0 and 8. -/
theorem OutOfPlace_counts_misplaced_tiles (state : List Int) (h : ValidBoard state) :
    OutOfPlace state = ((List.filter
        (fun t : Int => decide (state.indexOf t ≠ goal.indexOf t))
        [1, 2, 3, 4, 5, 6, 7, 8]).length : Int) ∧
      0 ≤ OutOfPlace state ∧ OutOfPlace state ≤ 8 := by
  have h1 := OutOfPlace_eq_filter h
  have h2 := List.length_filter_le
    (fun t : Int => decide (state.indexOf t ≠ goal.indexOf t)) [1, 2, 3, 4, 5, 6, 7, 8]
  refine ⟨h1, ?_, ?_⟩
  · rw [h1]
    exact Int.ofNat_nonneg _
  · rw [h1]
    simp only [List.length_cons, List.length_nil] at h2
    omega

/-- Instance of `OutOfPlace_counts_misplaced_tiles`: the default puzzle, where the
tiles 5, 6 and 8 are out of place. -/
theorem OutOfPlace_counts_misplaced_tiles_witness :
    ValidBoard defaultPuzzle ∧ OutOfPlace defaultPuzzle = 3 ∧
      List.filter (fun t : Int => decide (defaultPuzzle.indexOf t ≠ goal.indexOf t))
        [1, 2, 3, 4, 5, 6, 7, 8] = [5, 6, 8] ∧
      OutOfPlace defaultPuzzle = ((List.filter
        (fun t : Int => decide (defaultPuzzle.indexOf t ≠ goal.indexOf t))
        [1, 2, 3, 4, 5, 6, 7, 8]).length : Int) :=
  ⟨by decide, by decide, by decide,
    (OutOfPlace_counts_misplaced_tiles defaultPuzzle (by decide)).1⟩

/-- C16: the Euclidean heuristic over exact real arithmetic. When the operations
are those of the real numbers, `Euclidean(state)` is the sum, over the indices `i`
whose tile `v = state[i]` is not the blank, of
`sqrt(((v-1)/3 - i/3)^2 + ((v-1)%3 - i%3)^2)` with the truncating `/` and `%` of
`int`; and it is consistent under unit move cost: for a valid node `B` and a
successor `S` of `ValidMoveset`, `Euclidean(B.state) ≤ 1 + Euclidean(S.state)`. -/
theorem Euclidean_real_sum_consistent (F : DoubleOps ℝ) (hF : RealExact F) :
    (∀ state : List Int, Euclidean F state =
      Finset.sum (Finset.range state.length) (fun i =>
        if state.getD i 0 = 0 then 0
        else Real.sqrt
          (((Int.tdiv (state.getD i 0 - 1) 3 - Int.tdiv (i : Int) 3 : Int) : ℝ) ^ 2 +
            ((Int.tmod (state.getD i 0 - 1) 3 - Int.tmod (i : Int) 3 : Int) : ℝ) ^ 2))) ∧
      ∀ B S : PuzzleState ℝ, ValidState B → S ∈ ValidMoveset F B →
        Euclidean F B.state ≤ 1 + Euclidean F S.state := by
  refine ⟨fun state => ?_, fun B S hB hS => Euclidean_step F hF hB hS⟩
  rw [Euclidean_eq_sum F hF]
  apply Finset.sum_congr rfl
  intro i _
  unfold euclideanAt
  split_ifs
  · rw [hF.1]
    simp
  · exact tileDistance_real F hF _ _

/-- Instance of `Euclidean_real_sum_consistent`: real operations, the start node
of the default puzzle and its successor by the move `-1`. -/
theorem Euclidean_real_sum_consistent_witness :
    ∃ F : DoubleOps ℝ, RealExact F ∧
      ValidState (⟨defaultPuzzle, 0, 0, 5⟩ : PuzzleState ℝ) ∧
      moveNode F ⟨defaultPuzzle, 0, 0, 5⟩ (-1) ∈ ValidMoveset F ⟨defaultPuzzle, 0, 0, 5⟩ ∧
      Euclidean F defaultPuzzle ≤ 1 + Euclidean F (moveNode F ⟨defaultPuzzle, 0, 0, 5⟩ (-1)).state := by
  have hF : RealExact ⟨fun x => (x : ℝ), fun a b => a + b, fun a b => a ^ b, Real.sqrt,
      fun a b => decide (a < b), fun a => ⌊a⌋⟩ :=
    ⟨fun _ => rfl, fun _ _ => rfl, fun a => by simp, fun _ => rfl⟩
  have hmem : ∀ F : DoubleOps ℝ,
      moveNode F ⟨defaultPuzzle, 0, 0, 5⟩ (-1) ∈ ValidMoveset F ⟨defaultPuzzle, 0, 0, 5⟩ :=
    fun F => (mem_ValidMoveset F _ _).2 ⟨-1, by decide, by decide, rfl⟩
  exact ⟨_, hF, by decide, hmem _,
    (Euclidean_real_sum_consistent _ hF).2 ⟨defaultPuzzle, 0, 0, 5⟩ _ (by decide) (hmem _)⟩

end Project1
